import Mathlib

/-!
Verification of the project-file synthesis engine of the CUGL build scripts
(src/cugl/scripts/apple.py and src/cugl/scripts/windows.py).

Python text is modelled at the level of character lists (List Char).  A file
is modelled as the list of its lines, exactly as Python's line iteration
yields them: every line carries its terminating newline character.  Python
dictionaries are modelled as association lists with Python's ordering
semantics: assignment to an existing key updates its value in place while
keeping its position, assignment to a fresh key appends it at the end, and
iteration follows that order.  A Python function that can raise or that
returns None on failure is modelled with an Option result, with none for the
failure outcome.
-/

/-- Character-list form of a string literal. -/
def sl (s : String) : List Char := s.data

/-- The opening brace character (written via its code point). -/
def lbrace : Char := Char.ofNat 123

/-- The closing brace character (written via its code point). -/
def rbrace : Char := Char.ofNat 125

/-- The newline character. -/
def nlc : Char := Char.ofNat 10

/-- Index of the first occurrence of pat in hay, if any. -/
def findSub : List Char → List Char → Option Nat
  | hay, pat =>
    if pat.isPrefixOf hay then some 0
    else
      match hay with
      | [] => none
      | _ :: t => (findSub t pat).map (· + 1)

/-- Python substring test, as in the expression pat in hay. -/
def isSubstr (pat hay : List Char) : Bool := (findSub hay pat).isSome

theorem findSub_bound {hay pat : List Char} {n : Nat} (h : findSub hay pat = some n) :
    n + pat.length ≤ hay.length := by
  induction hay generalizing n with
  | nil =>
    rw [findSub] at h
    split at h
    · cases h
      simp_all [List.isPrefixOf_iff_prefix, List.IsPrefix.length_le]
    · cases h
  | cons c t ih =>
    rw [findSub] at h
    split at h
    · cases h
      rename_i hp
      simpa using List.IsPrefix.length_le (List.isPrefixOf_iff_prefix.mp hp)
    · simp only [Option.map_eq_some'] at h
      obtain ⟨m, hm, rfl⟩ := h
      have := ih hm
      simp only [List.length_cons]
      omega

/-- Python str.find: -1 when the pattern does not occur. -/
def pyFind (hay pat : List Char) : Int :=
  match findSub hay pat with
  | some n => (n : Int)
  | none => -1

/-- Python index normalization for slice endpoints. -/
def pyIdx (len : Nat) (i : Int) : Nat :=
  if i < 0 then (i + len).toNat else min i.toNat len

/-- Python slice l[a:b] with full negative-index semantics. -/
def pySlice (l : List Char) (a b : Int) : List Char :=
  (l.take (pyIdx l.length b)).drop (pyIdx l.length a)

/-- Python l[a:]. -/
def pySliceFrom (l : List Char) (a : Int) : List Char :=
  l.drop (pyIdx l.length a)

/-- Python l[:b]. -/
def pySliceTo (l : List Char) (b : Int) : List Char :=
  l.take (pyIdx l.length b)

/-- Python str.find(pat, start): first occurrence at or after start. -/
def pyFindFrom (hay pat : List Char) (start : Int) : Int :=
  let st := pyIdx hay.length start
  match findSub (hay.drop st) pat with
  | some n => ((st + n : Nat) : Int)
  | none => -1

/-- Python str.rfind: index of the last occurrence, -1 when absent. -/
def pyRfind (hay pat : List Char) : Int :=
  match findSub hay.reverse pat.reverse with
  | some n => ((hay.length - pat.length - n : Nat) : Int)
  | none => -1

/-- Python whitespace test for str.strip. -/
def isPyWS (c : Char) : Bool :=
  c = ' ' || c = '\t' || c = nlc || c = Char.ofNat 13 || c = Char.ofNat 12 || c = Char.ofNat 11

/-- Python str.strip(): drop whitespace from both ends. -/
def stripChars (l : List Char) : List Char :=
  ((l.dropWhile isPyWS).reverse.dropWhile isPyWS).reverse

/-- The splitting loop of Python str.split(sep): each nonempty separator
occurrence consumes at least one character, so the input length bounds the
number of chunks and the fuel never runs out on the entry below. -/
def splitOnSubAux (sep : List Char) : Nat → List Char → List (List Char)
  | 0, l => [l]
  | fuel + 1, l =>
    match findSub l sep with
    | none => [l]
    | some n => l.take n :: splitOnSubAux sep fuel (l.drop (n + sep.length))

/-- Python str.split(sep) for a nonempty separator. -/
def splitOnSub (l sep : List Char) : List (List Char) :=
  if sep = [] then [l] else splitOnSubAux sep l.length l

/-- Python str.lower restricted to ASCII, as used on build names. -/
def lowerChars (l : List Char) : List Char := l.map Char.toLower

/-- Association-list lookup (Python d[k] read access). -/
def aget {K V : Type} [DecidableEq K] : List (K × V) → K → Option V
  | [], _ => none
  | (k, v) :: t, key => if k = key then some v else aget t key

/-- Python dict assignment d[k] = v: update in place, else append. -/
def aset {K V : Type} [DecidableEq K] : List (K × V) → K → V → List (K × V)
  | [], key, v => [(key, v)]
  | (k, w) :: t, key, v => if k = key then (k, v) :: t else (k, w) :: aset t key v

/-- Append one element to the list stored at a key (Python d[k].append(x)).
The key is created when absent; in the modelled code the key always exists
at every use site. -/
def apush {K V : Type} [DecidableEq K] (m : List (K × List V)) (k : K) (x : V) :
    List (K × List V) :=
  aset m k (((aget m k).getD []) ++ [x])

/-- Key membership test (Python k in d). -/
def ahas {K V : Type} [DecidableEq K] (m : List (K × V)) (k : K) : Bool :=
  (aget m k).isSome

theorem aget_aset_self {K V : Type} [DecidableEq K] (m : List (K × V)) (k : K) (v : V) :
    aget (aset m k v) k = some v := by
  induction m with
  | nil => simp [aget, aset]
  | cons h t ih =>
    obtain ⟨k0, v0⟩ := h
    by_cases hk : k0 = k
    · simp [aget, aset, hk]
    · simp [aget, aset, hk, ih]

theorem aget_aset_other {K V : Type} [DecidableEq K] (m : List (K × V)) (k k2 : K) (v : V)
    (h : k ≠ k2) : aget (aset m k v) k2 = aget m k2 := by
  induction m with
  | nil => simp [aget, aset, h]
  | cons hd t ih =>
    obtain ⟨k0, v0⟩ := hd
    by_cases hk : k0 = k
    · subst hk
      simp [aget, aset, h]
    · simp only [aset, if_neg hk, aget]
      by_cases hk2 : k0 = k2
      · simp [hk2]
      · simp [hk2, ih]

theorem aget_apush_other {K V : Type} [DecidableEq K] (m : List (K × List V)) (k k2 : K) (x : V)
    (h : k ≠ k2) : aget (apush m k x) k2 = aget m k2 :=
  aget_aset_other m k k2 _ h

theorem aget_apush_self {K V : Type} [DecidableEq K] (m : List (K × List V)) (k : K) (x : V) :
    aget (apush m k x) k = some (((aget m k).getD []) ++ [x]) :=
  aget_aset_self m k _

/-- The key sequence produced by a Python dict assignment depends only on
the previous key sequence and the assigned key. -/
def asetKeys {K : Type} [DecidableEq K] : List K → K → List K
  | [], key => [key]
  | k :: t, key => if k = key then k :: t else k :: asetKeys t key

theorem aset_map_fst {K V : Type} [DecidableEq K] (m : List (K × V)) (k : K) (v : V) :
    (aset m k v).map Prod.fst = asetKeys (m.map Prod.fst) k := by
  induction m with
  | nil => simp [aset, asetKeys]
  | cons hd t ih =>
    obtain ⟨k0, v0⟩ := hd
    by_cases hk : k0 = k
    · simp [aset, asetKeys, hk]
    · simp [aset, asetKeys, hk, ih]

/-- Split a byte sequence into Python file-iteration lines: each chunk ends
with the newline that terminates it; a final chunk without a newline is
yielded as-is. -/
def toLines : List Char → List (List Char)
  | [] => []
  | s =>
    match h : findSub s [nlc] with
    | none => [s]
    | some n => s.take (n + 1) :: toLines (s.drop (n + 1))
termination_by s => s.length
decreasing_by
  have hb := findSub_bound h
  simp only [List.length_cons, List.length_nil] at hb
  simp only [List.length_drop]
  omega

/-- Python sep.flatten(items). -/
def joinSep (sep : List Char) : List (List Char) → List Char
  | [] => []
  | [x] => x
  | x :: y :: t => x ++ sep ++ joinSep sep (y :: t)

/-- Modelled from the spec: util.group_parity (the util module is not under
src/).  Per the spec the pbxproj parser tracks brace depth by counting the
opening and closing brace occurrences of each line. -/
def group_parity (line : List Char) : Int :=
  (line.count lbrace : Int) - (line.count rbrace : Int)

/-- Modelled from the spec: the identifier service (util.UUIDService is not
under src/).  The service derives an identifier from a strong hash of the
namespaced key, formatted for the dialect; the spec requires determinism and
that distinct keys yield distinct identifiers with cryptographically
negligible collision probability, which the model expresses by quantifying
over services whose hash is injective. -/
structure UUIDService where
  getAppleUUID : String → String
  getWindowsUUID : String → String

/-- Modelled from the spec: UUIDService.applyPrefix overwrites a fixed-width
(two-character) leading segment of the identifier with the role tag,
preserving the remaining characters. -/
def applyPrefix (tag uuid : String) : String :=
  tag ++ uuid.drop 2

/-- The source file tree (config source_tree): a Python ordered dict mapping
a path segment either to a nested dict (a directory) or to a platform-tag
string (a leaf file).  The ordered dict is modelled as a cons spine carrying
the entry name, its payload, and the remaining entries in iteration order. -/
inductive FTree where
  | nil : FTree
  | file (name tag : String) (rest : FTree) : FTree
  | dir (name : String) (children : FTree) (rest : FTree) : FTree
deriving DecidableEq

/-- A child record of build_groups: (uuid, path segment, annotation). -/
abbrev GChild := String × String × String

/-- A group-table entry: uuid mapped to (display name, children). -/
abbrev GEntry := String × (String × List GChild)

/-- The body of build_groups (apple.py lines 104-122): walks the file tree
in iteration order and returns the accumulated children of the current group
together with the ordered dict assignments performed for sub-groups.  For a
sub-directory it recursively builds the sub-table (apple.py line 110: the
recursive build_groups call is inlined here as the uuid allocation plus the
fold over the collected assignments) and renames the sub-root entry to the
directory name. -/
def build_items (svc : UUIDService) (path : String) : FTree → List GChild × List GEntry
  | FTree.nil => ([], [])
  | FTree.file name tag rest =>
    let newid := applyPrefix "BA" (svc.getAppleUUID ("FILE://" ++ path ++ "/" ++ name))
    let (cs, ss) := build_items svc path rest
    ((newid, name, tag) :: cs, ss)
  | FTree.dir name children rest =>
    let subpath := path ++ "/" ++ name
    let subuuid := applyPrefix "CD" (svc.getAppleUUID ("GROUP://" ++ subpath))
    let (subcs, subss) := build_items svc subpath children
    let submap := subss.foldl (fun m kv => aset m kv.1 kv.2) [(subuuid, ("", subcs))]
    let renamed := submap.map (fun e => if e.1 = subuuid then (e.1, (name, e.2.2)) else e)
    let (cs, ss) := build_items svc path rest
    ((subuuid, name, "group") :: cs, renamed ++ ss)

/-- build_groups (apple.py lines 80-122): allocates the group uuid for the
root path, walks the tree, and returns the root uuid together with the group
table, whose first entry is the root (created first, Python dict order) and
whose remaining entries are the dict assignments made during the walk. -/
def build_groups (svc : UUIDService) (path : String) (tree : FTree) :
    String × List GEntry :=
  let uuid := applyPrefix "CD" (svc.getAppleUUID ("GROUP://" ++ path))
  let (cs, ss) := build_items svc path tree
  (uuid, ss.foldl (fun m kv => aset m kv.1 kv.2) [(uuid, ("", cs))])

/-- Equality of file trees up to leaf platform tags: same segment names and
same directory structure (identical source trees by path). -/
def same_shape : FTree → FTree → Bool
  | FTree.nil, FTree.nil => true
  | FTree.file n _ r, FTree.file n2 _ r2 => n = n2 && same_shape r r2
  | FTree.dir n c r, FTree.dir n2 c2 r2 => n = n2 && same_shape c c2 && same_shape r r2
  | _, _ => false

/-- place_entries (apple.py lines 291-318): insert formatted entries right
after the opening of the named parenthesized list of an XCode object block.
When the opening is not found the Python function falls through its bare
return statement and yields None, modelled as none. -/
def place_entries (obj : List Char) (entries : List (List Char)) (pref : List Char) :
    Option (List Char) :=
  let indent := sl "\n\t\t\t\t"
  let line := pyFind obj (pref ++ sl " = (")
  if line = -1 then none
  else
    let pos := pyFindFrom obj (sl "\n") line
    let children := indent ++ joinSep indent entries
    some (pySliceTo obj pos ++ children ++ pySliceFrom obj pos)

/-- The generated-project lookup shared by add_macos_externals (apple.py
lines 1610-1618), add_ios_externals (apple.py lines 1674-1682) and
add_external_module (windows.py lines 1184-1192): with zero glob results the
module variable becomes None (after an error message); with more than one
result a warning is printed and the first is used; otherwise the single
result is used. -/
def locate_generated (found : List (List Char)) : Option (List Char) :=
  if found.length = 0 then none
  else if found.length > 1 then some (found.headD [])
  else some (found.headD [])

/-- The per-module integration step guarding the splice (apple.py lines
1620-1624, windows.py lines 1194-1201): the linking pipeline runs only when
a generated project was located.  The dialect-specific pipeline itself
(configure_external / link_external / link_frameworks, reading the generated
project from disk) is abstracted as the function link. -/
def integrate_module {A : Type} (found : List (List Char)) (link : A → A) (host : A) : A :=
  match locate_generated found with
  | none => host
  | some _ => link host

theorem foldl_aset_map_fst {K V : Type} [DecidableEq K]
    (ss1 ss2 : List (K × V)) (m1 m2 : List (K × V))
    (hss : ss1.map Prod.fst = ss2.map Prod.fst)
    (hm : m1.map Prod.fst = m2.map Prod.fst) :
    (ss1.foldl (fun m kv => aset m kv.1 kv.2) m1).map Prod.fst =
      (ss2.foldl (fun m kv => aset m kv.1 kv.2) m2).map Prod.fst := by
  induction ss1 generalizing ss2 m1 m2 with
  | nil =>
    cases ss2 with
    | nil => simpa using hm
    | cons b t => simp at hss
  | cons a t ih =>
    cases ss2 with
    | nil => simp at hss
    | cons b t2 =>
      simp only [List.map_cons, List.cons.injEq] at hss
      simp only [List.foldl_cons]
      exact ih t2 _ _ hss.2 (by rw [aset_map_fst, aset_map_fst, hm, hss.1])

/-- The uuids and names recorded by build_items, and the keys of the dict
assignments it performs, depend only on the shape of the file tree. -/
theorem build_items_shape (svc : UUIDService) :
    ∀ (t1 t2 : FTree) (path : String), same_shape t1 t2 = true →
      (build_items svc path t1).1.map (fun c => (c.1, c.2.1)) =
        (build_items svc path t2).1.map (fun c => (c.1, c.2.1)) ∧
      (build_items svc path t1).2.map Prod.fst = (build_items svc path t2).2.map Prod.fst := by
  intro t1
  induction t1 with
  | nil =>
    intro t2 path h
    cases t2 <;> simp_all [same_shape]
  | file n tag r ihr =>
    intro t2 path h
    cases t2 with
    | nil => simp [same_shape] at h
    | dir n2 c2 r2 => simp [same_shape] at h
    | file n2 tag2 r2 =>
      simp only [same_shape, Bool.and_eq_true, decide_eq_true_eq] at h
      obtain ⟨rfl, hr⟩ := h
      have := ihr r2 path hr
      simp only [build_items]
      constructor
      · simpa using this.1
      · simpa using this.2
  | dir n c r ihc ihr =>
    intro t2 path h
    cases t2 with
    | nil => simp [same_shape] at h
    | file n2 tag2 r2 => simp [same_shape] at h
    | dir n2 c2 r2 =>
      simp only [same_shape, Bool.and_eq_true, decide_eq_true_eq] at h
      obtain ⟨⟨rfl, hc⟩, hr⟩ := h
      have hC := ihc c2 (path ++ "/" ++ n) hc
      have hR := ihr r2 path hr
      simp only [build_items]
      have hsub :
          ((build_items svc (path ++ "/" ++ n) c).2.foldl (fun m kv => aset m kv.1 kv.2)
              [(applyPrefix "CD" (svc.getAppleUUID ("GROUP://" ++ (path ++ "/" ++ n))), ("",
                (build_items svc (path ++ "/" ++ n) c).1))]).map Prod.fst =
          ((build_items svc (path ++ "/" ++ n) c2).2.foldl (fun m kv => aset m kv.1 kv.2)
              [(applyPrefix "CD" (svc.getAppleUUID ("GROUP://" ++ (path ++ "/" ++ n))), ("",
                (build_items svc (path ++ "/" ++ n) c2).1))]).map Prod.fst := by
        exact foldl_aset_map_fst _ _ _ _ hC.2 (by simp)
      constructor
      · simpa using hR.1
      · simp only [List.map_append]
        have hren : ∀ (sub : List GEntry) (u : String),
            (sub.map (fun e => if e.1 = u then (e.1, (n, e.2.2)) else e)).map Prod.fst =
              sub.map Prod.fst := by
          intro sub u
          induction sub with
          | nil => simp
          | cons a t ih =>
            by_cases ha : a.1 = u <;> simp [ha, ih]
        rw [hren, hren, hsub, hR.2]

/-- C3: within one generation run the identifier service is deterministic
and collision-free — requesting an identifier for the same key twice returns
the same identifier, distinct keys return distinct identifiers (the strong
hash of the key idealized as injective per the spec's negligible-collision
requirement), and consequently source trees that are identical by path yield
identical group identifiers from build_groups across separate invocations. -/
theorem c3_identifier_service (svc : UUIDService)
    (hinj : Function.Injective svc.getAppleUUID) :
    (∀ k : String, svc.getAppleUUID k = svc.getAppleUUID k) ∧
    (∀ k1 k2 : String, k1 ≠ k2 → svc.getAppleUUID k1 ≠ svc.getAppleUUID k2) ∧
    (∀ (path : String) (t1 t2 : FTree), same_shape t1 t2 = true →
      (build_groups svc path t1).1 = (build_groups svc path t2).1 ∧
      (build_groups svc path t1).2.map Prod.fst = (build_groups svc path t2).2.map Prod.fst) := by
  refine ⟨fun _ => rfl, fun k1 k2 hne hc => hne (hinj hc), fun path t1 t2 hs => ?_⟩
  have h1 := build_items_shape svc t1 t2 path hs
  constructor
  · rfl
  · simp only [build_groups]
    exact foldl_aset_map_fst _ _ _ _ h1.2 (by simp)

/-- A sample identifier service whose hash is injective. -/
def demo_svc : UUIDService :=
  { getAppleUUID := fun k => k, getWindowsUUID := fun k => k }

/-- A small source tree with a sub-directory and platform-tagged leaves. -/
def demo_tree1 : FTree :=
  FTree.dir "models" (FTree.file "tile.cpp" "all" FTree.nil)
    (FTree.file "app.cpp" "macos" FTree.nil)

/-- The same tree by path, with different platform tags on the leaves. -/
def demo_tree2 : FTree :=
  FTree.dir "models" (FTree.file "tile.cpp" "ios" FTree.nil)
    (FTree.file "app.cpp" "all" FTree.nil)

theorem c3_identifier_service_witness :
    Function.Injective demo_svc.getAppleUUID ∧
    same_shape demo_tree1 demo_tree2 = true ∧
    (build_groups demo_svc "src" demo_tree1).2.map Prod.fst =
      (build_groups demo_svc "src" demo_tree2).2.map Prod.fst := by
  have hinj : Function.Injective demo_svc.getAppleUUID := fun a b h => h
  have hs : same_shape demo_tree1 demo_tree2 = true := by decide
  exact ⟨hinj, hs, ((c3_identifier_service demo_svc hinj).2.2 "src" demo_tree1 demo_tree2 hs).2⟩

/-- C7 counterexample: when the secondary generator leaves two project
files in the module directory, the module is not skipped — the lookup
returns the first file and the linking pipeline runs, changing the host. -/
theorem c7_counterexample :
    locate_generated [sl "a.xcodeproj", sl "b.xcodeproj"] = some (sl "a.xcodeproj") ∧
    integrate_module [sl "a.xcodeproj", sl "b.xcodeproj"] (fun n : Nat => n + 1) 0 = 1 := by
  exact ⟨rfl, rfl⟩

/-- C7 (amended): a module is skipped — no splicing, host project unchanged
— exactly when the generator leaves zero project files (the tool's exit
status is never consulted); with one or more files the first is used. -/
theorem c7_zero_projects_skip {A : Type} (found : List (List Char)) (link : A → A) (host : A) :
    (found = [] → integrate_module found link host = host) ∧
    (found ≠ [] → locate_generated found = some (found.headD [])) := by
  constructor
  · intro h
    subst h
    rfl
  · intro h
    match found with
    | [] => exact absurd rfl h
    | x :: t => simp [locate_generated]

theorem c7_zero_projects_skip_witness :
    integrate_module ([] : List (List Char)) (fun n : Nat => n + 1) 0 = 0 ∧
    locate_generated [sl "m.sln"] = some (sl "m.sln") := by
  refine ⟨(c7_zero_projects_skip [] (fun n : Nat => n + 1) 0).1 rfl, ?_⟩
  exact (c7_zero_projects_skip [sl "m.sln"] (fun n : Nat => n + 1) (0 : Nat)).2 (by decide)

/-- C8 counterexample: an object block without the opening of the requested
list field makes place_entries return None, not the block unchanged. -/
theorem c8_counterexample :
    place_entries (sl "x = 1;\n") [sl "B,"] (sl "files") = none ∧
    place_entries (sl "x = 1;\n") [sl "B,"] (sl "files") ≠ some (sl "x = 1;\n") := by
  constructor
  · decide
  · decide

/-- C8 (amended): when the block does not contain the field = ( opening of
the requested list field, place_entries inserts nothing and returns None —
a defensive no-op outcome the caller can detect, not an error. -/
theorem c8_missing_field_returns_none (obj : List Char) (entries : List (List Char))
    (pref : List Char) (h : findSub obj (pref ++ sl " = (") = none) :
    place_entries obj entries pref = none := by
  simp [place_entries, pyFind, h]

theorem c8_missing_field_returns_none_witness :
    findSub (sl "y;\n") (sl "files" ++ sl " = (") = none ∧
    place_entries (sl "y;\n") [sl "Z,"] (sl "files") = none :=
  ⟨by decide, c8_missing_field_returns_none (sl "y;\n") [sl "Z,"] (sl "files") (by decide)⟩

/-- Parser state of parse_pbxproj (apple.py lines 222-230): the current
section name, the pending accumulator, the running brace count, the
between-sections flag, the recorded section order (contents PBXOrder), and
the section table.  The Python local variable block always aliases the list
stored under the current state key, so it is not modelled separately.
Object items are Option values because the final block.append(accum) at
line 286 appends the accumulator even when it is None. -/
structure PbxSt where
  cur : List Char
  accum : Option (List Char)
  brace : Int
  between : Bool
  order : List (List Char)
  sects : List (List Char × List (Option (List Char)))
deriving DecidableEq

/-- The initial parser state (apple.py lines 222-229). -/
def pbx_init : PbxSt :=
  { cur := sl "PBXHeader", accum := none, brace := 0, between := false,
    order := [sl "PBXHeader"], sects := [(sl "PBXHeader", [])] }

/-- The advance test of apple.py line 236: the line opens a new section. -/
def advTrigger (line : List Char) : Bool :=
  isSubstr (sl "/* Begin") line && isSubstr (sl "section */") line

/-- The section-name extraction of apple.py lines 238-241. -/
def extract_name (line : List Char) : List Char :=
  let pos := pyFind line (sl "/* Begin ") + 9
  let stA := pySliceFrom line pos
  let pos2 := pyFind stA (sl "section */")
  stripChars (pySliceTo stA pos2)

/-- The section end marker whose containment apple.py line 243 tests. -/
def end_text (n : List Char) : List Char :=
  sl "/* End " ++ n ++ sl " section */"

/-- Python-truthiness guarded append of the accumulator (apple.py lines
247-248 and 266-267: if accum: block.append(accum)). -/
def pushAccumIf (m : List (List Char × List (Option (List Char)))) (k : List Char) :
    Option (List Char) → List (List Char × List (Option (List Char)))
  | some a => if a ≠ [] then apush m k (some a) else m
  | none => m

/-- One line of parse_pbxproj's loop (apple.py lines 232-283). -/
def pbx_step (st : PbxSt) (line : List Char) : Option PbxSt :=
  if st.cur ≠ sl "PBXFooter" ∧ advTrigger line = true then
    let newName := extract_name line
    let sects1 := pushAccumIf st.sects st.cur st.accum
    some { cur := newName, accum := none, brace := 0, between := false,
           order := st.order ++ [newName], sects := aset sects1 newName [] }
  else if st.cur = sl "PBXHeader" ∨ st.cur = sl "PBXFooter" then
    some { st with accum := some ((st.accum.getD []) ++ line) }
  else if isSubstr (end_text st.cur) line = true then
    let sects1 :=
      match st.accum with
      | some a => if a ≠ [] ∧ a ≠ sl "\n" then apush st.sects st.cur (some a) else st.sects
      | none => st.sects
    some { st with sects := sects1, between := true }
  else if st.between = true then
    if (stripChars line).length > 0 then
      some { cur := sl "PBXFooter", accum := some line, brace := 0, between := false,
             order := st.order ++ [sl "PBXFooter"],
             sects := aset (pushAccumIf st.sects st.cur st.accum) (sl "PBXFooter") [] }
    else some st
  else
    let b := st.brace + group_parity line
    if b < 0 then none
    else
      let acc := (st.accum.getD []) ++ line
      if b = 0 then
        if acc ≠ sl "\n" then
          some { st with brace := b, accum := none, sects := apush st.sects st.cur (some acc) }
        else some { st with brace := b, accum := none }
      else some { st with brace := b, accum := some acc }

/-- Run a line-oriented parser over the file's lines, stopping at the first
failure (a Python early return or raise). -/
def runLines {S : Type} (step : S → List Char → Option S) : S → List (List Char) → Option S
  | st, [] => some st
  | st, l :: ls =>
    match step st l with
    | none => none
    | some st2 => runLines step st2 ls

/-- The parsed project object model: section order plus section table. -/
structure Pbx where
  order : List (List Char)
  sects : List (List Char × List (Option (List Char)))
deriving DecidableEq

/-- parse_pbxproj (apple.py lines 202-288) over the file's lines: runs the
line loop and then performs the unconditional final block.append(accum) of
line 286.  The ERROR print and return None at lines 276-277 (negative brace
count) is the none outcome. -/
def parse_pbxproj (lines : List (List Char)) : Option Pbx :=
  (runLines pbx_step pbx_init lines).map
    (fun st => Pbx.mk st.order (apush st.sects st.cur st.accum))

/-- Sequence the items of one section for writing: a None item makes the
writer fail, since Python's file.write(None) raises TypeError. -/
def seqItems {A : Type} : List (Option A) → Option (List A)
  | [] => some []
  | none :: _ => none
  | some a :: t => (seqItems t).map (a :: ·)

/-- One section of write_pbxproj's output (apple.py lines 810-816): markers
around the verbatim items, except for the header/footer pseudo-sections.
A missing key (Python KeyError) or a None item makes the writer fail. -/
def write_section (pbx : Pbx) (name : List Char) : Option (List Char) :=
  (aget pbx.sects name).bind (fun items =>
    (seqItems items).bind (fun its =>
      if name = sl "PBXHeader" ∨ name = sl "PBXFooter" then some its.flatten
      else
        some (sl "/* Begin " ++ name ++ sl " section */\n" ++ its.flatten ++
          sl "/* End " ++ name ++ sl " section */\n\n")))

/-- The loop of write_pbxproj over the recorded section order. -/
def writeParts (pbx : Pbx) : List (List Char) → Option (List (List Char))
  | [] => some []
  | n :: t =>
    (write_section pbx n).bind (fun part => (writeParts pbx t).map (part :: ·))

/-- write_pbxproj (apple.py lines 798-816): write every section in the
recorded PBXOrder and concatenate the emitted text. -/
def write_pbxproj (pbx : Pbx) : Option (List Char) :=
  (writeParts pbx pbx.order).map List.flatten

/-- A well-formed pbxproj file in structured form: header lines, named
sections of object blocks (each block a list of lines), and footer lines. -/
structure PbxSection where
  name : List Char
  blocks : List (List (List Char))
deriving DecidableEq

structure PbxFile where
  header : List (List Char)
  sections : List PbxSection
  footer : List (List Char)
deriving DecidableEq

/-- The begin-marker line exactly as write_pbxproj emits it. -/
def begin_line (n : List Char) : List Char :=
  sl "/* Begin " ++ n ++ sl " section */\n"

/-- The end-marker line exactly as write_pbxproj emits it (the blank line
following it is separate). -/
def end_line (n : List Char) : List Char :=
  end_text n ++ [nlc]

/-- The lines of one rendered section: begin marker, the blocks' lines, end
marker, one blank separator line. -/
def render_section (s : PbxSection) : List (List Char) :=
  begin_line s.name :: s.blocks.flatten ++ [end_line s.name, [nlc]]

/-- The lines of a rendered pbxproj file. -/
def render_pbx (f : PbxFile) : List (List Char) :=
  f.header ++ (f.sections.map render_section).flatten ++ f.footer

/-- Brace-count discipline of one object block entered at depth k: the
running count stays positive until the final line returns it to zero, so the
parser closes the block exactly at its last line. -/
def good_block_par (k : Int) : List (List Char) → Bool
  | [] => false
  | [l] => k + group_parity l == 0
  | l :: l2 :: t => (decide (k + group_parity l > 0)) && good_block_par (k + group_parity l) (l2 :: t)

/-- A well-formed object block of section n: no line fakes a section marker,
the brace discipline holds, and the block is not the bare blank line that the
parser drops. -/
def good_block (n : List Char) (b : List (List Char)) : Prop :=
  (∀ l ∈ b, advTrigger l = false ∧ isSubstr (end_text n) l = false) ∧
  good_block_par 0 b = true ∧ b.flatten ≠ sl "\n"

instance (n : List Char) (b : List (List Char)) : Decidable (good_block n b) := by
  unfold good_block
  infer_instance

/-- A well-formed section name: distinct from the pseudo-section names, its
begin marker round-trips through the parser's name extraction, and its end
marker does not itself fake a begin marker. -/
def good_name (n : List Char) : Prop :=
  n ≠ sl "PBXHeader" ∧ n ≠ sl "PBXFooter" ∧
  extract_name (begin_line n) = n ∧
  advTrigger (end_line n) = false

instance (n : List Char) : Decidable (good_name n) := by
  unfold good_name
  infer_instance

/-- Well-formed header lines: nothing that looks like a begin marker. -/
def good_header (hs : List (List Char)) : Prop :=
  ∀ l ∈ hs, advTrigger l = false

instance (hs : List (List Char)) : Decidable (good_header hs) := by
  unfold good_header
  infer_instance

/-- A well-formed footer after the section named last: nonempty, and its
first line is nonblank and fakes no marker.  Later footer lines are
unconstrained: once the parser is in the footer state it accumulates
verbatim. -/
def good_footer (lastName : List Char) (f : List (List Char)) : Prop :=
  f ≠ [] ∧ advTrigger (f.headD []) = false ∧
  isSubstr (end_text lastName) (f.headD []) = false ∧
  (stripChars (f.headD [])).length > 0

instance (lastName : List Char) (f : List (List Char)) : Decidable (good_footer lastName f) := by
  unfold good_footer
  infer_instance

/-- A well-formed pbxproj file: the structural side conditions under which
the dialect guarantees exact round-tripping. -/
def good_pbx (f : PbxFile) : Prop :=
  good_header f.header ∧
  f.sections ≠ [] ∧
  (f.sections.map PbxSection.name).Nodup ∧
  (∀ s ∈ f.sections, good_name s.name ∧ ∀ b ∈ s.blocks, good_block s.name b) ∧
  good_footer ((f.sections.map PbxSection.name).getLastD []) f.footer

instance (f : PbxFile) : Decidable (good_pbx f) := by
  unfold good_pbx
  infer_instance

theorem isSubstr_of_prefix {pat hay : List Char} (h : pat.isPrefixOf hay = true) :
    isSubstr pat hay = true := by
  have hf : findSub hay pat = some 0 := by
    rw [findSub.eq_def]
    simp [h]
  simp [isSubstr, hf]

theorem isSubstr_sandwich (x pat y : List Char) : isSubstr pat (x ++ pat ++ y) = true := by
  induction x with
  | nil =>
    apply isSubstr_of_prefix
    simp [List.isPrefixOf_iff_prefix]
  | cons a t ih =>
    simp only [isSubstr, findSub]
    split
    · simp
    · simpa [isSubstr] using ih

theorem findSub_none_of_short {pat hay : List Char} (h : hay.length < pat.length) :
    findSub hay pat = none := by
  induction hay with
  | nil =>
    rw [findSub.eq_def]
    by_cases hp : pat.isPrefixOf ([] : List Char) = true
    · exfalso
      have hl := List.IsPrefix.length_le (List.isPrefixOf_iff_prefix.mp hp)
      simp only [List.length_nil, Nat.le_zero, List.length_eq_zero] at hl
      subst hl
      simp at h
    · simp [hp]
  | cons c t ih =>
    rw [findSub.eq_def]
    by_cases hp : pat.isPrefixOf (c :: t) = true
    · exfalso
      have hl := List.IsPrefix.length_le (List.isPrefixOf_iff_prefix.mp hp)
      simp only [List.length_cons] at h hl
      omega
    · have ht : findSub t pat = none := by
        apply ih
        simp only [List.length_cons] at h
        omega
      simp [hp, ht]

theorem isSubstr_short {pat hay : List Char} (h : hay.length < pat.length) :
    isSubstr pat hay = false := by
  simp [isSubstr, findSub_none_of_short h]

theorem runLines_append {S : Type} (step : S → List Char → Option S) (a b : List (List Char)) :
    ∀ st : S, runLines step st (a ++ b) =
      match runLines step st a with
      | none => none
      | some st2 => runLines step st2 b := by
  induction a with
  | nil => intro st; simp [runLines]
  | cons l t ih =>
    intro st
    simp only [List.cons_append, runLines]
    cases step st l with
    | none => rfl
    | some st2 => exact ih st2

theorem aget_append {K V : Type} [DecidableEq K] (m1 m2 : List (K × V)) (k : K) :
    aget (m1 ++ m2) k =
      match aget m1 k with
      | some v => some v
      | none => aget m2 k := by
  induction m1 with
  | nil => simp [aget]
  | cons hd t ih =>
    obtain ⟨k0, v0⟩ := hd
    by_cases hk : k0 = k <;> simp [aget, hk, ih]

theorem aset_fresh {K V : Type} [DecidableEq K] (m : List (K × V)) (k : K) (v : V)
    (h : aget m k = none) : aset m k v = m ++ [(k, v)] := by
  induction m with
  | nil => simp [aset]
  | cons hd t ih =>
    obtain ⟨k0, v0⟩ := hd
    by_cases hk : k0 = k
    · simp [aget, hk] at h
    · simp only [aget, if_neg hk] at h
      simp [aset, hk, ih h]

theorem aset_aset {K V : Type} [DecidableEq K] (m : List (K × V)) (k : K) (v w : V) :
    aset (aset m k v) k w = aset m k w := by
  induction m with
  | nil => simp [aset]
  | cons hd t ih =>
    obtain ⟨k0, v0⟩ := hd
    by_cases hk : k0 = k
    · simp [aset, hk]
    · simp [aset, hk, ih]

theorem apush_aset {K V : Type} [DecidableEq K] (m : List (K × List V)) (k : K)
    (l : List V) (x : V) : apush (aset m k l) k x = aset m k (l ++ [x]) := by
  simp [apush, aget_aset_self, aset_aset]

theorem pbx_step_accumulate (st : PbxSt) (l : List Char)
    (hadv : advTrigger l = false)
    (hcur : st.cur = sl "PBXHeader" ∨ st.cur = sl "PBXFooter") :
    pbx_step st l = some { st with accum := some ((st.accum.getD []) ++ l) } := by
  have h1 : ¬(st.cur ≠ sl "PBXFooter" ∧ advTrigger l = true) := by
    rintro ⟨-, h2⟩
    rw [hadv] at h2
    exact Bool.false_ne_true h2
  unfold pbx_step
  rw [if_neg h1, if_pos hcur]

theorem pbx_step_begin (st : PbxSt) (n : List Char)
    (hcur : st.cur ≠ sl "PBXFooter") (hname : good_name n) :
    pbx_step st (begin_line n) =
      some { cur := n, accum := none, brace := 0, between := false,
             order := st.order ++ [n],
             sects := aset (pushAccumIf st.sects st.cur st.accum) n [] } := by
  have hadv : advTrigger (begin_line n) = true := by
    unfold advTrigger
    rw [Bool.and_eq_true]
    constructor
    · exact isSubstr_of_prefix (by rfl)
    · have hrw : begin_line n = (sl "/* Begin " ++ n ++ sl " ") ++ sl "section */" ++ sl "\n" := by
        unfold begin_line
        rw [show sl " section */\n" = sl " " ++ (sl "section */" ++ sl "\n") from rfl]
        simp [List.append_assoc]
      rw [hrw]
      exact isSubstr_sandwich _ _ _
  unfold pbx_step
  rw [if_pos ⟨hcur, hadv⟩]
  rw [show extract_name (begin_line n) = n from hname.2.2.1]

theorem pbx_step_complete (st : PbxSt) (l : List Char)
    (hadv : advTrigger l = false)
    (hh : st.cur ≠ sl "PBXHeader") (hf : st.cur ≠ sl "PBXFooter")
    (hcomp : isSubstr (end_text st.cur) l = true)
    (hacc : st.accum = none) :
    pbx_step st l = some { st with between := true } := by
  have h1 : ¬(st.cur ≠ sl "PBXFooter" ∧ advTrigger l = true) := by
    rintro ⟨-, h2⟩
    rw [hadv] at h2
    exact Bool.false_ne_true h2
  have h2 : ¬(st.cur = sl "PBXHeader" ∨ st.cur = sl "PBXFooter") := by
    rintro (h | h)
    · exact hh h
    · exact hf h
  unfold pbx_step
  rw [if_neg h1, if_neg h2, if_pos hcomp, hacc]

theorem pbx_step_between_blank (st : PbxSt) (l : List Char)
    (hadv : advTrigger l = false)
    (hh : st.cur ≠ sl "PBXHeader") (hf : st.cur ≠ sl "PBXFooter")
    (hcomp : isSubstr (end_text st.cur) l = false)
    (hbet : st.between = true)
    (hstrip : (stripChars l).length = 0) :
    pbx_step st l = some st := by
  have h1 : ¬(st.cur ≠ sl "PBXFooter" ∧ advTrigger l = true) := by
    rintro ⟨-, h2⟩
    rw [hadv] at h2
    exact Bool.false_ne_true h2
  have h2 : ¬(st.cur = sl "PBXHeader" ∨ st.cur = sl "PBXFooter") := by
    rintro (h | h)
    · exact hh h
    · exact hf h
  have h3 : ¬(isSubstr (end_text st.cur) l = true) := by
    rw [hcomp]
    exact Bool.false_ne_true
  unfold pbx_step
  rw [if_neg h1, if_neg h2, if_neg h3, if_pos hbet, if_neg (by omega)]

theorem pbx_step_footer_start (st : PbxSt) (l : List Char)
    (hadv : advTrigger l = false)
    (hh : st.cur ≠ sl "PBXHeader") (hf : st.cur ≠ sl "PBXFooter")
    (hcomp : isSubstr (end_text st.cur) l = false)
    (hbet : st.between = true)
    (hstrip : 0 < (stripChars l).length)
    (hacc : st.accum = none) :
    pbx_step st l = some {
      cur := sl "PBXFooter", accum := some l, brace := 0, between := false,
      order := st.order ++ [sl "PBXFooter"],
      sects := aset st.sects (sl "PBXFooter") [] } := by
  have h1 : ¬(st.cur ≠ sl "PBXFooter" ∧ advTrigger l = true) := by
    rintro ⟨-, h2⟩
    rw [hadv] at h2
    exact Bool.false_ne_true h2
  have h2 : ¬(st.cur = sl "PBXHeader" ∨ st.cur = sl "PBXFooter") := by
    rintro (h | h)
    · exact hh h
    · exact hf h
  have h3 : ¬(isSubstr (end_text st.cur) l = true) := by
    rw [hcomp]
    exact Bool.false_ne_true
  unfold pbx_step
  rw [if_neg h1, if_neg h2, if_neg h3, if_pos hbet, if_pos hstrip, hacc]
  rfl

theorem pbx_step_obj_neg (st : PbxSt) (l : List Char)
    (hadv : advTrigger l = false)
    (hh : st.cur ≠ sl "PBXHeader") (hf : st.cur ≠ sl "PBXFooter")
    (hcomp : isSubstr (end_text st.cur) l = false)
    (hbet : st.between = false)
    (hneg : st.brace + group_parity l < 0) :
    pbx_step st l = none := by
  have h1 : ¬(st.cur ≠ sl "PBXFooter" ∧ advTrigger l = true) := by
    rintro ⟨-, h2⟩
    rw [hadv] at h2
    exact Bool.false_ne_true h2
  have h2 : ¬(st.cur = sl "PBXHeader" ∨ st.cur = sl "PBXFooter") := by
    rintro (h | h)
    · exact hh h
    · exact hf h
  have h3 : ¬(isSubstr (end_text st.cur) l = true) := by
    rw [hcomp]
    exact Bool.false_ne_true
  have h4 : ¬(st.between = true) := by
    rw [hbet]
    exact Bool.false_ne_true
  unfold pbx_step
  rw [if_neg h1, if_neg h2, if_neg h3, if_neg h4, if_pos hneg]

theorem pbx_step_obj_mid (st : PbxSt) (l : List Char)
    (hadv : advTrigger l = false)
    (hh : st.cur ≠ sl "PBXHeader") (hf : st.cur ≠ sl "PBXFooter")
    (hcomp : isSubstr (end_text st.cur) l = false)
    (hbet : st.between = false)
    (hpos : 0 < st.brace + group_parity l) :
    pbx_step st l = some { st with
      brace := st.brace + group_parity l,
      accum := some ((st.accum.getD []) ++ l) } := by
  have h1 : ¬(st.cur ≠ sl "PBXFooter" ∧ advTrigger l = true) := by
    rintro ⟨-, h2⟩
    rw [hadv] at h2
    exact Bool.false_ne_true h2
  have h2 : ¬(st.cur = sl "PBXHeader" ∨ st.cur = sl "PBXFooter") := by
    rintro (h | h)
    · exact hh h
    · exact hf h
  have h3 : ¬(isSubstr (end_text st.cur) l = true) := by
    rw [hcomp]
    exact Bool.false_ne_true
  have h4 : ¬(st.between = true) := by
    rw [hbet]
    exact Bool.false_ne_true
  unfold pbx_step
  rw [if_neg h1, if_neg h2, if_neg h3, if_neg h4, if_neg (by omega), if_neg (by omega)]

theorem pbx_step_obj_close (st : PbxSt) (l : List Char)
    (hadv : advTrigger l = false)
    (hh : st.cur ≠ sl "PBXHeader") (hf : st.cur ≠ sl "PBXFooter")
    (hcomp : isSubstr (end_text st.cur) l = false)
    (hbet : st.between = false)
    (hzero : st.brace + group_parity l = 0)
    (hne : (st.accum.getD []) ++ l ≠ sl "\n") :
    pbx_step st l = some { st with
      brace := 0, accum := none,
      sects := apush st.sects st.cur (some ((st.accum.getD []) ++ l)) } := by
  have h1 : ¬(st.cur ≠ sl "PBXFooter" ∧ advTrigger l = true) := by
    rintro ⟨-, h2⟩
    rw [hadv] at h2
    exact Bool.false_ne_true h2
  have h2 : ¬(st.cur = sl "PBXHeader" ∨ st.cur = sl "PBXFooter") := by
    rintro (h | h)
    · exact hh h
    · exact hf h
  have h3 : ¬(isSubstr (end_text st.cur) l = true) := by
    rw [hcomp]
    exact Bool.false_ne_true
  have h4 : ¬(st.between = true) := by
    rw [hbet]
    exact Bool.false_ne_true
  unfold pbx_step
  rw [if_neg h1, if_neg h2, if_neg h3, if_neg h4, if_neg (by omega), if_pos hzero, if_pos hne,
    hzero]

/-- Accumulator contents after a run of verbatim-accumulated lines. -/
def optAppend (acc : Option (List Char)) (ls : List (List Char)) : Option (List Char) :=
  match ls with
  | [] => acc
  | _ => some ((acc.getD []) ++ ls.flatten)

theorem run_header (hs : List (List Char)) :
    ∀ st : PbxSt, (∀ l ∈ hs, advTrigger l = false) → st.cur = sl "PBXHeader" →
      runLines pbx_step st hs = some { st with accum := optAppend st.accum hs } := by
  induction hs with
  | nil =>
    intro st _ _
    simp [runLines, optAppend]
  | cons l t ih =>
    intro st h hc
    simp only [runLines]
    rw [pbx_step_accumulate st l (h l (by simp)) (Or.inl hc)]
    show runLines pbx_step _ t = _
    rw [ih { st with accum := some ((st.accum.getD []) ++ l) }
      (fun x hx => h x (by simp [hx])) hc]
    cases t with
    | nil => simp [optAppend]
    | cons x t2 => simp [optAppend, List.append_assoc]

theorem run_footer (hs : List (List Char)) :
    ∀ st : PbxSt, st.cur = sl "PBXFooter" →
      runLines pbx_step st hs = some { st with accum := optAppend st.accum hs } := by
  induction hs with
  | nil =>
    intro st _
    simp [runLines, optAppend]
  | cons l t ih =>
    intro st hc
    have hstep : pbx_step st l = some { st with accum := some ((st.accum.getD []) ++ l) } := by
      have h1 : ¬(st.cur ≠ sl "PBXFooter" ∧ advTrigger l = true) := by
        rintro ⟨hne, -⟩
        exact hne hc
      unfold pbx_step
      rw [if_neg h1, if_pos (Or.inr hc)]
    simp only [runLines]
    rw [hstep]
    show runLines pbx_step _ t = _
    rw [ih { st with accum := some ((st.accum.getD []) ++ l) } hc]
    cases t with
    | nil => simp [optAppend]
    | cons x t2 => simp [optAppend, List.append_assoc]

theorem getLastD_ne_nil {A : Type} (l : List A) (d d2 : A) (h : l ≠ []) :
    l.getLastD d = l.getLastD d2 := by
  cases l with
  | nil => exact absurd rfl h
  | cons a t => rw [List.getLastD_cons, List.getLastD_cons]

theorem aset_append_left {K V : Type} [DecidableEq K] (m1 m2 : List (K × V)) (k : K) (v : V)
    (h : aget m1 k = none) : aset (m1 ++ m2) k v = m1 ++ aset m2 k v := by
  induction m1 with
  | nil => simp
  | cons hd t ih =>
    obtain ⟨k0, v0⟩ := hd
    by_cases hk : k0 = k
    · simp [aget, hk] at h
    · simp only [aget, if_neg hk] at h
      simp [aset, hk, ih h]

theorem foldl_apush_aset {K V : Type} [DecidableEq K] (items : List V) :
    ∀ (m : List (K × List V)) (k : K) (init : List V),
      items.foldl (fun m2 x => apush m2 k x) (aset m k init) = aset m k (init ++ items) := by
  induction items with
  | nil => intro m k init; simp
  | cons x t ih =>
    intro m k init
    simp only [List.foldl_cons]
    rw [apush_aset, ih]
    simp

theorem seqItems_map_some {A : Type} (l : List A) : seqItems (l.map some) = some l := by
  induction l with
  | nil => rfl
  | cons a t ih => simp [seqItems, ih]

theorem flatten_map_flatten {A : Type} (l : List (List (List A))) :
    (l.map List.flatten).flatten = l.flatten.flatten := by
  induction l with
  | nil => rfl
  | cons b t ih => simp [ih]

/-- Line conditions inside an object block of the section named n. -/
def obj_line_ok (n l : List Char) : Prop :=
  advTrigger l = false ∧ isSubstr (end_text n) l = false

theorem run_block_aux (rest : List (List Char)) :
    ∀ (st : PbxSt) (acc : List Char),
      st.cur ≠ sl "PBXHeader" → st.cur ≠ sl "PBXFooter" → st.between = false →
      (∀ l ∈ rest, obj_line_ok st.cur l) →
      good_block_par st.brace rest = true →
      st.accum = some acc →
      acc ++ rest.flatten ≠ sl "\n" →
      runLines pbx_step st rest = some { st with
        brace := 0, accum := none,
        sects := apush st.sects st.cur (some (acc ++ rest.flatten)) } := by
  induction rest with
  | nil =>
    intro st acc _ _ _ _ hpar _ _
    simp [good_block_par] at hpar
  | cons l t ih =>
    intro st acc hh hf hbet hlines hpar hacc hne
    cases t with
    | nil =>
      have hzero : st.brace + group_parity l = 0 := by
        simpa [good_block_par] using hpar
      have hl := hlines l (by simp)
      have hstep := pbx_step_obj_close st l hl.1 hh hf hl.2 hbet hzero
        (by rw [hacc]; simpa using hne)
      simp only [runLines]
      rw [hacc] at hstep
      simp only [Option.getD_some] at hstep
      rw [hstep]
      show some _ = _
      simp [hacc]
    | cons x t2 =>
      have hpar2 : (decide (0 < st.brace + group_parity l) &&
          good_block_par (st.brace + group_parity l) (x :: t2)) = true := by
        simpa [good_block_par] using hpar
      rw [Bool.and_eq_true] at hpar2
      have hpos : 0 < st.brace + group_parity l := of_decide_eq_true hpar2.1
      have hl := hlines l (by simp)
      have hstep := pbx_step_obj_mid st l hl.1 hh hf hl.2 hbet hpos
      simp only [runLines]
      rw [hstep]
      show runLines pbx_step _ (x :: t2) = _
      rw [ih (PbxSt.mk st.cur (some ((st.accum.getD []) ++ l)) (st.brace + group_parity l)
          st.between st.order st.sects)
        (acc ++ l) hh hf hbet
        (fun y hy => hlines y (by simp [hy]))
        hpar2.2
        (by simp [hacc])
        (by simpa [List.append_assoc] using hne)]
      simp [hacc, List.append_assoc]

theorem run_block (b : List (List Char)) (st : PbxSt)
    (hh : st.cur ≠ sl "PBXHeader") (hf : st.cur ≠ sl "PBXFooter")
    (hbet : st.between = false) (hacc : st.accum = none) (hbrace : st.brace = 0)
    (hgood : good_block st.cur b) :
    runLines pbx_step st b =
      some { st with
        brace := 0, accum := none,
        sects := apush st.sects st.cur (some b.flatten) } := by
  obtain ⟨hlines, hpar, hne⟩ := hgood
  cases b with
  | nil => simp [good_block_par] at hpar
  | cons l t =>
    cases t with
    | nil =>
      have hzero : st.brace + group_parity l = 0 := by
        rw [hbrace]
        simpa [good_block_par] using hpar
      have hl := hlines l (by simp)
      have hstep := pbx_step_obj_close st l hl.1 hh hf hl.2 hbet hzero
        (by rw [hacc]; simpa using hne)
      simp only [runLines]
      rw [hstep]
      show some _ = _
      simp [hacc]
    | cons x t2 =>
      have hpar2 : (decide (0 < st.brace + group_parity l) &&
          good_block_par (st.brace + group_parity l) (x :: t2)) = true := by
        rw [hbrace]
        simpa [good_block_par] using hpar
      rw [Bool.and_eq_true] at hpar2
      have hpos : 0 < st.brace + group_parity l := of_decide_eq_true hpar2.1
      have hl := hlines l (by simp)
      have hstep := pbx_step_obj_mid st l hl.1 hh hf hl.2 hbet hpos
      simp only [runLines]
      rw [hstep]
      show runLines pbx_step _ (x :: t2) = _
      rw [run_block_aux (x :: t2)
        (PbxSt.mk st.cur (some ((st.accum.getD []) ++ l)) (st.brace + group_parity l)
          st.between st.order st.sects)
        ([] ++ l) hh hf hbet
        (fun y hy => hlines y (by simp [hy]))
        hpar2.2
        (by simp [hacc])
        (by simpa using hne)]
      simp [hbrace]

theorem runLines_singleton {S : Type} (step : S → List Char → Option S) (st : S)
    (l : List Char) : runLines step st [l] = step st l := by
  cases h : step st l <;> simp [runLines, h]

theorem run_blocks (bs : List (List (List Char))) :
    ∀ st : PbxSt,
      st.cur ≠ sl "PBXHeader" → st.cur ≠ sl "PBXFooter" →
      st.between = false → st.accum = none → st.brace = 0 →
      (∀ b ∈ bs, good_block st.cur b) →
      runLines pbx_step st bs.flatten = some { st with
        sects := bs.foldl (fun m b => apush m st.cur (some b.flatten)) st.sects } := by
  induction bs with
  | nil =>
    intro st _ _ _ _ _ _
    simp [runLines]
  | cons b t ih =>
    intro st hh hf hbet hacc hbrace hgood
    have hsplit : (b :: t).flatten = b ++ t.flatten := rfl
    rw [hsplit, runLines_append]
    rw [run_block b st hh hf hbet hacc hbrace (hgood b (by simp))]
    show runLines pbx_step _ t.flatten = _
    rw [ih (PbxSt.mk st.cur none 0 st.between st.order
        (apush st.sects st.cur (some b.flatten)))
      hh hf hbet rfl rfl (fun y hy => hgood y (by simp [hy]))]
    simp [hacc, hbrace]

theorem run_section (s : PbxSection) (st : PbxSt)
    (hcur : st.cur ≠ sl "PBXFooter")
    (hname : good_name s.name)
    (hblocks : ∀ b ∈ s.blocks, good_block s.name b) :
    runLines pbx_step st (render_section s) = some {
      cur := s.name, accum := none, brace := 0, between := true,
      order := st.order ++ [s.name],
      sects := aset (pushAccumIf st.sects st.cur st.accum) s.name
        (s.blocks.map (fun b => some b.flatten)) } := by
  have hsplit : render_section s =
      [begin_line s.name] ++ (s.blocks.flatten ++ ([end_line s.name] ++ [[nlc]])) := by
    simp [render_section]
  have h1 : runLines pbx_step st [begin_line s.name] =
      some (PbxSt.mk s.name none 0 false (st.order ++ [s.name])
        (aset (pushAccumIf st.sects st.cur st.accum) s.name [])) := by
    rw [runLines_singleton, pbx_step_begin st s.name hcur hname]
  have h2 : runLines pbx_step
      (PbxSt.mk s.name none 0 false (st.order ++ [s.name])
        (aset (pushAccumIf st.sects st.cur st.accum) s.name [])) s.blocks.flatten =
      some (PbxSt.mk s.name none 0 false (st.order ++ [s.name])
        (aset (pushAccumIf st.sects st.cur st.accum) s.name
          (s.blocks.map (fun b => some b.flatten)))) := by
    have hrb := run_blocks s.blocks
      (PbxSt.mk s.name none 0 false (st.order ++ [s.name])
        (aset (pushAccumIf st.sects st.cur st.accum) s.name []))
      hname.1 hname.2.1 rfl rfl rfl hblocks
    have hfold : s.blocks.foldl (fun m b => apush m s.name (some b.flatten))
        (aset (pushAccumIf st.sects st.cur st.accum) s.name []) =
        aset (pushAccumIf st.sects st.cur st.accum) s.name
          (s.blocks.map (fun b => some b.flatten)) := by
      rw [← List.foldl_map (fun b : List (List Char) => some b.flatten)
        (fun m x => apush m s.name x), foldl_apush_aset]
      simp
    simpa [hfold] using hrb
  have hcomp : isSubstr (end_text s.name) (end_line s.name) = true := by
    apply isSubstr_of_prefix
    rw [List.isPrefixOf_iff_prefix]
    exact ⟨[nlc], rfl⟩
  have h3 : pbx_step
      (PbxSt.mk s.name none 0 false (st.order ++ [s.name])
        (aset (pushAccumIf st.sects st.cur st.accum) s.name
          (s.blocks.map (fun b => some b.flatten)))) (end_line s.name) =
      some (PbxSt.mk s.name none 0 true (st.order ++ [s.name])
        (aset (pushAccumIf st.sects st.cur st.accum) s.name
          (s.blocks.map (fun b => some b.flatten)))) := by
    have := pbx_step_complete
      (PbxSt.mk s.name none 0 false (st.order ++ [s.name])
        (aset (pushAccumIf st.sects st.cur st.accum) s.name
          (s.blocks.map (fun b => some b.flatten)))) (end_line s.name)
      hname.2.2.2 hname.1 hname.2.1 hcomp rfl
    simpa using this
  have hadvnl : advTrigger [nlc] = false := by decide
  have hcompnl : isSubstr (end_text s.name) [nlc] = false := by
    apply isSubstr_short
    have hlen : (end_text s.name).length = s.name.length + 18 := by
      simp [end_text, sl]
    simp [hlen]
  have hstripnl : (stripChars [nlc]).length = 0 := by decide
  have h4 : pbx_step
      (PbxSt.mk s.name none 0 true (st.order ++ [s.name])
        (aset (pushAccumIf st.sects st.cur st.accum) s.name
          (s.blocks.map (fun b => some b.flatten)))) [nlc] =
      some (PbxSt.mk s.name none 0 true (st.order ++ [s.name])
        (aset (pushAccumIf st.sects st.cur st.accum) s.name
          (s.blocks.map (fun b => some b.flatten)))) :=
    pbx_step_between_blank _ [nlc] hadvnl hname.1 hname.2.1 hcompnl rfl hstripnl
  rw [hsplit, runLines_append, h1]
  show runLines pbx_step _ _ = _
  rw [runLines_append, h2]
  show runLines pbx_step _ _ = _
  rw [runLines_append, runLines_singleton, h3]
  show runLines pbx_step _ _ = _
  rw [runLines_singleton, h4]

theorem aget_pushAccumIf_other (m : List (List Char × List (Option (List Char))))
    (k k2 : List Char) (acc : Option (List Char)) (h : k ≠ k2) :
    aget (pushAccumIf m k acc) k2 = aget m k2 := by
  cases acc with
  | none => rfl
  | some a =>
    unfold pushAccumIf
    by_cases ha : a = []
    · simp [ha]
    · simp only [ne_eq, ha, not_false_eq_true, if_true, if_pos]
      exact aget_apush_other m k k2 _ h

theorem run_sections (ss : List PbxSection) :
    ∀ st : PbxSt,
      ss ≠ [] →
      (∀ s ∈ ss, good_name s.name ∧ ∀ b ∈ s.blocks, good_block s.name b) →
      (ss.map PbxSection.name).Nodup →
      (∀ s ∈ ss, aget (pushAccumIf st.sects st.cur st.accum) s.name = none) →
      st.cur ≠ sl "PBXFooter" →
      runLines pbx_step st ((ss.map render_section).flatten) = some {
        cur := (ss.map PbxSection.name).getLastD [],
        accum := none, brace := 0, between := true,
        order := st.order ++ ss.map PbxSection.name,
        sects := pushAccumIf st.sects st.cur st.accum ++
          ss.map (fun s => (s.name, s.blocks.map (fun b => some b.flatten))) } := by
  induction ss with
  | nil =>
    intro st hne _ _ _ _
    exact absurd rfl hne
  | cons s rest ih =>
    intro st _ hgood hnodup hfresh hcur
    have hs := hgood s (by simp)
    have hfirst := run_section s st hcur hs.1 hs.2
    have hasetP : aset (pushAccumIf st.sects st.cur st.accum) s.name
        (s.blocks.map (fun b => some b.flatten)) =
        pushAccumIf st.sects st.cur st.accum ++
          [(s.name, s.blocks.map (fun b => some b.flatten))] :=
      aset_fresh _ _ _ (hfresh s (by simp))
    cases rest with
    | nil =>
      have hflat : ((s :: ([] : List PbxSection)).map render_section).flatten =
          render_section s := by simp
      rw [hflat, hfirst, hasetP]
      simp
    | cons s2 rest2 =>
      have hflat : (((s :: s2 :: rest2).map render_section)).flatten =
          render_section s ++ ((s2 :: rest2).map render_section).flatten := by
        simp
      rw [hflat, runLines_append, hfirst]
      show runLines pbx_step _ _ = _
      have hih := ih (PbxSt.mk s.name none 0 true (st.order ++ [s.name])
          (aset (pushAccumIf st.sects st.cur st.accum) s.name
            (s.blocks.map (fun b => some b.flatten))))
        (by simp)
        (fun x hx => hgood x (by simp [hx]))
        (by simpa using hnodup.of_cons)
        ?_ (hs.1).2.1
      · rw [hih]
        rw [hasetP]
        simp [pushAccumIf, List.getLastD_cons, List.append_assoc]
      · intro x hx
        show aget (pushAccumIf _ _ _) x.name = none
        have hpush : pushAccumIf
            (aset (pushAccumIf st.sects st.cur st.accum) s.name
              (s.blocks.map (fun b => some b.flatten))) s.name none =
            aset (pushAccumIf st.sects st.cur st.accum) s.name
              (s.blocks.map (fun b => some b.flatten)) := rfl
        rw [hpush, hasetP, aget_append]
        have h1 : aget (pushAccumIf st.sects st.cur st.accum) x.name = none :=
          hfresh x (by simp [hx])
        rw [h1]
        have hxne : s.name ≠ x.name := by
          simp only [List.map_cons, List.nodup_cons] at hnodup
          intro hcontra
          apply hnodup.1
          rw [hcontra]
          exact List.mem_map_of_mem PbxSection.name hx
        simp [aget, hxne]

theorem writeParts_append (pbx : Pbx) (a b : List (List Char)) :
    writeParts pbx (a ++ b) =
      (writeParts pbx a).bind (fun x => (writeParts pbx b).map (x ++ ·)) := by
  induction a with
  | nil =>
    simp only [List.nil_append, writeParts, Option.some_bind]
    cases writeParts pbx b with
    | none => rfl
    | some x => simp
  | cons n t ih =>
    simp only [List.cons_append, writeParts, List.append_eq]
    rw [ih]
    cases write_section pbx n with
    | none => rfl
    | some part =>
      simp only [Option.some_bind]
      cases writeParts pbx t with
      | none => rfl
      | some x =>
        simp only [Option.some_bind]
        cases writeParts pbx b with
        | none => rfl
        | some y => simp

theorem aget_map_entries (ss : List PbxSection)
    (g : PbxSection → List (Option (List Char))) (s : PbxSection) (hmem : s ∈ ss)
    (hnodup : (ss.map PbxSection.name).Nodup) :
    aget (ss.map (fun x => (x.name, g x))) s.name = some (g s) := by
  induction ss with
  | nil => cases hmem
  | cons a t ih =>
    simp only [List.map_cons, List.nodup_cons] at hnodup
    rcases List.mem_cons.mp hmem with rfl | hmt
    · simp [aget]
    · have hne : a.name ≠ s.name := by
        intro hcontra
        exact hnodup.1 (hcontra ▸ List.mem_map_of_mem PbxSection.name hmt)
      simp only [List.map_cons, aget, if_neg hne]
      exact ih hmt hnodup.2

theorem aget_map_entries_none (ss : List PbxSection)
    (g : PbxSection → List (Option (List Char))) (k : List Char)
    (h : ∀ x ∈ ss, x.name ≠ k) :
    aget (ss.map (fun x => (x.name, g x))) k = none := by
  induction ss with
  | nil => rfl
  | cons a t ih =>
    simp only [List.map_cons, aget, if_neg (h a (by simp))]
    exact ih (fun x hx => h x (by simp [hx]))

theorem write_header_entry (hs : List (List Char))
    (rest : List (List Char × List (Option (List Char)))) (o : List (List Char)) :
    write_section (Pbx.mk o ((pushAccumIf [(sl "PBXHeader", [])] (sl "PBXHeader")
      (optAppend none hs)) ++ rest)) (sl "PBXHeader") = some hs.flatten := by
  cases hs with
  | nil => simp [write_section, optAppend, pushAccumIf, aget, seqItems]
  | cons h0 ht =>
    have hofl : optAppend none (h0 :: ht) = some ((h0 :: ht).flatten) := by
      simp [optAppend]
    by_cases hfl : (h0 :: ht).flatten = []
    · have hpush : pushAccumIf [(sl "PBXHeader", [])] (sl "PBXHeader")
          (some ((h0 :: ht).flatten)) = [(sl "PBXHeader", [])] := by
        simp [pushAccumIf, hfl]
      rw [hofl, hpush]
      simp [write_section, aget, seqItems, hfl]
    · have hpush : pushAccumIf [(sl "PBXHeader", [])] (sl "PBXHeader")
          (some ((h0 :: ht).flatten)) =
          [(sl "PBXHeader", [some ((h0 :: ht).flatten)])] := by
        rw [show pushAccumIf [(sl "PBXHeader", [])] (sl "PBXHeader")
            (some ((h0 :: ht).flatten)) =
            if (h0 :: ht).flatten ≠ [] then
              apush [(sl "PBXHeader", [])] (sl "PBXHeader") (some ((h0 :: ht).flatten))
            else [(sl "PBXHeader", [])] from rfl, if_pos hfl]
        simp [apush, aget, aset]
      rw [hofl, hpush]
      simp [write_section, aget, seqItems]

theorem writeParts_sections (F : Pbx) (ss : List PbxSection)
    (hlook : ∀ s ∈ ss, aget F.sects s.name = some (s.blocks.map (fun b => some b.flatten)))
    (hnm : ∀ s ∈ ss, good_name s.name) :
    writeParts F (ss.map PbxSection.name) =
      some (ss.map (fun s => (render_section s).flatten)) := by
  induction ss with
  | nil => rfl
  | cons s t ih =>
    have hseq : seqItems (s.blocks.map (fun b => some b.flatten)) =
        some (s.blocks.map (fun b => b.flatten)) := by
      rw [show (s.blocks.map (fun b => some b.flatten)) =
        (s.blocks.map (fun b => b.flatten)).map some by rw [List.map_map]; rfl]
      exact seqItems_map_some _
    have hsec : write_section F s.name = some (render_section s).flatten := by
      unfold write_section
      rw [hlook s (by simp), Option.some_bind, hseq, Option.some_bind]
      have h1 := (hnm s (by simp)).1
      have h2 := (hnm s (by simp)).2.1
      rw [if_neg (by rintro (hc | hc); exact h1 hc; exact h2 hc)]
      have hflat : (render_section s).flatten =
          begin_line s.name ++ s.blocks.flatten.flatten ++ (end_line s.name ++ [nlc]) := by
        simp [render_section, List.append_assoc]
      rw [hflat]
      rw [show (s.blocks.map (fun b => b.flatten)).flatten = s.blocks.flatten.flatten from
        flatten_map_flatten s.blocks]
      have hend : end_line s.name ++ [nlc] =
          sl "/* End " ++ s.name ++ sl " section */\n\n" := by
        unfold end_line end_text
        rw [show sl " section */\n\n" = sl " section */" ++ ([nlc] ++ [nlc]) from rfl]
        simp [List.append_assoc]
      rw [hend]
      unfold begin_line
      simp [List.append_assoc]
    simp only [List.map_cons, writeParts, hsec, Option.some_bind]
    rw [ih (fun x hx => hlook x (by simp [hx])) (fun x hx => hnm x (by simp [hx]))]
    rfl

theorem exists_getLastD_name (ss : List PbxSection) (h : ss ≠ []) :
    ∃ sL ∈ ss, sL.name = (ss.map PbxSection.name).getLastD [] := by
  induction ss with
  | nil => exact absurd rfl h
  | cons a t ih =>
    cases t with
    | nil => exact ⟨a, by simp, by simp⟩
    | cons b t2 =>
      obtain ⟨sL, hm, he⟩ := ih (by simp)
      refine ⟨sL, by simp [hm], ?_⟩
      rw [he]
      simp only [List.map_cons, List.getLastD_cons]


/-- C1: for every well-formed pbxproj-dialect file, serializing the result
of parsing it with no intervening mutation reproduces the original file
byte-for-byte; the parsed model records the header, the sections in their
original order, and the footer in PBXOrder, and the writer emits the
begin/end markers for every section while omitting them for the PBXHeader
and PBXFooter pseudo-sections. -/
theorem c1_parse_serialize_roundtrip (f : PbxFile) (hg : good_pbx f) :
    (parse_pbxproj (render_pbx f)).bind write_pbxproj = some (render_pbx f).flatten ∧
    (∀ P, parse_pbxproj (render_pbx f) = some P →
      P.order = sl "PBXHeader" :: (f.sections.map PbxSection.name ++ [sl "PBXFooter"])) := by
  obtain ⟨hhdr, hne, hnodup, hsec, hftr⟩ := hg
  obtain ⟨hf0ne, hfadv, hfcomp, hfstrip⟩ := hftr
  obtain ⟨f0, frest, hfoot⟩ : ∃ f0 frest, f.footer = f0 :: frest := by
    cases hfe : f.footer with
    | nil => exact absurd hfe hf0ne
    | cons a t => exact ⟨a, t, rfl⟩
  rw [hfoot] at hfadv hfcomp hfstrip
  simp only [List.headD_cons] at hfadv hfcomp hfstrip
  have hH : runLines pbx_step pbx_init f.header =
      some (PbxSt.mk (sl "PBXHeader") (optAppend none f.header) 0 false
        [sl "PBXHeader"] [(sl "PBXHeader", [])]) := by
    have h0 := run_header f.header pbx_init hhdr rfl
    simpa [pbx_init] using h0
  have hkeyP : ∀ s ∈ f.sections,
      aget (pushAccumIf [(sl "PBXHeader", [])] (sl "PBXHeader")
        (optAppend none f.header)) s.name = none := by
    intro s hs2
    have hne2 : sl "PBXHeader" ≠ s.name := fun hcontra => (hsec s hs2).1.1 hcontra.symm
    rw [aget_pushAccumIf_other _ _ _ _ hne2]
    simp [aget, hne2]
  have hS : runLines pbx_step
      (PbxSt.mk (sl "PBXHeader") (optAppend none f.header) 0 false
        [sl "PBXHeader"] [(sl "PBXHeader", [])])
      ((f.sections.map render_section).flatten) =
      some (PbxSt.mk ((f.sections.map PbxSection.name).getLastD []) none 0 true
        ([sl "PBXHeader"] ++ f.sections.map PbxSection.name)
        ((pushAccumIf [(sl "PBXHeader", [])] (sl "PBXHeader") (optAppend none f.header)) ++
          f.sections.map (fun s => (s.name, s.blocks.map (fun b => some b.flatten))))) := by
    have h0 := run_sections f.sections
      (PbxSt.mk (sl "PBXHeader") (optAppend none f.header) 0 false
        [sl "PBXHeader"] [(sl "PBXHeader", [])])
      hne hsec hnodup (by simpa using hkeyP)
      (by show sl "PBXHeader" ≠ sl "PBXFooter"; decide)
    simpa using h0
  obtain ⟨sL, hsLmem, hsLname⟩ := exists_getLastD_name f.sections hne
  have hlastn : good_name ((f.sections.map PbxSection.name).getLastD []) :=
    hsLname ▸ (hsec sL hsLmem).1
  have hnameftr : ∀ s ∈ f.sections, s.name ≠ sl "PBXFooter" :=
    fun s hs2 => (hsec s hs2).1.2.1
  have hP0ftr : aget (pushAccumIf [(sl "PBXHeader", [])] (sl "PBXHeader")
      (optAppend none f.header)) (sl "PBXFooter") = none := by
    rw [aget_pushAccumIf_other _ _ _ _ (by decide)]
    simp only [aget]
    rw [if_neg (by decide)]
  have hftrfresh : aget ((pushAccumIf [(sl "PBXHeader", [])] (sl "PBXHeader")
      (optAppend none f.header)) ++
      f.sections.map (fun s => (s.name, s.blocks.map (fun b => some b.flatten))))
      (sl "PBXFooter") = none := by
    rw [aget_append, hP0ftr]
    exact aget_map_entries_none _ _ _ hnameftr
  have hF0 : pbx_step (PbxSt.mk ((f.sections.map PbxSection.name).getLastD []) none 0 true
      ([sl "PBXHeader"] ++ f.sections.map PbxSection.name)
      ((pushAccumIf [(sl "PBXHeader", [])] (sl "PBXHeader") (optAppend none f.header)) ++
        f.sections.map (fun s => (s.name, s.blocks.map (fun b => some b.flatten))))) f0 =
      some (PbxSt.mk (sl "PBXFooter") (some f0) 0 false
        (([sl "PBXHeader"] ++ f.sections.map PbxSection.name) ++ [sl "PBXFooter"])
        (((pushAccumIf [(sl "PBXHeader", [])] (sl "PBXHeader") (optAppend none f.header)) ++
          f.sections.map (fun s => (s.name, s.blocks.map (fun b => some b.flatten)))) ++
          [(sl "PBXFooter", [])])) := by
    have hstep := pbx_step_footer_start
      (PbxSt.mk ((f.sections.map PbxSection.name).getLastD []) none 0 true
        ([sl "PBXHeader"] ++ f.sections.map PbxSection.name)
        ((pushAccumIf [(sl "PBXHeader", [])] (sl "PBXHeader") (optAppend none f.header)) ++
          f.sections.map (fun s => (s.name, s.blocks.map (fun b => some b.flatten))))) f0
      hfadv hlastn.1 hlastn.2.1 hfcomp rfl hfstrip rfl
    rw [hstep, aset_fresh _ _ _ hftrfresh]
  have hoptf : optAppend (some f0) frest = some ((f0 :: frest).flatten) := by
    cases frest <;> simp [optAppend]
  have hFr : runLines pbx_step (PbxSt.mk (sl "PBXFooter") (some f0) 0 false
      (([sl "PBXHeader"] ++ f.sections.map PbxSection.name) ++ [sl "PBXFooter"])
      (((pushAccumIf [(sl "PBXHeader", [])] (sl "PBXHeader") (optAppend none f.header)) ++
        f.sections.map (fun s => (s.name, s.blocks.map (fun b => some b.flatten)))) ++
        [(sl "PBXFooter", [])])) frest =
      some (PbxSt.mk (sl "PBXFooter") (some ((f0 :: frest).flatten)) 0 false
        (([sl "PBXHeader"] ++ f.sections.map PbxSection.name) ++ [sl "PBXFooter"])
        (((pushAccumIf [(sl "PBXHeader", [])] (sl "PBXHeader") (optAppend none f.header)) ++
          f.sections.map (fun s => (s.name, s.blocks.map (fun b => some b.flatten)))) ++
          [(sl "PBXFooter", [])])) := by
    have h0 := run_footer frest (PbxSt.mk (sl "PBXFooter") (some f0) 0 false
      (([sl "PBXHeader"] ++ f.sections.map PbxSection.name) ++ [sl "PBXFooter"])
      (((pushAccumIf [(sl "PBXHeader", [])] (sl "PBXHeader") (optAppend none f.header)) ++
        f.sections.map (fun s => (s.name, s.blocks.map (fun b => some b.flatten)))) ++
        [(sl "PBXFooter", [])])) rfl
    rw [h0]
    simp only [hoptf]
  have hrunAll : runLines pbx_step pbx_init (render_pbx f) =
      some (PbxSt.mk (sl "PBXFooter") (some ((f0 :: frest).flatten)) 0 false
        (([sl "PBXHeader"] ++ f.sections.map PbxSection.name) ++ [sl "PBXFooter"])
        (((pushAccumIf [(sl "PBXHeader", [])] (sl "PBXHeader") (optAppend none f.header)) ++
          f.sections.map (fun s => (s.name, s.blocks.map (fun b => some b.flatten)))) ++
          [(sl "PBXFooter", [])])) := by
    unfold render_pbx
    rw [hfoot]
    rw [show f.header ++ (f.sections.map render_section).flatten ++ (f0 :: frest) =
      f.header ++ ((f.sections.map render_section).flatten ++ (f0 :: frest)) by
        simp [List.append_assoc]]
    rw [runLines_append, hH]
    show runLines pbx_step _ _ = _
    rw [runLines_append, hS]
    show runLines pbx_step _ (f0 :: frest) = _
    simp only [runLines]
    rw [hF0]
    show runLines pbx_step _ frest = _
    exact hFr
  have hpushlast : apush
      ((((pushAccumIf [(sl "PBXHeader", [])] (sl "PBXHeader") (optAppend none f.header)) ++
        f.sections.map (fun s => (s.name, s.blocks.map (fun b => some b.flatten)))) ++
        [(sl "PBXFooter", [])])) (sl "PBXFooter") (some ((f0 :: frest).flatten)) =
      (((pushAccumIf [(sl "PBXHeader", [])] (sl "PBXHeader") (optAppend none f.header)) ++
        f.sections.map (fun s => (s.name, s.blocks.map (fun b => some b.flatten)))) ++
        [(sl "PBXFooter", [some ((f0 :: frest).flatten)])]) := by
    unfold apush
    rw [aget_append, hftrfresh]
    rw [aset_append_left _ _ _ _ hftrfresh]
    simp [aget, aset]
  have hparse : parse_pbxproj (render_pbx f) =
      some (Pbx.mk
        ((([sl "PBXHeader"] ++ f.sections.map PbxSection.name) ++ [sl "PBXFooter"]))
        (((pushAccumIf [(sl "PBXHeader", [])] (sl "PBXHeader") (optAppend none f.header)) ++
          f.sections.map (fun s => (s.name, s.blocks.map (fun b => some b.flatten)))) ++
          [(sl "PBXFooter", [some ((f0 :: frest).flatten)])])) := by
    unfold parse_pbxproj
    rw [hrunAll, Option.map_some']
    simp only [hpushlast]
  refine ⟨?_, ?_⟩
  · rw [hparse]
    show write_pbxproj _ = _
    have hsects : (((pushAccumIf [(sl "PBXHeader", [])] (sl "PBXHeader")
        (optAppend none f.header)) ++
        f.sections.map (fun s => (s.name, s.blocks.map (fun b => some b.flatten)))) ++
        [(sl "PBXFooter", [some ((f0 :: frest).flatten)])]) =
        ((pushAccumIf [(sl "PBXHeader", [])] (sl "PBXHeader") (optAppend none f.header)) ++
        (f.sections.map (fun s => (s.name, s.blocks.map (fun b => some b.flatten))) ++
        [(sl "PBXFooter", [some ((f0 :: frest).flatten)])])) := by
      simp [List.append_assoc]
    have hwh : write_section (Pbx.mk
        ((([sl "PBXHeader"] ++ f.sections.map PbxSection.name) ++ [sl "PBXFooter"]))
        (((pushAccumIf [(sl "PBXHeader", [])] (sl "PBXHeader") (optAppend none f.header)) ++
          f.sections.map (fun s => (s.name, s.blocks.map (fun b => some b.flatten)))) ++
          [(sl "PBXFooter", [some ((f0 :: frest).flatten)])])) (sl "PBXHeader") =
        some f.header.flatten := by
      rw [hsects]
      exact write_header_entry f.header _ _
    have hlook : ∀ s ∈ f.sections,
        aget (((pushAccumIf [(sl "PBXHeader", [])] (sl "PBXHeader")
          (optAppend none f.header)) ++
          f.sections.map (fun x => (x.name, x.blocks.map (fun b => some b.flatten)))) ++
          [(sl "PBXFooter", [some ((f0 :: frest).flatten)])]) s.name =
          some (s.blocks.map (fun b => some b.flatten)) := by
      intro s hs2
      have h1 : aget ((pushAccumIf [(sl "PBXHeader", [])] (sl "PBXHeader")
          (optAppend none f.header)) ++
          f.sections.map (fun x => (x.name, x.blocks.map (fun b => some b.flatten)))) s.name =
          some (s.blocks.map (fun b => some b.flatten)) := by
        rw [aget_append, hkeyP s hs2]
        exact aget_map_entries f.sections _ s hs2 hnodup
      rw [aget_append, h1]
    have hlookftr : aget (((pushAccumIf [(sl "PBXHeader", [])] (sl "PBXHeader")
        (optAppend none f.header)) ++
        f.sections.map (fun x => (x.name, x.blocks.map (fun b => some b.flatten)))) ++
        [(sl "PBXFooter", [some ((f0 :: frest).flatten)])]) (sl "PBXFooter") =
        some [some ((f0 :: frest).flatten)] := by
      rw [aget_append, hftrfresh]
      simp [aget]
    have hwf : write_section (Pbx.mk
        ((([sl "PBXHeader"] ++ f.sections.map PbxSection.name) ++ [sl "PBXFooter"]))
        (((pushAccumIf [(sl "PBXHeader", [])] (sl "PBXHeader") (optAppend none f.header)) ++
          f.sections.map (fun s => (s.name, s.blocks.map (fun b => some b.flatten)))) ++
          [(sl "PBXFooter", [some ((f0 :: frest).flatten)])])) (sl "PBXFooter") =
        some ((f0 :: frest).flatten) := by
      unfold write_section
      rw [hlookftr]
      simp [seqItems]
    have hws : writeParts (Pbx.mk
        ((([sl "PBXHeader"] ++ f.sections.map PbxSection.name) ++ [sl "PBXFooter"]))
        (((pushAccumIf [(sl "PBXHeader", [])] (sl "PBXHeader") (optAppend none f.header)) ++
          f.sections.map (fun s => (s.name, s.blocks.map (fun b => some b.flatten)))) ++
          [(sl "PBXFooter", [some ((f0 :: frest).flatten)])]))
        (f.sections.map PbxSection.name) =
        some (f.sections.map (fun s => (render_section s).flatten)) := by
      apply writeParts_sections
      · exact hlook
      · exact fun s hs2 => (hsec s hs2).1
    show (writeParts _ ((([sl "PBXHeader"] ++ f.sections.map PbxSection.name) ++
      [sl "PBXFooter"]))).map List.flatten = _
    rw [writeParts_append, writeParts_append]
    simp only [writeParts, hwh, hwf, hws, Option.some_bind, Option.map_some']
    have hmid : (f.sections.map (fun s => (render_section s).flatten)).flatten =
        ((f.sections.map render_section).flatten).flatten := by
      rw [show f.sections.map (fun s => (render_section s).flatten) =
        (f.sections.map render_section).map List.flatten by rw [List.map_map]; rfl]
      exact flatten_map_flatten _
    unfold render_pbx
    rw [hfoot]
    simp [List.flatten_append, List.flatten_cons, hmid, List.append_assoc]
  · intro P hP
    rw [hparse] at hP
    cases hP
    simp

/-- A small well-formed pbxproj file: header, two marked sections with
object blocks, and a footer closing the object table. -/
def demo_pbx_file : PbxFile :=
  { header := [sl "// !$*UTF8*$!\n", sl "\x7b\n"],
    sections := [
      PbxSection.mk (sl "PBXBuildFile")
        [[sl "\t\tAB01 /* a.c in Sources */ = \x7bisa = PBXBuildFile;\x7d;\n"]],
      PbxSection.mk (sl "PBXFileReference")
        [[sl "\t\tCD02 = \x7b\n", sl "\t\t\tpath = a.c;\n", sl "\t\t\x7d;\n"]]],
    footer := [sl "\trootObject = EF03;\n", sl "\x7d\n"] }

theorem c1_parse_serialize_roundtrip_witness :
    good_pbx demo_pbx_file ∧
    (parse_pbxproj (render_pbx demo_pbx_file)).bind write_pbxproj =
      some (render_pbx demo_pbx_file).flatten := by
  have hg : good_pbx demo_pbx_file := by decide
  exact ⟨hg, (c1_parse_serialize_roundtrip demo_pbx_file hg).1⟩

/-- C2 counterexample: on a pbxproj whose running brace count goes negative
(one extra unmatched closing brace), parse_pbxproj prints an error and
returns None (apple.py lines 276-277) — the failure is a None return, not a
raised FormatError; the repository defines no FormatError (or any exception
class) at all. -/
theorem c2_counterexample :
    parse_pbxproj [sl "/* Begin PBXGroup section */\n",
      sl "\t\tAA00 = \x7bisa = PBXGroup;\x7d;\n", sl "\t\t\x7d;\n"] = none := by
  decide

/-- C2 (amended): whenever the running brace count of an object block goes
negative, parse_pbxproj aborts at that line and returns no model at all, so
no corrupt project model can be produced; the error is signalled by the
None return value rather than an exception. -/
theorem c2_negative_brace_fails (pre : List (List Char)) (line : List Char)
    (post : List (List Char)) (st : PbxSt)
    (hrun : runLines pbx_step pbx_init pre = some st)
    (hh : st.cur ≠ sl "PBXHeader") (hf : st.cur ≠ sl "PBXFooter")
    (hadv : advTrigger line = false)
    (hcomp : isSubstr (end_text st.cur) line = false)
    (hbet : st.between = false)
    (hneg : st.brace + group_parity line < 0) :
    parse_pbxproj (pre ++ line :: post) = none := by
  unfold parse_pbxproj
  rw [runLines_append, hrun]
  show (runLines pbx_step st (line :: post)).map _ = none
  simp only [runLines]
  rw [pbx_step_obj_neg st line hadv hh hf hcomp hbet hneg]
  rfl

theorem c2_negative_brace_fails_witness :
    parse_pbxproj [sl "/* Begin PBXBuildFile section */\n", sl "\t\t\x7d;\n"] = none := by
  have hrun : runLines pbx_step pbx_init [sl "/* Begin PBXBuildFile section */\n"] =
      some (PbxSt.mk (sl "PBXBuildFile") none 0 false
        [sl "PBXHeader", sl "PBXBuildFile"]
        [(sl "PBXHeader", []), (sl "PBXBuildFile", [])]) := by decide
  have h := c2_negative_brace_fails [sl "/* Begin PBXBuildFile section */\n"]
    (sl "\t\t\x7d;\n") [] _ hrun (by decide) (by decide) (by decide) (by decide)
    (by decide) (by decide)
  simpa using h

/-- One solution project record (windows.py lines 141-145). -/
structure SlnProj where
  path : List Char
  name : List Char
  hook : List Char
  deps : List (List Char)
deriving DecidableEq

/-- The three states of parse_solution's line machine. -/
inductive SlnMode where
  | hdr
  | projs
  | glbs
deriving DecidableEq

/-- Parser state of parse_solution (windows.py lines 104-113): the header
lines, the projects table and globals table (absent until their regions
start), the current region, the uuid aliased by the project variable, the
stage aliased by the globals variable, and the dependency flag. -/
structure SlnSt where
  header : List (List Char)
  projects : Option (List (List Char × SlnProj))
  globals : Option (List (List Char × (List Char × List (List Char))))
  mode : SlnMode
  curProj : Option (List Char)
  curGlob : Option (List Char)
  dependency : Bool
deriving DecidableEq

def sln_init : SlnSt := SlnSt.mk [] none none SlnMode.hdr none none false

/-- The parsed solution contents returned by parse_solution. -/
structure SlnData where
  header : List (List Char)
  projects : Option (List (List Char × SlnProj))
  globals : Option (List (List Char × (List Char × List (List Char))))
deriving DecidableEq

/-- Update the value stored at a key; none when the key is absent (the
Python code mutates an object that is always reachable from the table, so
the none case is unreachable there). -/
def amodify {K V : Type} [DecidableEq K] : List (K × V) → K → (V → V) → Option (List (K × V))
  | [], _, _ => none
  | (k, v) :: t, key, f =>
    if k = key then some ((k, f v) :: t) else (amodify t key f).map ((k, v) :: ·)

/-- The field extraction of a Project line (windows.py lines 121-139). -/
def proj_line_fields (line : List Char) :
    List Char × List Char × List Char × List Char :=
  let pos0a := pyFind line (sl "Project(\"")
  let pos0b := pyFindFrom line [lbrace] pos0a + 1
  let pos1b := pyFindFrom line [rbrace] pos0b
  let hook := pySlice line pos0b pos1b
  let pos0c := pyFindFrom line (sl "=") pos1b
  let pos0d := pyFindFrom line (sl "\"") pos0c + 1
  let pos1d := pyFindFrom line (sl "\"") pos0d
  let name := pySlice line pos0d pos1d
  let pos0e := pyFindFrom line (sl ",") pos1d
  let pos0f := pyFindFrom line (sl "\"") pos0e + 1
  let pos1f := pyFindFrom line (sl "\"") pos0f
  let path := pySlice line pos0f pos1f
  let pos0g := pyFindFrom line (sl ",") pos1f
  let pos0h := pyFindFrom line [lbrace] pos0g + 1
  let pos1h := pyFindFrom line [rbrace] pos0h
  let uuid := pySlice line pos0h pos1h
  (hook, name, path, uuid)

/-- The dependency-guid extraction (windows.py lines 161-163). -/
def dep_guid (line : List Char) : List Char :=
  let pos0 := pyFind line [lbrace] + 1
  let pos1 := pyFindFrom line [rbrace] pos0
  pySlice line pos0 pos1

/-- The GlobalSection stage/phase extraction (windows.py lines 166-170). -/
def glob_stage_phase (line : List Char) : List Char × List Char :=
  let pos0 := pyFind line (sl "(") + 1
  let pos1 := pyFind line (sl ")")
  let stage := pySlice line pos0 pos1
  let pos2 := pyFindFrom line (sl "=") pos1 + 1
  let phase := stripChars (pySliceFrom line pos2)
  (stage, phase)

/-- One line of parse_solution's loop (windows.py lines 114-178).  The two
none outcomes marked as corruption model Python silently writing a project
record into the globals table, or clobbering the globals table while the
section alias keeps appending to a detached list; the dependency-append
none models the AttributeError on project None. -/
def sln_step (st : SlnSt) (line : List Char) : Option SlnSt :=
  if isSubstr (sl "Project(") line = true then
    let fields := proj_line_fields line
    let proj := SlnProj.mk fields.2.2.1 fields.2.1 fields.1 []
    let uuid := fields.2.2.2
    match st.mode with
    | SlnMode.hdr =>
      some { st with
              mode := SlnMode.projs
              projects := some (aset [] uuid proj)
              curProj := some uuid }
    | SlnMode.projs =>
      match st.projects with
      | some ps => some { st with projects := some (aset ps uuid proj), curProj := some uuid }
      | none => none
    | SlnMode.glbs => none
  else if stripChars line = sl "Global" then
    if st.globals.isSome then none
    else some { st with mode := SlnMode.glbs, globals := some [] }
  else
    match st.mode with
    | SlnMode.hdr => some { st with header := st.header ++ [line.dropLast] }
    | SlnMode.projs =>
      if isSubstr (sl "ProjectSection(ProjectDependencies)") line = true then
        some { st with dependency := true }
      else if isSubstr (sl "EndProjectSection") line = true then
        some { st with dependency := false }
      else if isSubstr (sl "EndProject") line = true then
        some { st with curProj := none }
      else if st.dependency = true then
        match st.curProj, st.projects with
        | some u, some ps =>
          (amodify ps u (fun p => { p with deps := p.deps ++ [dep_guid line] })).map
            (fun ps2 => { st with projects := some ps2 })
        | _, _ => none
      else some st
    | SlnMode.glbs =>
      match st.globals with
      | none => none
      | some gs =>
        if st.curGlob = none ∧ isSubstr (sl "GlobalSection") line = true then
          let sp := glob_stage_phase line
          some { st with globals := some (aset gs sp.1 (sp.2, [])), curGlob := some sp.1 }
        else if isSubstr (sl "EndGlobalSection") line = true then
          some { st with curGlob := none }
        else
          match st.curGlob with
          | some stage =>
            (amodify gs stage (fun pv => (pv.1, pv.2 ++ [line.dropLast]))).map
              (fun gs2 => { st with globals := some gs2 })
          | none => some st

/-- parse_solution (windows.py lines 89-180) over the file's lines. -/
def parse_solution (lines : List (List Char)) : Option SlnData :=
  (runLines sln_step sln_init lines).map
    (fun st => SlnData.mk st.header st.projects st.globals)

/-- The solution-folder type hook (windows.py line 36). -/
def CONT_UUID : List Char := sl "2150E333-8FDC-42A3-9474-1A3956D46DE8"

/-- The Project introduction line exactly as write_solution emits it
(windows.py lines 205-213). -/
def proj_line (u : List Char) (p : SlnProj) : List Char :=
  sl "Project(\"\x7b" ++ p.hook ++ sl "\x7d\") = \"" ++ p.name ++ sl "\", \"" ++ p.path ++
    sl "\", \"\x7b" ++ u ++ sl "\x7d\"\n"

/-- One dependency line (windows.py lines 217-221). -/
def dep_line (g : List Char) : List Char :=
  sl "\t\t\x7b" ++ g ++ sl "\x7d = \x7b" ++ g ++ sl "\x7d\n"

/-- One GlobalSection introduction line (windows.py lines 226-230). -/
def glob_sec_line (stage phase : List Char) : List Char :=
  sl "\tGlobalSection(" ++ stage ++ sl ") = " ++ phase ++ sl "\n"

/-- The lines emitted for one project entry (windows.py lines 203-223):
the dependency section is written only when requested and only for
projects whose hook is not the solution-folder hook. -/
def proj_block (withDeps : Bool) (e : List Char × SlnProj) : List (List Char) :=
  [proj_line e.1 e.2] ++
  (if withDeps = true ∧ e.2.hook ≠ CONT_UUID then
    [sl "\tProjectSection(ProjectDependencies) = postProject\n"] ++
    e.2.deps.map dep_line ++ [sl "\tEndProjectSection\n"]
  else []) ++
  [sl "EndProject\n"]

/-- The lines emitted for one global section (windows.py lines 225-234). -/
def glob_block (e : List Char × (List Char × List (List Char))) : List (List Char) :=
  [glob_sec_line e.1 e.2.1] ++ e.2.2.map (fun v => v ++ [nlc]) ++ [sl "\tEndGlobalSection\n"]

/-- write_solution (windows.py lines 183-235), grouped into the emitted
lines; the byte output is their concatenation.  A missing projects or
globals key (Python KeyError) fails. -/
def write_solution_lines (withDeps : Bool) (d : SlnData) : Option (List (List Char)) :=
  match d.projects, d.globals with
  | some ps, some gs =>
    some (d.header.map (fun h => h ++ [nlc]) ++
      (ps.map (proj_block withDeps)).flatten ++
      [sl "Global\n"] ++
      (gs.map glob_block).flatten ++
      [sl "EndGlobal\n"])
  | _, _ => none

/-- write_solution's byte output. -/
def write_solution (withDeps : Bool) (d : SlnData) : Option (List Char) :=
  (write_solution_lines withDeps d).map List.flatten

/-- Well-formedness of one dependency guid: the written dependency line
parses back to the guid and triggers none of the loop's other branches. -/
def good_dep (g : List Char) : Prop :=
  dep_guid (dep_line g) = g ∧
  isSubstr (sl "Project(") (dep_line g) = false ∧
  stripChars (dep_line g) ≠ sl "Global" ∧
  isSubstr (sl "ProjectSection(ProjectDependencies)") (dep_line g) = false ∧
  isSubstr (sl "EndProjectSection") (dep_line g) = false ∧
  isSubstr (sl "EndProject") (dep_line g) = false ∧
  nlc ∉ g

instance (g : List Char) : Decidable (good_dep g) := by
  unfold good_dep
  infer_instance

/-- Well-formedness of one project entry: the written Project line parses
back to the same four fields, solution folders carry no dependencies, and
no field embeds a newline. -/
def good_proj (u : List Char) (p : SlnProj) : Prop :=
  proj_line_fields (proj_line u p) = (p.hook, p.name, p.path, u) ∧
  (p.hook = CONT_UUID → p.deps = []) ∧
  (∀ g ∈ p.deps, good_dep g) ∧
  nlc ∉ u ∧ nlc ∉ p.hook ∧ nlc ∉ p.name ∧ nlc ∉ p.path

instance (u : List Char) (p : SlnProj) : Decidable (good_proj u p) := by
  unfold good_proj
  infer_instance

/-- Well-formedness of one header line as stored (newline stripped). -/
def good_hdr_line (h : List Char) : Prop :=
  isSubstr (sl "Project(") (h ++ [nlc]) = false ∧
  stripChars (h ++ [nlc]) ≠ sl "Global" ∧
  nlc ∉ h

instance (h : List Char) : Decidable (good_hdr_line h) := by
  unfold good_hdr_line
  infer_instance

/-- Well-formedness of one stored global-section value line. -/
def good_val (v : List Char) : Prop :=
  isSubstr (sl "Project(") (v ++ [nlc]) = false ∧
  stripChars (v ++ [nlc]) ≠ sl "Global" ∧
  isSubstr (sl "EndGlobalSection") (v ++ [nlc]) = false ∧
  nlc ∉ v

instance (v : List Char) : Decidable (good_val v) := by
  unfold good_val
  infer_instance

/-- Well-formedness of one global section. -/
def good_sec (stage phase : List Char) (vals : List (List Char)) : Prop :=
  glob_stage_phase (glob_sec_line stage phase) = (stage, phase) ∧
  isSubstr (sl "Project(") (glob_sec_line stage phase) = false ∧
  stripChars (glob_sec_line stage phase) ≠ sl "Global" ∧
  nlc ∉ stage ∧ nlc ∉ phase ∧
  (∀ v ∈ vals, good_val v)

instance (stage phase : List Char) (vals : List (List Char)) :
    Decidable (good_sec stage phase vals) := by
  unfold good_sec
  infer_instance

/-- The well-formed class of solution models: all field extractions invert
the writer's rendering, keys are unique, at least one project exists, and
no stored text embeds a newline or masquerades as a structural line. -/
def good_sln (d : SlnData) : Prop :=
  (∀ h ∈ d.header, good_hdr_line h) ∧
  (match d.projects with
   | some ps => ps ≠ [] ∧ (ps.map Prod.fst).Nodup ∧ ∀ e ∈ ps, good_proj e.1 e.2
   | none => False) ∧
  (match d.globals with
   | some gs => (gs.map Prod.fst).Nodup ∧ ∀ e ∈ gs, good_sec e.1 e.2.1 e.2.2
   | none => False)

instance (d : SlnData) : Decidable (good_sln d) := by
  obtain ⟨h, po, go⟩ := d
  unfold good_sln
  cases po <;> cases go <;> dsimp only <;> infer_instance

theorem aget_none_iff {K V : Type} [DecidableEq K] (m : List (K × V)) (k : K) :
    aget m k = none ↔ k ∉ m.map Prod.fst := by
  induction m with
  | nil => simp [aget]
  | cons hd t ih =>
    obtain ⟨k0, v0⟩ := hd
    by_cases hk : k0 = k <;> simp [aget, hk, ih, Ne.symm]

theorem amodify_last {K V : Type} [DecidableEq K] (m : List (K × V)) (k : K) (v : V)
    (f : V → V) (h : aget m k = none) :
    amodify (m ++ [(k, v)]) k f = some (m ++ [(k, f v)]) := by
  induction m with
  | nil => simp [amodify]
  | cons hd t ih =>
    obtain ⟨k0, v0⟩ := hd
    simp only [aget] at h
    split at h
    · cases h
    · rename_i hk
      simp [amodify, hk, ih h]

theorem findSub_nlc_body {body : List Char} (rest : List Char) (hb : nlc ∉ body) :
    findSub (body ++ nlc :: rest) [nlc] = some body.length := by
  induction body with
  | nil =>
    have hp : ([nlc]).isPrefixOf ([] ++ nlc :: rest) = true := by
      simp [List.isPrefixOf_iff_prefix]
    rw [findSub.eq_def]
    simp [hp]
  | cons c t ih =>
    simp only [List.mem_cons, not_or] at hb
    have hp : ([nlc]).isPrefixOf (c :: (t ++ nlc :: rest)) = false := by
      rw [Bool.eq_false_iff]
      intro hpre
      rw [List.isPrefixOf_iff_prefix] at hpre
      exact hb.1 (List.cons_prefix_cons.mp hpre).1
    rw [List.cons_append, findSub.eq_def]
    simp [hp, ih hb.2]

theorem findSub_append_left {a pat : List Char} {n : Nat} (b : List Char)
    (h : findSub a pat = some n) : findSub (a ++ b) pat = some n := by
  induction a generalizing n with
  | nil =>
    by_cases hp : pat.isPrefixOf ([] : List Char) = true
    · have hpat : pat = [] := by simpa [List.isPrefixOf_iff_prefix] using hp
      subst hpat
      rw [findSub.eq_def] at h
      simp at h
      subst h
      rw [findSub.eq_def]
      simp [List.isPrefixOf_iff_prefix]
    · rw [findSub.eq_def] at h
      simp [hp] at h
  | cons c t ih =>
    by_cases hp : pat.isPrefixOf (c :: t) = true
    · rw [findSub.eq_def] at h
      simp [hp] at h
      have hp2 : pat.isPrefixOf (c :: (t ++ b)) = true := by
        rw [List.isPrefixOf_iff_prefix] at hp ⊢
        have := hp.trans ((c :: t).prefix_append b)
        simpa using this
      rw [List.cons_append, findSub.eq_def]
      simp [hp2, h]
    · rw [findSub.eq_def] at h
      simp [hp] at h
      obtain ⟨m, hm, hmn⟩ := h
      subst hmn
      have hp2 : pat.isPrefixOf (c :: (t ++ b)) = false := by
        rw [Bool.eq_false_iff]
        intro hpre
        rw [Bool.not_eq_true] at hp
        rw [Bool.eq_false_iff] at hp
        apply hp
        rw [List.isPrefixOf_iff_prefix] at hpre ⊢
        have hlen : pat.length ≤ (c :: t).length := by
          have := findSub_bound hm
          simp only [List.length_cons]
          omega
        refine List.prefix_of_prefix_length_le ?_ ((c :: t).prefix_append b) hlen
        simpa using hpre
      rw [List.cons_append, findSub.eq_def]
      simp [hp2, ih hm]

theorem toLines_pos {s : List Char} {n : Nat} (hne : s ≠ []) (hf : findSub s [nlc] = some n) :
    toLines s = s.take (n + 1) :: toLines (s.drop (n + 1)) := by
  cases s with
  | nil => exact absurd rfl hne
  | cons c t =>
    rw [toLines.eq_def]
    split
    · rename_i h0
      rw [h0] at hf
      cases hf
    · split
      · rename_i h0
        rw [h0] at hf
        cases hf
      · rename_i m h0
        rw [h0] at hf
        cases hf
        rfl

theorem toLines_flatten (lines : List (List Char))
    (h : ∀ l ∈ lines, ∃ body, l = body ++ [nlc] ∧ nlc ∉ body) :
    toLines lines.flatten = lines := by
  induction lines with
  | nil =>
    show toLines [] = []
    rw [toLines.eq_def]
  | cons l t ih =>
    obtain ⟨body, rfl, hb⟩ := h l (by simp)
    have hfl : ((body ++ [nlc]) :: t).flatten = body ++ nlc :: t.flatten := by simp
    have hfind : findSub ((body ++ [nlc]) :: t).flatten [nlc] = some body.length := by
      rw [hfl]
      exact findSub_nlc_body _ hb
    have hne : ((body ++ [nlc]) :: t).flatten ≠ [] := by
      rw [hfl]
      simp
    rw [toLines_pos hne hfind]
    have hsplit : ((body ++ [nlc]) :: t).flatten = (body ++ [nlc]) ++ t.flatten := by simp
    have hlen : body.length + 1 = (body ++ [nlc]).length := by simp
    congr 1
    · rw [hsplit, hlen]
      exact List.take_left _ _
    · rw [hsplit, hlen, List.drop_left]
      exact ih (fun l hl => h l (by simp [hl]))

theorem proj_line_has_Project (u : List Char) (p : SlnProj) :
    isSubstr (sl "Project(") (proj_line u p) = true := by
  apply isSubstr_of_prefix
  rw [List.isPrefixOf_iff_prefix, proj_line]
  rw [show sl "Project(\"\x7b" = sl "Project(" ++ sl "\"\x7b" from by decide]
  simp only [List.append_assoc]
  exact List.prefix_append _ _

theorem glob_sec_has_GlobalSection (stage phase : List Char) :
    isSubstr (sl "GlobalSection") (glob_sec_line stage phase) = true := by
  have he : glob_sec_line stage phase =
      sl "\t" ++ sl "GlobalSection" ++ (sl "(" ++ stage ++ (sl ") = " ++ (phase ++ sl "\n"))) := by
    rw [glob_sec_line]
    rw [show sl "\tGlobalSection(" = sl "\t" ++ (sl "GlobalSection" ++ sl "(") from by decide]
    simp [List.append_assoc]
  rw [he]
  exact isSubstr_sandwich _ _ _

theorem proj_line_shape (u : List Char) (p : SlnProj) (h4 : nlc ∉ u) (h5 : nlc ∉ p.hook)
    (h6 : nlc ∉ p.name) (h7 : nlc ∉ p.path) :
    ∃ body, proj_line u p = body ++ [nlc] ∧ nlc ∉ body := by
  refine ⟨sl "Project(\"\x7b" ++ p.hook ++ sl "\x7d\") = \"" ++ p.name ++ sl "\", \"" ++ p.path ++
    sl "\", \"\x7b" ++ u ++ sl "\x7d\"", ?_, ?_⟩
  · rw [proj_line]
    rw [show sl "\x7d\"\n" = sl "\x7d\"" ++ [nlc] from by decide]
    simp [List.append_assoc]
  · intro hm
    have d1 : nlc ∉ sl "Project(\"\x7b" := by decide
    have d2 : nlc ∉ sl "\x7d\") = \"" := by decide
    have d3 : nlc ∉ sl "\", \"" := by decide
    have d4 : nlc ∉ sl "\", \"\x7b" := by decide
    have d5 : nlc ∉ sl "\x7d\"" := by decide
    simp only [List.append_assoc, List.mem_append, d1, d2, d3, d4, d5, false_or, or_false] at hm
    rcases hm with hm | hm | hm | hm
    · exact h5 hm
    · exact h6 hm
    · exact h7 hm
    · exact h4 hm

theorem dep_line_shape (g : List Char) (hg : nlc ∉ g) :
    ∃ body, dep_line g = body ++ [nlc] ∧ nlc ∉ body := by
  refine ⟨sl "\t\t\x7b" ++ g ++ sl "\x7d = \x7b" ++ g ++ sl "\x7d", ?_, ?_⟩
  · rw [dep_line]
    rw [show sl "\x7d\n" = sl "\x7d" ++ [nlc] from by decide]
    simp [List.append_assoc]
  · intro hm
    have d1 : nlc ∉ sl "\t\t\x7b" := by decide
    have d2 : nlc ∉ sl "\x7d = \x7b" := by decide
    have d3 : nlc ∉ sl "\x7d" := by decide
    simp only [List.append_assoc, List.mem_append, d1, d2, d3, false_or, or_false, or_self] at hm
    exact hg hm

theorem glob_sec_line_shape (stage phase : List Char) (h1 : nlc ∉ stage) (h2 : nlc ∉ phase) :
    ∃ body, glob_sec_line stage phase = body ++ [nlc] ∧ nlc ∉ body := by
  refine ⟨sl "\tGlobalSection(" ++ stage ++ sl ") = " ++ phase, ?_, ?_⟩
  · rw [glob_sec_line]
    rw [show sl "\n" = [nlc] from by decide]
  · intro hm
    have d1 : nlc ∉ sl "\tGlobalSection(" := by decide
    have d2 : nlc ∉ sl ") = " := by decide
    simp only [List.append_assoc, List.mem_append, d1, d2, false_or, or_false] at hm
    rcases hm with hm | hm
    · exact h1 hm
    · exact h2 hm

theorem sln_step_hdr (h : List Char) (hg : good_hdr_line h) (H : List (List Char))
    (cp cg : Option (List Char)) (dep : Bool) :
    sln_step (SlnSt.mk H none none SlnMode.hdr cp cg dep) (h ++ [nlc]) =
      some (SlnSt.mk (H ++ [h]) none none SlnMode.hdr cp cg dep) := by
  obtain ⟨h1, h2, _⟩ := hg
  unfold sln_step
  rw [if_neg (by simp [h1]), if_neg h2]
  simp [List.dropLast_concat]

theorem sln_step_proj_hdr (line ho na pa u : List Char)
    (hf : proj_line_fields line = (ho, na, pa, u))
    (hs : isSubstr (sl "Project(") line = true)
    (H : List (List Char)) (G : Option (List (List Char × (List Char × List (List Char)))))
    (cp cg : Option (List Char)) (dep : Bool) :
    sln_step (SlnSt.mk H none G SlnMode.hdr cp cg dep) line =
      some (SlnSt.mk H (some [(u, SlnProj.mk pa na ho [])]) G SlnMode.projs (some u) cg dep) := by
  unfold sln_step
  rw [if_pos hs]
  simp only [hf]
  rfl

theorem sln_step_proj_projs (line ho na pa u : List Char)
    (hf : proj_line_fields line = (ho, na, pa, u))
    (hs : isSubstr (sl "Project(") line = true)
    (H : List (List Char)) (ps : List (List Char × SlnProj))
    (hfresh : aget ps u = none)
    (G : Option (List (List Char × (List Char × List (List Char)))))
    (cp cg : Option (List Char)) (dep : Bool) :
    sln_step (SlnSt.mk H (some ps) G SlnMode.projs cp cg dep) line =
      some (SlnSt.mk H (some (ps ++ [(u, SlnProj.mk pa na ho [])])) G SlnMode.projs
        (some u) cg dep) := by
  unfold sln_step
  rw [if_pos hs]
  simp only [hf]
  show some (SlnSt.mk H (some (aset ps u (SlnProj.mk pa na ho []))) G SlnMode.projs
    (some u) cg dep) = _
  rw [aset_fresh ps u _ hfresh]

theorem sln_step_ps_open (H : List (List Char)) (P : Option (List (List Char × SlnProj)))
    (G : Option (List (List Char × (List Char × List (List Char)))))
    (cp cg : Option (List Char)) (dep : Bool) :
    sln_step (SlnSt.mk H P G SlnMode.projs cp cg dep)
      (sl "\tProjectSection(ProjectDependencies) = postProject\n") =
      some (SlnSt.mk H P G SlnMode.projs cp cg true) := by
  unfold sln_step
  rw [if_neg (by decide), if_neg (by decide)]
  show (if (true : Bool) = true then _ else _) = _
  rw [if_pos rfl]

theorem sln_step_ps_close (H : List (List Char)) (P : Option (List (List Char × SlnProj)))
    (G : Option (List (List Char × (List Char × List (List Char)))))
    (cp cg : Option (List Char)) (dep : Bool) :
    sln_step (SlnSt.mk H P G SlnMode.projs cp cg dep) (sl "\tEndProjectSection\n") =
      some (SlnSt.mk H P G SlnMode.projs cp cg false) := by
  unfold sln_step
  rw [if_neg (by decide), if_neg (by decide)]
  show (if (false : Bool) = true then _ else if (true : Bool) = true then _ else _) = _
  rw [if_neg (by decide), if_pos rfl]

theorem sln_step_end_proj (H : List (List Char)) (P : Option (List (List Char × SlnProj)))
    (G : Option (List (List Char × (List Char × List (List Char)))))
    (cp cg : Option (List Char)) (dep : Bool) :
    sln_step (SlnSt.mk H P G SlnMode.projs cp cg dep) (sl "EndProject\n") =
      some (SlnSt.mk H P G SlnMode.projs none cg dep) := by
  unfold sln_step
  rw [if_neg (by decide), if_neg (by decide)]
  show (if (false : Bool) = true then _ else if (false : Bool) = true then _
    else if (true : Bool) = true then _ else _) = _
  rw [if_neg (by decide), if_neg (by decide), if_pos rfl]

theorem sln_step_dep (g : List Char) (hg : good_dep g)
    (H : List (List Char)) (ps0 : List (List Char × SlnProj)) (u pa na ho : List Char)
    (acc : List (List Char)) (hfresh : aget ps0 u = none)
    (G : Option (List (List Char × (List Char × List (List Char))))) (cg : Option (List Char)) :
    sln_step (SlnSt.mk H (some (ps0 ++ [(u, SlnProj.mk pa na ho acc)])) G SlnMode.projs
        (some u) cg true) (dep_line g) =
      some (SlnSt.mk H (some (ps0 ++ [(u, SlnProj.mk pa na ho (acc ++ [g]))])) G SlnMode.projs
        (some u) cg true) := by
  obtain ⟨he, h1, h2, h3, h4, h5, _⟩ := hg
  unfold sln_step
  rw [if_neg (by simp [h1]), if_neg h2]
  show (if isSubstr (sl "ProjectSection(ProjectDependencies)") (dep_line g) = true then _
    else if isSubstr (sl "EndProjectSection") (dep_line g) = true then _
    else if isSubstr (sl "EndProject") (dep_line g) = true then _
    else if (true : Bool) = true then _ else _) = _
  rw [if_neg (by simp [h3]), if_neg (by simp [h4]), if_neg (by simp [h5]), if_pos rfl]
  show (amodify (ps0 ++ [(u, SlnProj.mk pa na ho acc)]) u
      (fun p => { p with deps := p.deps ++ [dep_guid (dep_line g)] })).map _ = _
  rw [amodify_last ps0 u _ _ hfresh]
  simp [he]

theorem sln_step_global_open (H : List (List Char)) (P : Option (List (List Char × SlnProj)))
    (m : SlnMode) (cp cg : Option (List Char)) (dep : Bool) :
    sln_step (SlnSt.mk H P none m cp cg dep) (sl "Global\n") =
      some (SlnSt.mk H P (some []) SlnMode.glbs cp cg dep) := by
  unfold sln_step
  rw [if_neg (by decide), if_pos (by decide)]
  rfl

theorem sln_step_sec_open (stage phase : List Char) (vals : List (List Char))
    (hg : good_sec stage phase vals)
    (H : List (List Char)) (P : Option (List (List Char × SlnProj)))
    (gs : List (List Char × (List Char × List (List Char))))
    (hfresh : aget gs stage = none) (cp : Option (List Char)) (dep : Bool) :
    sln_step (SlnSt.mk H P (some gs) SlnMode.glbs cp none dep) (glob_sec_line stage phase) =
      some (SlnSt.mk H P (some (gs ++ [(stage, (phase, []))])) SlnMode.glbs cp
        (some stage) dep) := by
  obtain ⟨he, h1, h2, _, _, _⟩ := hg
  unfold sln_step
  rw [if_neg (by simp [h1]), if_neg h2]
  show (if (none : Option (List Char)) = none ∧
      isSubstr (sl "GlobalSection") (glob_sec_line stage phase) = true then _ else _) = _
  rw [if_pos ⟨rfl, glob_sec_has_GlobalSection stage phase⟩]
  simp only [he]
  show some (SlnSt.mk H P (some (aset gs stage (phase, []))) SlnMode.glbs cp (some stage) dep) = _
  rw [aset_fresh gs stage _ hfresh]

theorem sln_step_val (v : List Char) (hv : good_val v)
    (H : List (List Char)) (P : Option (List (List Char × SlnProj)))
    (gs0 : List (List Char × (List Char × List (List Char)))) (stage phase : List Char)
    (acc : List (List Char)) (hfresh : aget gs0 stage = none)
    (cp : Option (List Char)) (dep : Bool) :
    sln_step (SlnSt.mk H P (some (gs0 ++ [(stage, (phase, acc))])) SlnMode.glbs cp
        (some stage) dep) (v ++ [nlc]) =
      some (SlnSt.mk H P (some (gs0 ++ [(stage, (phase, acc ++ [v]))])) SlnMode.glbs cp
        (some stage) dep) := by
  obtain ⟨h1, h2, h3, _⟩ := hv
  unfold sln_step
  rw [if_neg (by simp [h1]), if_neg h2]
  show (if (some stage : Option (List Char)) = none ∧
      isSubstr (sl "GlobalSection") (v ++ [nlc]) = true then _
    else if isSubstr (sl "EndGlobalSection") (v ++ [nlc]) = true then _ else _) = _
  rw [if_neg (by simp), if_neg (by simp [h3])]
  show (amodify (gs0 ++ [(stage, (phase, acc))]) stage
      (fun pv => (pv.1, pv.2 ++ [(v ++ [nlc]).dropLast]))).map _ = _
  rw [amodify_last gs0 stage _ _ hfresh]
  simp [List.dropLast_concat]

theorem sln_step_sec_close (H : List (List Char)) (P : Option (List (List Char × SlnProj)))
    (gs : List (List Char × (List Char × List (List Char)))) (stage : List Char)
    (cp : Option (List Char)) (dep : Bool) :
    sln_step (SlnSt.mk H P (some gs) SlnMode.glbs cp (some stage) dep)
      (sl "\tEndGlobalSection\n") =
      some (SlnSt.mk H P (some gs) SlnMode.glbs cp none dep) := by
  unfold sln_step
  rw [if_neg (by decide), if_neg (by decide)]
  show (if (some stage : Option (List Char)) = none ∧
      isSubstr (sl "GlobalSection") (sl "\tEndGlobalSection\n") = true then _
    else if isSubstr (sl "EndGlobalSection") (sl "\tEndGlobalSection\n") = true then _
      else _) = _
  rw [if_neg (by simp), if_pos (by decide)]

theorem sln_step_end_global (H : List (List Char)) (P : Option (List (List Char × SlnProj)))
    (gs : List (List Char × (List Char × List (List Char))))
    (cp : Option (List Char)) (dep : Bool) :
    sln_step (SlnSt.mk H P (some gs) SlnMode.glbs cp none dep) (sl "EndGlobal\n") =
      some (SlnSt.mk H P (some gs) SlnMode.glbs cp none dep) := by
  unfold sln_step
  rw [if_neg (by decide), if_neg (by decide)]
  show (if (none : Option (List Char)) = none ∧
      isSubstr (sl "GlobalSection") (sl "EndGlobal\n") = true then _
    else if isSubstr (sl "EndGlobalSection") (sl "EndGlobal\n") = true then _ else _) = _
  rw [if_neg (by simp [show isSubstr (sl "GlobalSection") (sl "EndGlobal\n") = false
    from by decide]), if_neg (by decide)]

theorem run_sln_header (hs : List (List Char)) :
    ∀ H, (∀ h ∈ hs, good_hdr_line h) →
      runLines sln_step (SlnSt.mk H none none SlnMode.hdr none none false)
        (hs.map (fun h => h ++ [nlc])) =
      some (SlnSt.mk (H ++ hs) none none SlnMode.hdr none none false) := by
  induction hs with
  | nil =>
    intro H _
    simp [runLines]
  | cons h t ih =>
    intro H hg
    simp only [List.map_cons, runLines]
    rw [sln_step_hdr h (hg h (by simp)) H none none false]
    show runLines sln_step _ (t.map (fun h => h ++ [nlc])) = _
    rw [ih (H ++ [h]) (fun x hx => hg x (by simp [hx]))]
    simp

theorem run_sln_deps (ds : List (List Char)) :
    ∀ acc, (∀ g ∈ ds, good_dep g) →
      ∀ (H : List (List Char)) (ps0 : List (List Char × SlnProj)) (u pa na ho : List Char),
        aget ps0 u = none →
        ∀ (G : Option (List (List Char × (List Char × List (List Char)))))
          (cg : Option (List Char)),
        runLines sln_step (SlnSt.mk H (some (ps0 ++ [(u, SlnProj.mk pa na ho acc)])) G
            SlnMode.projs (some u) cg true) (ds.map dep_line) =
          some (SlnSt.mk H (some (ps0 ++ [(u, SlnProj.mk pa na ho (acc ++ ds))])) G
            SlnMode.projs (some u) cg true) := by
  induction ds with
  | nil =>
    intro acc _ H ps0 u pa na ho _ G cg
    simp [runLines]
  | cons g t ih =>
    intro acc hg H ps0 u pa na ho hfresh G cg
    simp only [List.map_cons, runLines]
    rw [sln_step_dep g (hg g (by simp)) H ps0 u pa na ho acc hfresh G cg]
    show runLines sln_step _ (t.map dep_line) = _
    rw [ih (acc ++ [g]) (fun x hx => hg x (by simp [hx])) H ps0 u pa na ho hfresh G cg]
    simp

theorem run_sln_proj_block (u : List Char) (p : SlnProj) (hg : good_proj u p)
    (H : List (List Char)) (ps0 : List (List Char × SlnProj)) (hfresh : aget ps0 u = none)
    (cg : Option (List Char)) :
    runLines sln_step (SlnSt.mk H (some (ps0 ++ [(u, SlnProj.mk p.path p.name p.hook [])]))
        none SlnMode.projs (some u) cg false)
      ((if true = true ∧ p.hook ≠ CONT_UUID then
          [sl "\tProjectSection(ProjectDependencies) = postProject\n"] ++
          p.deps.map dep_line ++ [sl "\tEndProjectSection\n"]
        else []) ++ [sl "EndProject\n"]) =
      some (SlnSt.mk H (some (ps0 ++ [(u, p)])) none SlnMode.projs none cg false) := by
  obtain ⟨_, hcont, hdeps, _⟩ := hg
  by_cases hho : p.hook = CONT_UUID
  · rw [if_neg (by simp [hho])]
    have hd : p.deps = [] := hcont hho
    simp only [List.nil_append]
    rw [runLines_singleton, sln_step_end_proj]
    have : SlnProj.mk p.path p.name p.hook [] = p := by
      cases p
      simp_all
    rw [this]
  · rw [if_pos ⟨rfl, hho⟩]
    have hl : ([sl "\tProjectSection(ProjectDependencies) = postProject\n"] ++
        p.deps.map dep_line ++ [sl "\tEndProjectSection\n"]) ++ [sl "EndProject\n"] =
        sl "\tProjectSection(ProjectDependencies) = postProject\n" ::
          (p.deps.map dep_line ++ [sl "\tEndProjectSection\n", sl "EndProject\n"]) := by
      simp
    rw [hl]
    simp only [runLines]
    rw [sln_step_ps_open]
    show runLines sln_step _
      (p.deps.map dep_line ++ [sl "\tEndProjectSection\n", sl "EndProject\n"]) = _
    rw [runLines_append]
    rw [run_sln_deps p.deps [] hdeps H ps0 u p.path p.name p.hook hfresh none cg]
    show runLines sln_step _ [sl "\tEndProjectSection\n", sl "EndProject\n"] = _
    rw [show [sl "\tEndProjectSection\n", sl "EndProject\n"] =
      [sl "\tEndProjectSection\n"] ++ [sl "EndProject\n"] from rfl]
    rw [runLines_append, runLines_singleton, sln_step_ps_close]
    show runLines sln_step _ [sl "EndProject\n"] = _
    rw [runLines_singleton, sln_step_end_proj]
    have : SlnProj.mk p.path p.name p.hook ([] ++ p.deps) = p := by
      cases p
      simp_all
    rw [this]

theorem run_sln_projects (entries : List (List Char × SlnProj)) :
    ∀ ps0, (∀ e ∈ entries, good_proj e.1 e.2) →
      (∀ e ∈ entries, aget ps0 e.1 = none) →
      ((entries.map Prod.fst).Nodup) →
      ∀ (H : List (List Char)) (cg : Option (List Char)),
      runLines sln_step (SlnSt.mk H (some ps0) none SlnMode.projs none cg false)
        ((entries.map (proj_block true)).flatten) =
      some (SlnSt.mk H (some (ps0 ++ entries)) none SlnMode.projs none cg false) := by
  induction entries with
  | nil =>
    intro ps0 _ _ _ H cg
    simp [runLines]
  | cons e t ih =>
    intro ps0 hg hfresh hnd H cg
    obtain ⟨u, p⟩ := e
    have hgp := hg (u, p) (by simp)
    have hsplit : ((((u, p) :: t).map (proj_block true)).flatten) =
        [proj_line u p] ++
          (((if true = true ∧ p.hook ≠ CONT_UUID then
              [sl "\tProjectSection(ProjectDependencies) = postProject\n"] ++
              p.deps.map dep_line ++ [sl "\tEndProjectSection\n"]
            else []) ++ [sl "EndProject\n"]) ++ (t.map (proj_block true)).flatten) := by
      simp [proj_block]
    rw [hsplit, runLines_append, runLines_singleton]
    rw [sln_step_proj_projs (proj_line u p) p.hook p.name p.path u hgp.1
      (proj_line_has_Project u p) H ps0 (hfresh (u, p) (by simp)) none none cg false]
    show runLines sln_step _
      (((if true = true ∧ p.hook ≠ CONT_UUID then
          [sl "\tProjectSection(ProjectDependencies) = postProject\n"] ++
          p.deps.map dep_line ++ [sl "\tEndProjectSection\n"]
        else []) ++ [sl "EndProject\n"]) ++ (t.map (proj_block true)).flatten) = _
    rw [runLines_append]
    rw [run_sln_proj_block u p hgp H ps0 (hfresh (u, p) (by simp)) cg]
    show runLines sln_step _ ((t.map (proj_block true)).flatten) = _
    have hnd2 : (t.map Prod.fst).Nodup := by
      simp only [List.map_cons, List.nodup_cons] at hnd
      exact hnd.2
    have hfresh2 : ∀ e ∈ t, aget (ps0 ++ [(u, p)]) e.1 = none := by
      intro e2 he2
      rw [aget_none_iff]
      intro hmem
      rw [List.map_append] at hmem
      rcases List.mem_append.mp hmem with hc | hc
      · have h0 := hfresh e2 (by simp [he2])
        rw [aget_none_iff] at h0
        exact h0 hc
      · have hc2 : e2.1 = u := by simpa using hc
        simp only [List.map_cons, List.nodup_cons] at hnd
        apply hnd.1
        rw [← hc2]
        exact List.mem_map.mpr ⟨e2, he2, rfl⟩
    rw [ih (ps0 ++ [(u, p)]) (fun x hx => hg x (by simp [hx])) hfresh2 hnd2 H cg]
    simp

theorem run_sln_vals (vs : List (List Char)) :
    ∀ acc, (∀ v ∈ vs, good_val v) →
      ∀ (H : List (List Char)) (P : Option (List (List Char × SlnProj)))
        (gs0 : List (List Char × (List Char × List (List Char)))) (stage phase : List Char),
        aget gs0 stage = none →
        ∀ (cp : Option (List Char)) (dep : Bool),
        runLines sln_step (SlnSt.mk H P (some (gs0 ++ [(stage, (phase, acc))])) SlnMode.glbs
            cp (some stage) dep) (vs.map (fun v => v ++ [nlc])) =
          some (SlnSt.mk H P (some (gs0 ++ [(stage, (phase, acc ++ vs))])) SlnMode.glbs
            cp (some stage) dep) := by
  induction vs with
  | nil =>
    intro acc _ H P gs0 stage phase _ cp dep
    simp [runLines]
  | cons v t ih =>
    intro acc hg H P gs0 stage phase hfresh cp dep
    simp only [List.map_cons, runLines]
    rw [sln_step_val v (hg v (by simp)) H P gs0 stage phase acc hfresh cp dep]
    show runLines sln_step _ (t.map (fun v => v ++ [nlc])) = _
    rw [ih (acc ++ [v]) (fun x hx => hg x (by simp [hx])) H P gs0 stage phase hfresh cp dep]
    simp

theorem run_sln_sec (stage phase : List Char) (vals : List (List Char))
    (hg : good_sec stage phase vals)
    (H : List (List Char)) (P : Option (List (List Char × SlnProj)))
    (gs0 : List (List Char × (List Char × List (List Char))))
    (hfresh : aget gs0 stage = none) (cp : Option (List Char)) (dep : Bool) :
    runLines sln_step (SlnSt.mk H P (some gs0) SlnMode.glbs cp none dep)
      (glob_block (stage, (phase, vals))) =
      some (SlnSt.mk H P (some (gs0 ++ [(stage, (phase, vals))])) SlnMode.glbs cp none dep) := by
  have hvals := hg.2.2.2.2.2
  rw [show glob_block (stage, (phase, vals)) = glob_sec_line stage phase ::
    (vals.map (fun v => v ++ [nlc]) ++ [sl "\tEndGlobalSection\n"]) from by simp [glob_block]]
  simp only [runLines]
  rw [sln_step_sec_open stage phase vals hg H P gs0 hfresh cp dep]
  show runLines sln_step _ (vals.map (fun v => v ++ [nlc]) ++ [sl "\tEndGlobalSection\n"]) = _
  rw [runLines_append]
  rw [run_sln_vals vals [] hvals H P gs0 stage phase hfresh cp dep]
  show runLines sln_step _ [sl "\tEndGlobalSection\n"] = _
  rw [runLines_singleton, sln_step_sec_close]
  simp

theorem run_sln_globals (secs : List (List Char × (List Char × List (List Char)))) :
    ∀ gs0, (∀ e ∈ secs, good_sec e.1 e.2.1 e.2.2) →
      (∀ e ∈ secs, aget gs0 e.1 = none) →
      ((secs.map Prod.fst).Nodup) →
      ∀ (H : List (List Char)) (P : Option (List (List Char × SlnProj)))
        (cp : Option (List Char)) (dep : Bool),
      runLines sln_step (SlnSt.mk H P (some gs0) SlnMode.glbs cp none dep)
        ((secs.map glob_block).flatten) =
      some (SlnSt.mk H P (some (gs0 ++ secs)) SlnMode.glbs cp none dep) := by
  induction secs with
  | nil =>
    intro gs0 _ _ _ H P cp dep
    simp [runLines]
  | cons e t ih =>
    intro gs0 hg hfresh hnd H P cp dep
    obtain ⟨stage, phase, vals⟩ := e
    simp only [List.map_cons, List.flatten_cons]
    rw [runLines_append]
    rw [run_sln_sec stage phase vals (hg (stage, (phase, vals)) (by simp)) H P gs0
      (hfresh (stage, (phase, vals)) (by simp)) cp dep]
    show runLines sln_step _ ((t.map glob_block).flatten) = _
    have hnd2 : (t.map Prod.fst).Nodup := by
      simp only [List.map_cons, List.nodup_cons] at hnd
      exact hnd.2
    have hfresh2 : ∀ e2 ∈ t, aget (gs0 ++ [(stage, (phase, vals))]) e2.1 = none := by
      intro e2 he2
      rw [aget_none_iff]
      intro hmem
      rw [List.map_append] at hmem
      rcases List.mem_append.mp hmem with hc | hc
      · have h0 := hfresh e2 (by simp [he2])
        rw [aget_none_iff] at h0
        exact h0 hc
      · have hc2 : e2.1 = stage := by simpa using hc
        simp only [List.map_cons, List.nodup_cons] at hnd
        apply hnd.1
        rw [← hc2]
        exact List.mem_map.mpr ⟨e2, he2, rfl⟩
    rw [ih (gs0 ++ [(stage, (phase, vals))]) (fun x hx => hg x (by simp [hx])) hfresh2 hnd2
      H P cp dep]
    simp

/-- C4: for a well-formed solution model parsed from a file, writing it with
write_solution and reparsing the written bytes yields exactly the same model:
the same projects with their type hooks, names, paths and identifiers, the
same per-project dependency lists, and the same global sections with their
phase tokens and value lines. -/
theorem c4_solution_roundtrip (lines : List (List Char)) (d : SlnData)
    (hp : parse_solution lines = some d) (hg : good_sln d) :
    ∃ bytes, (parse_solution lines).bind (write_solution true) = some bytes ∧
      parse_solution (toLines bytes) = some d := by
  obtain ⟨hhdr, hps0, hgs0⟩ := hg
  rcases hpo : d.projects with _ | ps
  · rw [hpo] at hps0
    simp at hps0
  rcases hgo : d.globals with _ | gs
  · rw [hgo] at hgs0
    simp at hgs0
  rw [hpo] at hps0
  rw [hgo] at hgs0
  simp only at hps0 hgs0
  obtain ⟨hne, hnd, hgood⟩ := hps0
  obtain ⟨hndg, hgoodg⟩ := hgs0
  rcases hpse : ps with _ | ⟨e0, rest⟩
  · exact absurd hpse hne
  subst hpse
  obtain ⟨u0, p0⟩ := e0
  have hgp0 := hgood (u0, p0) (by simp)
  set L := d.header.map (fun h => h ++ [nlc]) ++
    (((u0, p0) :: rest).map (proj_block true)).flatten ++ [sl "Global\n"] ++
    (gs.map glob_block).flatten ++ [sl "EndGlobal\n"] with hL
  have hw : write_solution true d = some L.flatten := by
    unfold write_solution write_solution_lines
    rw [hpo, hgo]
    rfl
  have hshapes : ∀ l ∈ L, ∃ body, l = body ++ [nlc] ∧ nlc ∉ body := by
    intro l hl
    rw [hL] at hl
    rcases List.mem_append.mp hl with hl1 | hlast
    rotate_left
    · refine ⟨sl "EndGlobal", ?_, by decide⟩
      rw [List.mem_singleton.mp hlast]
      decide
    rcases List.mem_append.mp hl1 with hl2 | hlC
    rotate_left
    · obtain ⟨blk, hblk, hlm⟩ := List.mem_flatten.mp hlC
      obtain ⟨e, he, rfl⟩ := List.mem_map.mp hblk
      obtain ⟨stg, ph, vls⟩ := e
      have hgs := hgoodg (stg, ph, vls) he
      have hlm2 : l = glob_sec_line stg ph ∨ (∃ v ∈ vls, v ++ [nlc] = l) ∨
          l = sl "\tEndGlobalSection\n" := by
        simpa [glob_block] using hlm
      rcases hlm2 with rfl | ⟨v, hv, rfl⟩ | rfl
      · exact glob_sec_line_shape stg ph hgs.2.2.2.1 hgs.2.2.2.2.1
      · exact ⟨v, rfl, (hgs.2.2.2.2.2 v hv).2.2.2⟩
      · exact ⟨sl "\tEndGlobalSection", by decide, by decide⟩
    rcases List.mem_append.mp hl2 with hl3 | hlG
    rotate_left
    · refine ⟨sl "Global", ?_, by decide⟩
      rw [List.mem_singleton.mp hlG]
      decide
    rcases List.mem_append.mp hl3 with hlH | hlB
    · obtain ⟨h, hh, rfl⟩ := List.mem_map.mp hlH
      exact ⟨h, rfl, (hhdr h hh).2.2⟩
    · obtain ⟨blk, hblk, hlm⟩ := List.mem_flatten.mp hlB
      obtain ⟨e, he, rfl⟩ := List.mem_map.mp hblk
      obtain ⟨u, p⟩ := e
      have hgp := hgood (u, p) he
      by_cases hcond : p.hook = CONT_UUID
      · have hlm2 : l = proj_line u p ∨ l = sl "EndProject\n" := by
          simpa [proj_block, hcond] using hlm
        rcases hlm2 with rfl | rfl
        · exact proj_line_shape u p hgp.2.2.2.1 hgp.2.2.2.2.1 hgp.2.2.2.2.2.1
            hgp.2.2.2.2.2.2
        · exact ⟨sl "EndProject", by decide, by decide⟩
      · have hlm2 : l = proj_line u p ∨
            l = sl "\tProjectSection(ProjectDependencies) = postProject\n" ∨
            (∃ g ∈ p.deps, dep_line g = l) ∨ l = sl "\tEndProjectSection\n" ∨
            l = sl "EndProject\n" := by
          simpa [proj_block, hcond] using hlm
        rcases hlm2 with rfl | rfl | ⟨g, hgm, rfl⟩ | rfl | rfl
        · exact proj_line_shape u p hgp.2.2.2.1 hgp.2.2.2.2.1 hgp.2.2.2.2.2.1
            hgp.2.2.2.2.2.2
        · exact ⟨sl "\tProjectSection(ProjectDependencies) = postProject", by decide, by decide⟩
        · exact dep_line_shape g (hgp.2.2.1 g hgm).2.2.2.2.2.2
        · exact ⟨sl "\tEndProjectSection", by decide, by decide⟩
        · exact ⟨sl "EndProject", by decide, by decide⟩
  have htl : toLines L.flatten = L := toLines_flatten L hshapes
  have hLassoc : L = d.header.map (fun h => h ++ [nlc]) ++
      ([proj_line u0 p0] ++
        (((if true = true ∧ p0.hook ≠ CONT_UUID then
            [sl "\tProjectSection(ProjectDependencies) = postProject\n"] ++
            p0.deps.map dep_line ++ [sl "\tEndProjectSection\n"]
          else []) ++ [sl "EndProject\n"]) ++
          ((rest.map (proj_block true)).flatten ++
            ([sl "Global\n"] ++
              ((gs.map glob_block).flatten ++ [sl "EndGlobal\n"]))))) := by
    rw [hL]
    simp [proj_block, List.append_assoc]
  have hparse : parse_solution L = some d := by
    rw [parse_solution, hLassoc]
    rw [show sln_init = SlnSt.mk [] none none SlnMode.hdr none none false from rfl]
    rw [runLines_append]
    have hH := run_sln_header d.header [] hhdr
    simp only [List.nil_append] at hH
    rw [hH]
    show (runLines sln_step (SlnSt.mk d.header none none SlnMode.hdr none none false)
      ([proj_line u0 p0] ++
        (((if true = true ∧ p0.hook ≠ CONT_UUID then
            [sl "\tProjectSection(ProjectDependencies) = postProject\n"] ++
            p0.deps.map dep_line ++ [sl "\tEndProjectSection\n"]
          else []) ++ [sl "EndProject\n"]) ++
          ((rest.map (proj_block true)).flatten ++
            ([sl "Global\n"] ++
              ((gs.map glob_block).flatten ++ [sl "EndGlobal\n"])))))).map
      (fun st => SlnData.mk st.header st.projects st.globals) = some d
    rw [runLines_append, runLines_singleton]
    rw [sln_step_proj_hdr (proj_line u0 p0) p0.hook p0.name p0.path u0 hgp0.1
      (proj_line_has_Project u0 p0) d.header none none none false]
    show (runLines sln_step (SlnSt.mk d.header (some [(u0, SlnProj.mk p0.path p0.name p0.hook [])])
        none SlnMode.projs (some u0) none false)
      (((if true = true ∧ p0.hook ≠ CONT_UUID then
          [sl "\tProjectSection(ProjectDependencies) = postProject\n"] ++
          p0.deps.map dep_line ++ [sl "\tEndProjectSection\n"]
        else []) ++ [sl "EndProject\n"]) ++
        ((rest.map (proj_block true)).flatten ++
          ([sl "Global\n"] ++
            ((gs.map glob_block).flatten ++ [sl "EndGlobal\n"]))))).map
      (fun st => SlnData.mk st.header st.projects st.globals) = some d
    rw [runLines_append]
    rw [show (SlnSt.mk d.header (some [(u0, SlnProj.mk p0.path p0.name p0.hook [])])
        none SlnMode.projs (some u0) none false) =
      (SlnSt.mk d.header (some ([] ++ [(u0, SlnProj.mk p0.path p0.name p0.hook [])]))
        none SlnMode.projs (some u0) none false) from rfl]
    rw [run_sln_proj_block u0 p0 hgp0 d.header [] rfl none]
    show (runLines sln_step (SlnSt.mk d.header (some ([] ++ [(u0, p0)])) none SlnMode.projs
        none none false)
      ((rest.map (proj_block true)).flatten ++
        ([sl "Global\n"] ++
          ((gs.map glob_block).flatten ++ [sl "EndGlobal\n"])))).map
      (fun st => SlnData.mk st.header st.projects st.globals) = some d
    rw [runLines_append]
    have hfr : ∀ e ∈ rest, aget ([] ++ [(u0, p0)]) e.1 = none := by
      intro e he
      rw [aget_none_iff]
      intro hmem
      have hc : e.1 = u0 := by simpa using hmem
      simp only [List.map_cons, List.nodup_cons] at hnd
      exact hnd.1 (hc ▸ List.mem_map.mpr ⟨e, he, rfl⟩)
    rw [run_sln_projects rest ([] ++ [(u0, p0)]) (fun x hx => hgood x (by simp [hx])) hfr
      (by simp only [List.map_cons, List.nodup_cons] at hnd; exact hnd.2) d.header none]
    show (runLines sln_step (SlnSt.mk d.header (some (([] ++ [(u0, p0)]) ++ rest)) none
        SlnMode.projs none none false)
      ([sl "Global\n"] ++
        ((gs.map glob_block).flatten ++ [sl "EndGlobal\n"]))).map
      (fun st => SlnData.mk st.header st.projects st.globals) = some d
    rw [runLines_append, runLines_singleton, sln_step_global_open]
    show (runLines sln_step (SlnSt.mk d.header (some (([] ++ [(u0, p0)]) ++ rest)) (some [])
        SlnMode.glbs none none false)
      ((gs.map glob_block).flatten ++ [sl "EndGlobal\n"])).map
      (fun st => SlnData.mk st.header st.projects st.globals) = some d
    rw [runLines_append]
    rw [run_sln_globals gs [] hgoodg (by intro e _; rfl) hndg d.header _ none false]
    show (runLines sln_step (SlnSt.mk d.header (some (([] ++ [(u0, p0)]) ++ rest))
        (some ([] ++ gs)) SlnMode.glbs none none false) [sl "EndGlobal\n"]).map
      (fun st => SlnData.mk st.header st.projects st.globals) = some d
    rw [runLines_singleton, sln_step_end_global]
    obtain ⟨dh, dp, dg⟩ := d
    simp only at hpo hgo
    simp [hpo, hgo]
  refine ⟨L.flatten, ?_, ?_⟩
  · rw [hp]
    simpa using hw
  · rw [htl]
    exact hparse

/-- A concrete well-formed solution model: two real projects (one depending
on the other) plus a solution folder, and one global section. -/
def demo_sln : SlnData :=
  SlnData.mk
    [sl "Microsoft Visual Studio Solution File, Format Version 12.00",
     sl "# Visual Studio Version 17"]
    (some [(sl "AAAA-1111",
            SlnProj.mk (sl "app.vcxproj") (sl "app")
              (sl "8BC9CEB8-8B4A-11D0-8D11-00A0C91BC942") [sl "BBBB-2222"]),
           (sl "BBBB-2222",
            SlnProj.mk (sl "lib.vcxproj") (sl "lib")
              (sl "8BC9CEB8-8B4A-11D0-8D11-00A0C91BC942") []),
           (sl "CCCC-3333", SlnProj.mk (sl "") (sl "misc") CONT_UUID [])])
    (some [(sl "SolutionConfigurationPlatforms",
            (sl "preSolution", [sl "\t\tDebug|x64 = Debug|x64"]))])

/-- The solution file whose parse is demo_sln. -/
def demo_sln_lines : List (List Char) :=
  [sl "Microsoft Visual Studio Solution File, Format Version 12.00\n",
   sl "# Visual Studio Version 17\n",
   sl "Project(\"\x7b8BC9CEB8-8B4A-11D0-8D11-00A0C91BC942\x7d\") = \"app\", \"app.vcxproj\", \"\x7bAAAA-1111\x7d\"\n",
   sl "\tProjectSection(ProjectDependencies) = postProject\n",
   sl "\t\t\x7bBBBB-2222\x7d = \x7bBBBB-2222\x7d\n",
   sl "\tEndProjectSection\n",
   sl "EndProject\n",
   sl "Project(\"\x7b8BC9CEB8-8B4A-11D0-8D11-00A0C91BC942\x7d\") = \"lib\", \"lib.vcxproj\", \"\x7bBBBB-2222\x7d\"\n",
   sl "EndProject\n",
   sl "Project(\"\x7b2150E333-8FDC-42A3-9474-1A3956D46DE8\x7d\") = \"misc\", \"\", \"\x7bCCCC-3333\x7d\"\n",
   sl "EndProject\n",
   sl "Global\n",
   sl "\tGlobalSection(SolutionConfigurationPlatforms) = preSolution\n",
   sl "\t\tDebug|x64 = Debug|x64\n",
   sl "\tEndGlobalSection\n",
   sl "EndGlobal\n"]

set_option maxRecDepth 8192 in
theorem c4_solution_roundtrip_witness :
    parse_solution demo_sln_lines = some demo_sln ∧ good_sln demo_sln ∧
    ∃ bytes, (parse_solution demo_sln_lines).bind (write_solution true) = some bytes ∧
      parse_solution (toLines bytes) = some demo_sln :=
  ⟨by decide, by decide,
   c4_solution_roundtrip demo_sln_lines demo_sln (by decide) (by decide)⟩

/-- Result of a fuel-bounded run of a recursive Python function: either the
returned value, or fuel exhaustion (the Python recursion went deeper than
the modelled call-depth budget). -/
inductive ERes (α : Type) where
  | out : α → ERes α
  | fuelout : ERes α
deriving DecidableEq

/-- The Windows targetset: project uuid to the retained project info
(path, name, hook) after the dependencies key is deleted. -/
abbrev WTset : Type := List (List Char × (List Char × List Char × List Char))

/-- Result of the project scan loop of the Windows expand_targets
(windows.py lines 875-884): either an early function return (a match named
ZERO_CHECK), or the final uuid variable, the updated targetset and the
accumulated dependency list. -/
inductive WScanRes where
  | early : WTset → WScanRes
  | done : Option (List Char) → WTset → List (List Char) → WScanRes

/-- The scan loop itself: every item matching the target by uuid or by name
is recorded (assignment into the dict updates in place or appends) and its
dependencies are accumulated; a ZERO_CHECK match returns from the whole
function at once. -/
def expandW_scan (tgt : List Char) (items : List (List Char × SlnProj))
    (uuid : Option (List Char)) (ts : WTset) (deps : List (List Char)) : WScanRes :=
  match items with
  | [] => WScanRes.done uuid ts deps
  | (k, p) :: rest =>
    if tgt = k ∨ tgt = p.name then
      if p.name = sl "ZERO_CHECK" then WScanRes.early ts
      else expandW_scan tgt rest (some k) (aset ts k (p.path, p.name, p.hook)) (deps ++ p.deps)
    else expandW_scan tgt rest uuid ts deps

/-- The final dependency loop of the Windows expand_targets (lines
890-891): one recursive call per accumulated dependency, with the
recursive step passed as a function. -/
def runWDeps (step : List Char → WTset → ERes WTset) :
    List (List Char) → WTset → ERes WTset
  | [], ts => ERes.out ts
  | d :: rest, ts =>
    match step d ts with
    | ERes.out ts2 => runWDeps step rest ts2
    | ERes.fuelout => ERes.fuelout

/-- expand_targets for the Windows dialect (windows.py lines 847-891), with
an explicit recursion-depth budget. -/
def expandW : Nat → List Char → WTset → SlnData → ERes WTset
  | 0, _, _, _ => ERes.fuelout
  | fuel + 1, tgt, ts, sd =>
    match sd.projects with
    | none => ERes.out ts
    | some sect =>
      if ahas ts tgt = true then ERes.out ts
      else
        match expandW_scan tgt sect none ts [] with
        | WScanRes.early ts2 => ERes.out ts2
        | WScanRes.done none ts2 _ => ERes.out ts2
        | WScanRes.done (some _) ts2 deps =>
          runWDeps (fun d ts3 => expandW fuel d ts3 sd) deps ts2

/-- The dependency loop at a given budget. -/
def expandW_deps (fuel : Nat) (ds : List (List Char)) (ts : WTset) (sd : SlnData) :
    ERes WTset :=
  runWDeps (fun d ts3 => expandW fuel d ts3 sd) ds ts

/-- The three pbxproj sections read by the Apple expand_targets: the
PBXFileReference, PBXNativeTarget and PBXTargetDependency item lists. -/
structure ApbxD where
  fileRefs : List (List Char)
  nativeTargets : List (List Char)
  targetDeps : List (List Char)
deriving DecidableEq

/-- The Apple targetset: target uuid to (name, path). -/
abbrev ATset : Type := List (List Char × (List Char × List Char))

/-- Python's name[1:-1] quote stripping (apple.py lines 1117-1118 and
1124-1125). -/
def unquote (s : List Char) : List Char :=
  match s with
  | [] => []
  | c :: _ => if c = Char.ofNat 39 ∨ c = '"' then pySlice s 1 (-1) else s

/-- The first file-reference line matching the scan condition of apple.py
line 1112, if any (the loop breaks at the first hit). -/
def find_fileref (target : List Char) : List (List Char) → Option (List Char)
  | [] => none
  | l :: rest =>
    if isSubstr (sl "BUILT_PRODUCTS_DIR") l = true ∧ isSubstr target l = true then some l
    else find_fileref target rest

/-- The uuid/name/path extraction from a matching file-reference line
(apple.py lines 1113-1125). -/
def fileref_extract (line : List Char) : List Char × List Char × List Char :=
  let pos0 := pyFind line (sl "/")
  let uuid := stripChars (pySliceTo line pos0)
  let pos0b := pyFindFrom line (sl "*") pos0 + 1
  let pos1 := pyFindFrom line (sl "*/") pos0b
  let name := unquote (stripChars (pySlice line pos0b pos1))
  let pos0c := pyFindFrom line (sl "path") pos1
  let pos0d := pyFindFrom line (sl "=") pos0c + 1
  let pos1b := pyFindFrom line (sl ";") pos0d
  let path := unquote (stripChars (pySlice line pos0d pos1b))
  (uuid, name, path)

/-- The candidate-dependency collection over the native-target items
(apple.py lines 1131-1147). -/
def dep_candidates (uuid : List Char) (items : List (List Char)) : List (List Char) :=
  items.foldl (fun acc item =>
    if isSubstr (sl "productReference = " ++ uuid) item = true ∧
        isSubstr (sl "dependencies = (") item = true then
      let pos0 := pyFind item (sl "dependencies = (")
      let pos0b := pyFindFrom item (sl "(") pos0 + 1
      let pos1 := pyFindFrom item (sl ")") pos0b
      let deplist := stripChars (pySlice item pos0b pos1)
      if deplist = [] then acc
      else
        acc ++ ((splitOnSub deplist (sl "\n")).map (fun depn =>
          stripChars (if isSubstr (sl "/") depn = true then
            pySliceTo depn (pyFind depn (sl "/")) else depn))).filter (fun d => d ≠ [])
    else acc) []

/-- The identified-target collection over the target-dependency items
(apple.py lines 1149-1159): one entry per (item, candidate) pair whose
candidate occurs in the item. -/
def identified_list (cands : List (List Char)) (items : List (List Char)) :
    List (List Char) :=
  items.foldl (fun acc item =>
    acc ++ (cands.filter (fun depn => isSubstr depn item)).map (fun _ =>
      let pos0 := pyFind item (sl "target =")
      let pos0b := pyFindFrom item (sl "=") pos0 + 1
      let pos1 := pyFindFrom item (sl "/") pos0b
      stripChars (pySlice item pos0b pos1))) []

/-- The product-reference uuid extraction in the final loop (apple.py
lines 1165-1169). -/
def prodref_extract (item : List Char) : List Char :=
  let pos0 := pyFind item (sl "productReference =")
  let pos0b := pyFindFrom item (sl "=") pos0 + 1
  let pos1 := pyFindFrom item (sl "/") pos0b
  stripChars (pySlice item pos0b pos1)

/-- The inner loop over identified targets (apple.py lines 1163-1171): a
nonempty product uuid not yet in the targetset is expanded recursively,
with the recursive step passed as a function. -/
def runAFounds (step : List Char → ATset → ERes ATset) (item : List Char) :
    List (List Char) → ATset → ERes ATset
  | [], ts => ERes.out ts
  | found :: fs, ts =>
    if isSubstr found item = true then
      let duuid := prodref_extract item
      if duuid ≠ [] ∧ ahas ts duuid = false then
        match step duuid ts with
        | ERes.out ts2 => runAFounds step item fs ts2
        | ERes.fuelout => ERes.fuelout
      else runAFounds step item fs ts
    else runAFounds step item fs ts

/-- The outer final loop over native-target items (apple.py line 1162). -/
def runAItems (step : List Char → ATset → ERes ATset) (ident : List (List Char)) :
    List (List Char) → ATset → ERes ATset
  | [], ts => ERes.out ts
  | item :: rest, ts =>
    match runAFounds step item ident ts with
    | ERes.out ts2 => runAItems step ident rest ts2
    | ERes.fuelout => ERes.fuelout

/-- expand_targets for the Apple dialect (apple.py lines 1085-1171), with
an explicit recursion-depth budget. -/
def expandA : Nat → List Char → ATset → ApbxD → ERes ATset
  | 0, _, _, _ => ERes.fuelout
  | fuel + 1, target, ts, pbx =>
    match find_fileref target pbx.fileRefs with
    | none => ERes.out ts
    | some line =>
      let f := fileref_extract line
      let ts1 := aset ts f.1 (f.2.1, f.2.2)
      let cands := dep_candidates f.1 pbx.nativeTargets
      let ident := identified_list cands pbx.targetDeps
      runAItems (fun du ts2 => expandA fuel du ts2 pbx) ident pbx.nativeTargets ts1

theorem mem_aset {K V : Type} [DecidableEq K] {m : List (K × V)} {k : K} {v : V}
    {e : K × V} (h : e ∈ aset m k v) : e = (k, v) ∨ e ∈ m := by
  induction m with
  | nil =>
    simp [aset] at h
    exact Or.inl h
  | cons hd t ih =>
    obtain ⟨k0, v0⟩ := hd
    by_cases hk : k0 = k
    · subst hk
      simp only [aset, if_pos rfl] at h
      rcases List.mem_cons.mp h with rfl | hm
      · exact Or.inl rfl
      · exact Or.inr (List.mem_cons_of_mem _ hm)
    · simp only [aset, if_neg hk] at h
      rcases List.mem_cons.mp h with rfl | hm
      · exact Or.inr (List.mem_cons_self _ _)
      · rcases ih hm with hl | hr
        · exact Or.inl hl
        · exact Or.inr (List.mem_cons_of_mem _ hr)

theorem ahas_aset_self {K V : Type} [DecidableEq K] (m : List (K × V)) (k : K) (v : V) :
    ahas (aset m k v) k = true := by
  simp [ahas, aget_aset_self]

theorem ahas_aset_other {K V : Type} [DecidableEq K] (m : List (K × V)) (k k2 : K) (v : V)
    (h : k ≠ k2) : ahas (aset m k v) k2 = ahas m k2 := by
  simp [ahas, aget_aset_other m k k2 v h]

theorem ahas_aset_mono {K V : Type} [DecidableEq K] (m : List (K × V)) (k k2 : K) (v : V)
    (h : ahas m k2 = true) : ahas (aset m k v) k2 = true := by
  by_cases hk : k = k2
  · subst hk
    exact ahas_aset_self m k v
  · rw [ahas_aset_other m k k2 v hk]
    exact h

theorem ahas_key_source {K V : Type} [DecidableEq K] (m : List (K × V)) (k k2 : K) (v : V)
    (h : ahas (aset m k v) k2 = true) : ahas m k2 = true ∨ k2 = k := by
  by_cases hk : k = k2
  · exact Or.inr hk.symm
  · rw [ahas_aset_other m k k2 v hk] at h
    exact Or.inl h

theorem filter_len_mono {α : Type} (l : List α) (p q : α → Bool)
    (h : ∀ a, q a = true → p a = true) : (l.filter q).length ≤ (l.filter p).length := by
  induction l with
  | nil => simp
  | cons x t ih =>
    by_cases hq : q x = true
    · rw [List.filter_cons_of_pos hq, List.filter_cons_of_pos (h x hq)]
      simpa using ih
    · rw [List.filter_cons_of_neg (by simpa using hq)]
      by_cases hp : p x = true
      · rw [List.filter_cons_of_pos hp]
        simp only [List.length_cons]
        omega
      · rw [List.filter_cons_of_neg (by simpa using hp)]
        exact ih

theorem filter_len_lt {α : Type} (l : List α) (p q : α → Bool)
    (h : ∀ a, q a = true → p a = true) (a0 : α) (ha0 : a0 ∈ l) (hp : p a0 = true)
    (hq : q a0 = false) : (l.filter q).length < (l.filter p).length := by
  induction l with
  | nil => cases ha0
  | cons x t ih =>
    rcases List.mem_cons.mp ha0 with rfl | hm
    · rw [List.filter_cons_of_neg (by simp [hq]), List.filter_cons_of_pos hp]
      simp only [List.length_cons]
      exact Nat.lt_succ_of_le (filter_len_mono t p q h)
    · by_cases hqx : q x = true
      · rw [List.filter_cons_of_pos hqx, List.filter_cons_of_pos (h x hqx)]
        simpa using ih hm
      · rw [List.filter_cons_of_neg (by simpa using hqx)]
        by_cases hpx : p x = true
        · rw [List.filter_cons_of_pos hpx]
          exact Nat.lt_succ_of_lt (ih hm)
        · rw [List.filter_cons_of_neg (by simpa using hpx)]
          exact ih hm

/-- The number of section keys not yet recorded in the targetset. -/
def wmiss (ps : List (List Char × SlnProj)) (ts : WTset) : Nat :=
  ((ps.map Prod.fst).filter (fun k => !ahas ts k)).length

theorem expandW_scan_entries (tgt : List Char) (items : List (List Char × SlnProj)) :
    ∀ (uuid : Option (List Char)) (ts : WTset) (deps : List (List Char)),
    (∀ ts2, expandW_scan tgt items uuid ts deps = WScanRes.early ts2 →
       ∀ e ∈ ts2, e ∈ ts ∨ e.2.2.1 ≠ sl "ZERO_CHECK") ∧
    (∀ u ts2 d2, expandW_scan tgt items uuid ts deps = WScanRes.done u ts2 d2 →
       ∀ e ∈ ts2, e ∈ ts ∨ e.2.2.1 ≠ sl "ZERO_CHECK") := by
  induction items with
  | nil =>
    intro uuid ts deps
    constructor
    · intro ts2 h
      cases h
    · intro u ts2 d2 h
      cases h
      intro e he
      exact Or.inl he
  | cons hd rest ih =>
    intro uuid ts deps
    obtain ⟨k, p⟩ := hd
    by_cases hm : tgt = k ∨ tgt = p.name
    · by_cases hz : p.name = sl "ZERO_CHECK"
      · constructor
        · intro ts2 h
          rw [expandW_scan, if_pos hm, if_pos hz] at h
          cases h
          intro e he
          exact Or.inl he
        · intro u ts2 d2 h
          rw [expandW_scan, if_pos hm, if_pos hz] at h
          cases h
      · have step : ∀ e, e ∈ aset ts k (p.path, p.name, p.hook) ∨ e.2.2.1 ≠ sl "ZERO_CHECK" →
            e ∈ ts ∨ e.2.2.1 ≠ sl "ZERO_CHECK" := by
          intro e he
          rcases he with he | he
          · rcases mem_aset he with rfl | hin
            · exact Or.inr hz
            · exact Or.inl hin
          · exact Or.inr he
        constructor
        · intro ts2 h
          rw [expandW_scan, if_pos hm, if_neg hz] at h
          intro e he
          apply step
          rcases (ih (some k) (aset ts k (p.path, p.name, p.hook)) (deps ++ p.deps)).1 ts2 h
            e he with h1 | h2
          · exact Or.inl h1
          · exact Or.inr h2
        · intro u ts2 d2 h
          rw [expandW_scan, if_pos hm, if_neg hz] at h
          intro e he
          apply step
          rcases (ih (some k) (aset ts k (p.path, p.name, p.hook)) (deps ++ p.deps)).2 u ts2
            d2 h e he with h1 | h2
          · exact Or.inl h1
          · exact Or.inr h2
    · constructor
      · intro ts2 h
        rw [expandW_scan, if_neg hm] at h
        exact (ih uuid ts deps).1 ts2 h
      · intro u ts2 d2 h
        rw [expandW_scan, if_neg hm] at h
        exact (ih uuid ts deps).2 u ts2 d2 h

theorem expandW_scan_mono (tgt : List Char) (items : List (List Char × SlnProj)) :
    ∀ (uuid : Option (List Char)) (ts : WTset) (deps : List (List Char)),
    (∀ ts2, expandW_scan tgt items uuid ts deps = WScanRes.early ts2 →
       ∀ k, ahas ts k = true → ahas ts2 k = true) ∧
    (∀ u ts2 d2, expandW_scan tgt items uuid ts deps = WScanRes.done u ts2 d2 →
       ∀ k, ahas ts k = true → ahas ts2 k = true) := by
  induction items with
  | nil =>
    intro uuid ts deps
    constructor
    · intro ts2 h
      cases h
    · intro u ts2 d2 h
      cases h
      exact fun k hk => hk
  | cons hd rest ih =>
    intro uuid ts deps
    obtain ⟨k0, p⟩ := hd
    by_cases hm : tgt = k0 ∨ tgt = p.name
    · by_cases hz : p.name = sl "ZERO_CHECK"
      · constructor
        · intro ts2 h
          rw [expandW_scan, if_pos hm, if_pos hz] at h
          cases h
          exact fun k hk => hk
        · intro u ts2 d2 h
          rw [expandW_scan, if_pos hm, if_pos hz] at h
          cases h
      · constructor
        · intro ts2 h
          rw [expandW_scan, if_pos hm, if_neg hz] at h
          intro k hk
          exact (ih (some k0) (aset ts k0 (p.path, p.name, p.hook)) (deps ++ p.deps)).1 ts2 h
            k (ahas_aset_mono ts k0 k _ hk)
        · intro u ts2 d2 h
          rw [expandW_scan, if_pos hm, if_neg hz] at h
          intro k hk
          exact (ih (some k0) (aset ts k0 (p.path, p.name, p.hook)) (deps ++ p.deps)).2 u ts2
            d2 h k (ahas_aset_mono ts k0 k _ hk)
    · constructor
      · intro ts2 h
        rw [expandW_scan, if_neg hm] at h
        exact (ih uuid ts deps).1 ts2 h
      · intro u ts2 d2 h
        rw [expandW_scan, if_neg hm] at h
        exact (ih uuid ts deps).2 u ts2 d2 h

theorem expandW_scan_key_source (tgt : List Char) (items : List (List Char × SlnProj)) :
    ∀ (uuid : Option (List Char)) (ts : WTset) (deps : List (List Char)),
    ∀ u ts2 d2, expandW_scan tgt items uuid ts deps = WScanRes.done u ts2 d2 →
      ∀ k, ahas ts2 k = true → ahas ts k = true ∨ k ∈ items.map Prod.fst := by
  induction items with
  | nil =>
    intro uuid ts deps u ts2 d2 h
    cases h
    exact fun k hk => Or.inl hk
  | cons hd rest ih =>
    intro uuid ts deps u ts2 d2 h
    obtain ⟨k0, p⟩ := hd
    by_cases hm : tgt = k0 ∨ tgt = p.name
    · by_cases hz : p.name = sl "ZERO_CHECK"
      · rw [expandW_scan, if_pos hm, if_pos hz] at h
        cases h
      · rw [expandW_scan, if_pos hm, if_neg hz] at h
        intro k hk
        rcases ih (some k0) (aset ts k0 (p.path, p.name, p.hook)) (deps ++ p.deps) u ts2 d2
          h k hk with h1 | h2
        · rcases ahas_key_source ts k0 k _ h1 with h3 | h3
          · exact Or.inl h3
          · exact Or.inr (by rw [List.map_cons, h3]; exact List.mem_cons_self _ _)
        · exact Or.inr (by rw [List.map_cons]; exact List.mem_cons_of_mem _ h2)
    · rw [expandW_scan, if_neg hm] at h
      intro k hk
      rcases ih uuid ts deps u ts2 d2 h k hk with h1 | h1
      · exact Or.inl h1
      · exact Or.inr (by rw [List.map_cons]; exact List.mem_cons_of_mem _ h1)

theorem expandW_scan_deps (tgt : List Char) (items : List (List Char × SlnProj)) :
    ∀ (uuid : Option (List Char)) (ts : WTset) (deps : List (List Char)),
    ∀ u ts2 d2, expandW_scan tgt items uuid ts deps = WScanRes.done u ts2 d2 →
      ∀ d ∈ d2, d ∈ deps ∨ ∃ e ∈ items, d ∈ e.2.deps := by
  induction items with
  | nil =>
    intro uuid ts deps u ts2 d2 h
    cases h
    exact fun d hd => Or.inl hd
  | cons hd rest ih =>
    intro uuid ts deps u ts2 d2 h
    obtain ⟨k0, p⟩ := hd
    by_cases hm : tgt = k0 ∨ tgt = p.name
    · by_cases hz : p.name = sl "ZERO_CHECK"
      · rw [expandW_scan, if_pos hm, if_pos hz] at h
        cases h
      · rw [expandW_scan, if_pos hm, if_neg hz] at h
        intro d hd
        rcases ih (some k0) (aset ts k0 (p.path, p.name, p.hook)) (deps ++ p.deps) u ts2 d2
          h d hd with h1 | ⟨e, he, hde⟩
        · rcases List.mem_append.mp h1 with h2 | h2
          · exact Or.inl h2
          · exact Or.inr ⟨(k0, p), List.mem_cons_self _ _, h2⟩
        · exact Or.inr ⟨e, List.mem_cons_of_mem _ he, hde⟩
    · rw [expandW_scan, if_neg hm] at h
      intro d hd
      rcases ih uuid ts deps u ts2 d2 h d hd with h1 | ⟨e, he, hde⟩
      · exact Or.inl h1
      · exact Or.inr ⟨e, List.mem_cons_of_mem _ he, hde⟩

theorem expandW_scan_none_some (tgt : List Char) (items : List (List Char × SlnProj)) :
    ∀ (ts : WTset) (deps : List (List Char)),
    (∀ e ∈ items, (tgt = e.1 ∨ tgt = e.2.name) → tgt = e.1) →
    ∀ u ts2 d2, expandW_scan tgt items none ts deps = WScanRes.done (some u) ts2 d2 →
      ahas ts2 tgt = true ∧ tgt ∈ items.map Prod.fst := by
  induction items with
  | nil =>
    intro ts deps _ u ts2 d2 h
    cases h
  | cons hd rest ih =>
    intro ts deps hres u ts2 d2 h
    obtain ⟨k0, p⟩ := hd
    by_cases hm : tgt = k0 ∨ tgt = p.name
    · have hk : tgt = k0 := hres (k0, p) (List.mem_cons_self _ _) hm
      by_cases hz : p.name = sl "ZERO_CHECK"
      · rw [expandW_scan, if_pos hm, if_pos hz] at h
        cases h
      · rw [expandW_scan, if_pos hm, if_neg hz] at h
        subst hk
        refine ⟨?_, by rw [List.map_cons]; exact List.mem_cons_self _ _⟩
        exact (expandW_scan_mono tgt rest (some tgt)
          (aset ts tgt (p.path, p.name, p.hook)) (deps ++ p.deps)).2 (some u) ts2 d2 h tgt
          (ahas_aset_self ts tgt _)
    · rw [expandW_scan, if_neg hm] at h
      have := ih ts deps (fun e he hm2 => hres e (List.mem_cons_of_mem _ he) hm2) u ts2 d2 h
      exact ⟨this.1, by rw [List.map_cons]; exact List.mem_cons_of_mem _ this.2⟩

theorem expandW_zero (tgt : List Char) (ts : WTset) (sd : SlnData) :
    expandW 0 tgt ts sd = ERes.fuelout := rfl

theorem expandW_succ (fuel : Nat) (tgt : List Char) (ts : WTset) (sd : SlnData) :
    expandW (fuel + 1) tgt ts sd =
      (match sd.projects with
       | none => ERes.out ts
       | some sect =>
         if ahas ts tgt = true then ERes.out ts
         else
           match expandW_scan tgt sect none ts [] with
           | WScanRes.early ts2 => ERes.out ts2
           | WScanRes.done none ts2 _ => ERes.out ts2
           | WScanRes.done (some _) ts2 deps => expandW_deps fuel deps ts2 sd) := rfl

theorem expandW_deps_nil (fuel : Nat) (ts : WTset) (sd : SlnData) :
    expandW_deps fuel [] ts sd = ERes.out ts := rfl

theorem expandW_deps_cons (fuel : Nat) (d : List Char) (rest : List (List Char))
    (ts : WTset) (sd : SlnData) :
    expandW_deps fuel (d :: rest) ts sd =
      (match expandW fuel d ts sd with
       | ERes.out ts2 => expandW_deps fuel rest ts2 sd
       | ERes.fuelout => ERes.fuelout) := rfl

theorem expandW_no_new_zc : ∀ fuel : Nat,
    (∀ (tgt : List Char) (ts : WTset) (sd : SlnData) (ts' : WTset),
      expandW fuel tgt ts sd = ERes.out ts' →
      ∀ e ∈ ts', e ∈ ts ∨ e.2.2.1 ≠ sl "ZERO_CHECK") ∧
    (∀ (ds : List (List Char)) (ts : WTset) (sd : SlnData) (ts' : WTset),
      expandW_deps fuel ds ts sd = ERes.out ts' →
      ∀ e ∈ ts', e ∈ ts ∨ e.2.2.1 ≠ sl "ZERO_CHECK") := by
  intro fuel
  induction fuel with
  | zero =>
    constructor
    · intro tgt ts sd ts' h
      rw [expandW_zero] at h
      cases h
    · intro ds ts sd ts' h
      cases ds with
      | nil =>
        rw [expandW_deps_nil] at h
        cases h
        exact fun e he => Or.inl he
      | cons d rest =>
        rw [expandW_deps_cons, expandW_zero] at h
        cases h
  | succ f ih =>
    have hW : ∀ (tgt : List Char) (ts : WTset) (sd : SlnData) (ts' : WTset),
        expandW (f + 1) tgt ts sd = ERes.out ts' →
        ∀ e ∈ ts', e ∈ ts ∨ e.2.2.1 ≠ sl "ZERO_CHECK" := by
      intro tgt ts sd ts' h
      rw [expandW_succ] at h
      split at h
      · cases h
        exact fun e he => Or.inl he
      · rename_i sect hsp
        split at h
        · cases h
          exact fun e he => Or.inl he
        · rename_i hhas
          split at h
          · rename_i ts2 hscan
            cases h
            exact (expandW_scan_entries tgt sect none ts []).1 ts' hscan
          · rename_i ts2 d2 hscan
            cases h
            exact (expandW_scan_entries tgt sect none ts []).2 none ts' d2 hscan
          · rename_i u0 ts2 d2 hscan
            intro e he
            rcases ih.2 d2 ts2 sd ts' h e he with h1 | h1
            · exact (expandW_scan_entries tgt sect none ts []).2 (some u0) ts2 d2 hscan e h1
            · exact Or.inr h1
    have hD : ∀ (ds : List (List Char)) (ts : WTset) (sd : SlnData) (ts' : WTset),
        expandW_deps (f + 1) ds ts sd = ERes.out ts' →
        ∀ e ∈ ts', e ∈ ts ∨ e.2.2.1 ≠ sl "ZERO_CHECK" := by
      intro ds
      induction ds with
      | nil =>
        intro ts sd ts' h
        rw [expandW_deps_nil] at h
        cases h
        exact fun e he => Or.inl he
      | cons d rest ihd =>
        intro ts sd ts' h
        rw [expandW_deps_cons] at h
        cases hx : expandW (f + 1) d ts sd with
        | out ts2 =>
          rw [hx] at h
          intro e he
          rcases ihd ts2 sd ts' h e he with h1 | h1
          · exact hW d ts sd ts2 hx e h1
          · exact Or.inr h1
        | fuelout =>
          rw [hx] at h
          cases h
    exact ⟨hW, hD⟩

theorem expandW_mono : ∀ fuel : Nat,
    (∀ (tgt : List Char) (ts : WTset) (sd : SlnData) (ts' : WTset),
      expandW fuel tgt ts sd = ERes.out ts' →
      ∀ k, ahas ts k = true → ahas ts' k = true) ∧
    (∀ (ds : List (List Char)) (ts : WTset) (sd : SlnData) (ts' : WTset),
      expandW_deps fuel ds ts sd = ERes.out ts' →
      ∀ k, ahas ts k = true → ahas ts' k = true) := by
  intro fuel
  induction fuel with
  | zero =>
    constructor
    · intro tgt ts sd ts' h
      rw [expandW_zero] at h
      cases h
    · intro ds ts sd ts' h
      cases ds with
      | nil =>
        rw [expandW_deps_nil] at h
        cases h
        exact fun k hk => hk
      | cons d rest =>
        rw [expandW_deps_cons, expandW_zero] at h
        cases h
  | succ f ih =>
    have hW : ∀ (tgt : List Char) (ts : WTset) (sd : SlnData) (ts' : WTset),
        expandW (f + 1) tgt ts sd = ERes.out ts' →
        ∀ k, ahas ts k = true → ahas ts' k = true := by
      intro tgt ts sd ts' h
      rw [expandW_succ] at h
      split at h
      · cases h
        exact fun k hk => hk
      · rename_i sect hsp
        split at h
        · cases h
          exact fun k hk => hk
        · rename_i hhas
          split at h
          · rename_i ts2 hscan
            cases h
            exact (expandW_scan_mono tgt sect none ts []).1 ts' hscan
          · rename_i ts2 d2 hscan
            cases h
            exact (expandW_scan_mono tgt sect none ts []).2 none ts' d2 hscan
          · rename_i u0 ts2 d2 hscan
            intro k hk
            exact ih.2 d2 ts2 sd ts' h k
              ((expandW_scan_mono tgt sect none ts []).2 (some u0) ts2 d2 hscan k hk)
    have hD : ∀ (ds : List (List Char)) (ts : WTset) (sd : SlnData) (ts' : WTset),
        expandW_deps (f + 1) ds ts sd = ERes.out ts' →
        ∀ k, ahas ts k = true → ahas ts' k = true := by
      intro ds
      induction ds with
      | nil =>
        intro ts sd ts' h
        rw [expandW_deps_nil] at h
        cases h
        exact fun k hk => hk
      | cons d rest ihd =>
        intro ts sd ts' h
        rw [expandW_deps_cons] at h
        cases hx : expandW (f + 1) d ts sd with
        | out ts2 =>
          rw [hx] at h
          intro k hk
          exact ihd ts2 sd ts' h k (hW d ts sd ts2 hx k hk)
        | fuelout =>
          rw [hx] at h
          cases h
    exact ⟨hW, hD⟩

theorem wmiss_mono (ps : List (List Char × SlnProj)) (ts ts2 : WTset)
    (h : ∀ k, ahas ts k = true → ahas ts2 k = true) : wmiss ps ts2 ≤ wmiss ps ts := by
  apply filter_len_mono
  intro k hk
  simp only [Bool.not_eq_true'] at hk ⊢
  cases hts : ahas ts k with
  | false => rfl
  | true => rw [h k hts] at hk; cases hk

theorem wmiss_lt (ps : List (List Char × SlnProj)) (ts ts2 : WTset) (tgt : List Char)
    (hmono : ∀ k, ahas ts k = true → ahas ts2 k = true)
    (hfresh : ahas ts tgt = false) (hnew : ahas ts2 tgt = true)
    (hkey : tgt ∈ ps.map Prod.fst) : wmiss ps ts2 < wmiss ps ts := by
  apply filter_len_lt _ _ _ ?_ tgt hkey ?_ ?_
  · intro k hk
    simp only [Bool.not_eq_true'] at hk ⊢
    cases hts : ahas ts k with
    | false => rfl
    | true => rw [hmono k hts] at hk; cases hk
  · simp [hfresh]
  · simp [hnew]

theorem expandW_succ_some (fuel : Nat) (tgt : List Char) (ts : WTset) (sd : SlnData)
    (ps : List (List Char × SlnProj)) (hps : sd.projects = some ps) :
    expandW (fuel + 1) tgt ts sd =
      (if ahas ts tgt = true then ERes.out ts
       else
         match expandW_scan tgt ps none ts [] with
         | WScanRes.early ts2 => ERes.out ts2
         | WScanRes.done none ts2 _ => ERes.out ts2
         | WScanRes.done (some _) ts2 deps => expandW_deps fuel deps ts2 sd) := by
  rw [expandW_succ, hps]

theorem expandW_term_core (sd : SlnData) (ps : List (List Char × SlnProj))
    (hps : sd.projects = some ps)
    (H1 : ∀ e ∈ ps, ∀ d ∈ e.2.deps, ∀ e2 ∈ ps, (d = e2.1 ∨ d = e2.2.name) → d = e2.1) :
    ∀ fuel : Nat,
    (∀ (tgt : List Char) (ts : WTset),
      (∀ e2 ∈ ps, (tgt = e2.1 ∨ tgt = e2.2.name) → tgt = e2.1) →
      wmiss ps ts + 1 ≤ fuel →
      ∃ ts', expandW fuel tgt ts sd = ERes.out ts') ∧
    (∀ (ds : List (List Char)) (ts : WTset),
      (∀ d ∈ ds, ∀ e2 ∈ ps, (d = e2.1 ∨ d = e2.2.name) → d = e2.1) →
      wmiss ps ts + 1 ≤ fuel →
      ∃ ts', expandW_deps fuel ds ts sd = ERes.out ts') := by
  intro fuel
  induction fuel with
  | zero =>
    constructor
    · intro tgt ts _ hf
      omega
    · intro ds ts _ hf
      omega
  | succ f ih =>
    have hW : ∀ (tgt : List Char) (ts : WTset),
        (∀ e2 ∈ ps, (tgt = e2.1 ∨ tgt = e2.2.name) → tgt = e2.1) →
        wmiss ps ts + 1 ≤ f + 1 →
        ∃ ts', expandW (f + 1) tgt ts sd = ERes.out ts' := by
      intro tgt ts hres hf
      rw [expandW_succ_some f tgt ts sd ps hps]
      by_cases hhas : ahas ts tgt = true
      · rw [if_pos hhas]
        exact ⟨ts, rfl⟩
      · rw [if_neg hhas]
        cases hscan : expandW_scan tgt ps none ts [] with
        | early ts2 => exact ⟨ts2, rfl⟩
        | done u ts2 d2 =>
          cases u with
          | none => exact ⟨ts2, rfl⟩
          | some u0 =>
            have hdeps : ∀ d ∈ d2, ∀ e2 ∈ ps, (d = e2.1 ∨ d = e2.2.name) → d = e2.1 := by
              intro d hd
              rcases expandW_scan_deps tgt ps none ts [] (some u0) ts2 d2 hscan d hd with
                hc | ⟨e, he, hde⟩
              · cases hc
              · exact H1 e he d hde
            have hkey := expandW_scan_none_some tgt ps ts [] hres (u0) ts2 d2 hscan
            have hmono := (expandW_scan_mono tgt ps none ts []).2 (some u0) ts2 d2 hscan
            have hlt : wmiss ps ts2 < wmiss ps ts :=
              wmiss_lt ps ts ts2 tgt hmono (by simpa using hhas) hkey.1 hkey.2
            obtain ⟨ts', hts'⟩ := ih.2 d2 ts2 hdeps (by omega)
            exact ⟨ts', hts'⟩
    have hD : ∀ (ds : List (List Char)) (ts : WTset),
        (∀ d ∈ ds, ∀ e2 ∈ ps, (d = e2.1 ∨ d = e2.2.name) → d = e2.1) →
        wmiss ps ts + 1 ≤ f + 1 →
        ∃ ts', expandW_deps (f + 1) ds ts sd = ERes.out ts' := by
      intro ds
      induction ds with
      | nil =>
        intro ts _ _
        exact ⟨ts, expandW_deps_nil (f + 1) ts sd⟩
      | cons d rest ihd =>
        intro ts hres hf
        obtain ⟨ts2, h2⟩ := hW d ts (hres d (List.mem_cons_self _ _)) hf
        have hm := (expandW_mono (f + 1)).1 d ts sd ts2 h2
        have hw2 : wmiss ps ts2 + 1 ≤ f + 1 := by
          have := wmiss_mono ps ts ts2 hm
          omega
        obtain ⟨ts3, h3⟩ := ihd ts2 (fun x hx => hres x (List.mem_cons_of_mem _ hx)) hw2
        exact ⟨ts3, by rw [expandW_deps_cons, h2]; exact h3⟩
    exact ⟨hW, hD⟩

theorem expandW_terminates (sd : SlnData) (ps : List (List Char × SlnProj))
    (hps : sd.projects = some ps)
    (H1 : ∀ e ∈ ps, ∀ d ∈ e.2.deps, ∀ e2 ∈ ps, (d = e2.1 ∨ d = e2.2.name) → d = e2.1)
    (tgt : List Char) (ts : WTset) (fuel : Nat) (hf : wmiss ps ts + 2 ≤ fuel) :
    ∃ ts', expandW fuel tgt ts sd = ERes.out ts' := by
  obtain ⟨f, rfl⟩ : ∃ f, fuel = f + 1 := ⟨fuel - 1, by omega⟩
  rw [expandW_succ_some f tgt ts sd ps hps]
  by_cases hhas : ahas ts tgt = true
  · rw [if_pos hhas]
    exact ⟨ts, rfl⟩
  · rw [if_neg hhas]
    cases hscan : expandW_scan tgt ps none ts [] with
    | early ts2 => exact ⟨ts2, rfl⟩
    | done u ts2 d2 =>
      cases u with
      | none => exact ⟨ts2, rfl⟩
      | some u0 =>
        have hdeps : ∀ d ∈ d2, ∀ e2 ∈ ps, (d = e2.1 ∨ d = e2.2.name) → d = e2.1 := by
          intro d hd
          rcases expandW_scan_deps tgt ps none ts [] (some u0) ts2 d2 hscan d hd with
            hc | ⟨e, he, hde⟩
          · cases hc
          · exact H1 e he d hde
        have hmono := (expandW_scan_mono tgt ps none ts []).2 (some u0) ts2 d2 hscan
        have hle : wmiss ps ts2 ≤ wmiss ps ts := wmiss_mono ps ts ts2 hmono
        obtain ⟨ts', hts'⟩ := (expandW_term_core sd ps hps H1 f).2 d2 ts2 hdeps (by omega)
        exact ⟨ts', hts'⟩

/-- The Visual Studio project type hook (windows.py line 35). -/
def PROJ_UUID : List Char := sl "8BC9CEB8-8B4A-11D0-8D11-00A0C91BC942"

/-- A concrete generated solution: appB depends on ZERO_CHECK and on libA. -/
def demo_wsln_ab : SlnData :=
  SlnData.mk []
    (some [(sl "AAAA-1111", SlnProj.mk (sl "libA.vcxproj") (sl "libA") PROJ_UUID []),
           (sl "BBBB-2222", SlnProj.mk (sl "appB.vcxproj") (sl "appB") PROJ_UUID
              [sl "ZCZC-0000", sl "AAAA-1111"]),
           (sl "ZCZC-0000", SlnProj.mk (sl "ZERO_CHECK.vcxproj") (sl "ZERO_CHECK")
              PROJ_UUID [])])
    (some [])

/-- A concrete generated solution whose single project appB lists itself as
a dependency by display name rather than by uuid. -/
def demo_cyc_sln : SlnData :=
  SlnData.mk []
    (some [(sl "AAAA-1111", SlnProj.mk (sl "appB.vcxproj") (sl "appB") PROJ_UUID
      [sl "appB"])])
    (some [])

/-- A concrete Xcode project model: native target libB depends on libA. -/
def demo_apbx_ab : ApbxD :=
  ApbxD.mk
    [sl "AAAA-FREF /* libA.a */ = isa = PBXFileReference; path = libA.a; sourceTree = BUILT_PRODUCTS_DIR;",
     sl "BBBB-FREF /* libB.a */ = isa = PBXFileReference; path = libB.a; sourceTree = BUILT_PRODUCTS_DIR;"]
    [sl "BBBB-TGT /* libB */ = isa = PBXNativeTarget; dependencies = (\nDEPB-1 /* PBXTargetDependency */,\n); name = libB; productReference = BBBB-FREF /* libB.a */;",
     sl "AAAA-TGT /* libA */ = isa = PBXNativeTarget; dependencies = (\n); name = libA; productReference = AAAA-FREF /* libA.a */;"]
    [sl "DEPB-1 /* PBXTargetDependency */ = isa = PBXTargetDependency; target = AAAA-TGT /* libA */; targetProxy = PRXA /* PBXContainerItemProxy */;"]

/-- A concrete Xcode project model: native target libB depends on the
synthetic reconfiguration target ZERO_CHECK. -/
def demo_apbx_zc : ApbxD :=
  ApbxD.mk
    [sl "ZCRF-FREF /* ZERO_CHECK */ = isa = PBXFileReference; path = ZERO_CHECK; sourceTree = BUILT_PRODUCTS_DIR;",
     sl "BBBB-FREF /* libB.a */ = isa = PBXFileReference; path = libB.a; sourceTree = BUILT_PRODUCTS_DIR;"]
    [sl "BBBB-TGT /* libB */ = isa = PBXNativeTarget; dependencies = (\nZCDP-1 /* PBXTargetDependency */,\n); name = libB; productReference = BBBB-FREF /* libB.a */;",
     sl "ZCZC-TGT /* ZERO_CHECK */ = isa = PBXNativeTarget; dependencies = (\n); name = ZERO_CHECK; productReference = ZCRF-FREF /* ZERO_CHECK */;"]
    [sl "ZCDP-1 /* PBXTargetDependency */ = isa = PBXTargetDependency; target = ZCZC-TGT /* ZERO_CHECK */; targetProxy = PRXZ /* PBXContainerItemProxy */;"]

theorem expandW_cyc_aux : ∀ (fuel : Nat) (ts : WTset), ahas ts (sl "appB") = false →
    expandW fuel (sl "appB") ts demo_cyc_sln = ERes.fuelout := by
  intro fuel
  induction fuel with
  | zero =>
    intro ts _
    exact expandW_zero _ _ _
  | succ f ih =>
    intro ts hts
    rw [expandW_succ_some f _ ts demo_cyc_sln
      [(sl "AAAA-1111", SlnProj.mk (sl "appB.vcxproj") (sl "appB") PROJ_UUID [sl "appB"])]
      rfl]
    rw [if_neg (by simp [hts])]
    have hscan : expandW_scan (sl "appB")
        [(sl "AAAA-1111", SlnProj.mk (sl "appB.vcxproj") (sl "appB") PROJ_UUID [sl "appB"])]
        none ts [] =
        WScanRes.done (some (sl "AAAA-1111"))
          (aset ts (sl "AAAA-1111") (sl "appB.vcxproj", sl "appB", PROJ_UUID))
          [sl "appB"] := by
      rw [expandW_scan, if_pos (Or.inr rfl), if_neg (by decide)]
      rw [expandW_scan]
      rfl
    rw [hscan]
    show expandW_deps f [sl "appB"]
      (aset ts (sl "AAAA-1111") (sl "appB.vcxproj", sl "appB", PROJ_UUID)) demo_cyc_sln =
      ERes.fuelout
    rw [expandW_deps_cons]
    have hts1 : ahas (aset ts (sl "AAAA-1111") (sl "appB.vcxproj", sl "appB", PROJ_UUID))
        (sl "appB") = false := by
      rw [ahas_aset_other _ _ _ _ (by decide)]
      exact hts
    rw [ih _ hts1]

set_option maxRecDepth 16384 in
/-- C5 counterexample: in the Apple dialect, discovery started from libB.a,
whose native target depends on the synthetic ZERO_CHECK target, includes the
ZERO_CHECK product in the targetset — apple.py's expand_targets has no
ZERO_CHECK filter (only windows.py line 878 has one). -/
theorem c5_counterexample :
    expandA 5 (sl "libB.a") [] demo_apbx_zc =
      ERes.out [(sl "BBBB-FREF", (sl "libB.a", sl "libB.a")),
                (sl "ZCRF-FREF", (sl "ZERO_CHECK", sl "ZERO_CHECK"))] ∧
    (sl "ZERO_CHECK") ∈
      ([(sl "BBBB-FREF", (sl "libB.a", sl "libB.a")),
        (sl "ZCRF-FREF", (sl "ZERO_CHECK", sl "ZERO_CHECK"))] : ATset).map
        (fun e => e.2.1) := by
  constructor
  · decide
  · decide

set_option maxRecDepth 16384 in
/-- C5 (amended): the Windows expand_targets never adds a targetset entry
whose project name is ZERO_CHECK (windows.py line 878); and in both
dialects, discovery started from a root target B that depends on target A
yields both A and B, shown on concrete project models. -/
theorem c5_target_discovery :
    (∀ (fuel : Nat) (tgt : List Char) (ts : WTset) (sd : SlnData) (ts' : WTset),
      expandW fuel tgt ts sd = ERes.out ts' →
      ∀ e ∈ ts', e ∈ ts ∨ e.2.2.1 ≠ sl "ZERO_CHECK") ∧
    expandW 4 (sl "appB") [] demo_wsln_ab =
      ERes.out [(sl "BBBB-2222", (sl "appB.vcxproj", sl "appB", PROJ_UUID)),
                (sl "AAAA-1111", (sl "libA.vcxproj", sl "libA", PROJ_UUID))] ∧
    expandA 5 (sl "libB.a") [] demo_apbx_ab =
      ERes.out [(sl "BBBB-FREF", (sl "libB.a", sl "libB.a")),
                (sl "AAAA-FREF", (sl "libA.a", sl "libA.a"))] :=
  ⟨fun fuel => (expandW_no_new_zc fuel).1, by decide, by decide⟩

set_option maxRecDepth 16384 in
theorem c5_target_discovery_witness :
    ((sl "BBBB-2222", (sl "appB.vcxproj", sl "appB", PROJ_UUID)) ∈ ([] : WTset)) ∨
      (sl "appB") ≠ sl "ZERO_CHECK" :=
  c5_target_discovery.1 4 (sl "appB") [] demo_wsln_ab
    [(sl "BBBB-2222", (sl "appB.vcxproj", sl "appB", PROJ_UUID)),
     (sl "AAAA-1111", (sl "libA.vcxproj", sl "libA", PROJ_UUID))] (by decide)
    (sl "BBBB-2222", (sl "appB.vcxproj", sl "appB", PROJ_UUID)) (by decide)

/-- The pbxproj sections read by get_buildconfigs and extract_defines. -/
structure DpbxD where
  nativeTargets : List (List Char)
  projects : List (List Char)
  configLists : List (List Char)
  buildConfigs : List (List Char)
deriving DecidableEq

/-- The buildConfigurationList scan shared by the two loops of
get_buildconfigs (apple.py lines 881-898): the last matching item wins. -/
def gbc_scan (uuid : List Char) (items : List (List Char)) (init : Option (List Char)) :
    Option (List Char) :=
  items.foldl (fun acc item =>
    if isSubstr uuid item = true then
      let pos0 := pyFind item (sl "buildConfigurationList")
      let pos0b := pyFindFrom item (sl "=") pos0 + 1
      let pos1 := pyFindFrom item (sl "/*") pos0b
      some (stripChars (pySlice item pos0b pos1))
    else acc) init

/-- get_buildconfigs (apple.py lines 862-927): build name (lowercased) to
build configuration uuid; None when no configuration list or no build list
is found. -/
def get_buildconfigs (uuid : List Char) (pbx : DpbxD) :
    Option (List (List Char × List Char)) :=
  let listid0 := gbc_scan uuid pbx.nativeTargets none
  let listid :=
    match listid0 with
    | none => gbc_scan uuid pbx.projects none
    | some l => some l
  match listid with
  | none => none
  | some listid =>
    let builds := pbx.configLists.foldl (fun acc item =>
      if isSubstr listid item = true then
        let pos0 := pyFind item (sl "buildConfigurations")
        let pos0b := pyFindFrom item (sl "(") pos0 + 1
        let pos1 := pyFindFrom item (sl ")") pos0b
        some (splitOnSub (stripChars (pySlice item pos0b pos1)) (sl ","))
      else acc) none
    match builds with
    | none => none
    | some builds =>
      some (builds.foldl (fun res item =>
        if isSubstr (sl "/*") item = true then
          let pos0 := pyFind item (sl "/*")
          let pos1 := pyFindFrom item (sl "*/") pos0
          let name := lowerChars (stripChars (pySlice item (pos0 + 2) pos1))
          let guid := stripChars (pySliceTo item pos0)
          aset res name guid
        else res) [])

/-- extract_defines (apple.py lines 985-1027): build type to retained
preprocessor defines.  Faithful to the source, the two filter conditions at
lines 1018-1020 test the whole section item, not the individual define.
A None result of get_buildconfigs makes the iteration raise (none). -/
def extract_defines (uuid : List Char) (pbx : DpbxD) :
    Option (List (List Char × List (List Char))) :=
  match get_buildconfigs uuid pbx with
  | none => none
  | some configs =>
    some (pbx.buildConfigs.foldl (fun result item =>
      configs.foldl (fun result bc =>
        if isSubstr bc.2 item = true ∧
            isSubstr (sl "GCC_PREPROCESSOR_DEFINITIONS") item = true then
          let pos0 := pyFind item (sl "GCC_PREPROCESSOR_DEFINITIONS")
          let pos0b := pyFindFrom item (sl "(") pos0 + 1
          let pos1 := pyFindFrom item (sl ")") pos0b
          let defines := splitOnSub (pySlice item pos0b pos1) (sl ",")
          let keeping := defines.foldl (fun keeping defval =>
            if item = sl "$(inherited)" then keeping
            else if isSubstr (sl "CMAKE_INTDIR") item = true then keeping
            else keeping ++ [defval]) []
          aset result bc.1 keeping
        else result) result) [])

/-- filter_vslist (windows.py lines 54-87): the elements of a semicolon
separated Visual Studio list, dropping empty elements, environment
references, and elements starting with one of the given prefixes (an empty
prefix list models passing None). -/
def filter_vslist (text : List Char) (prefixes : List (List Char)) : List (List Char) :=
  (splitOnSub text (sl ";")).foldl (fun result elt =>
    if elt.length = 0 ∨ elt.headD ' ' = '%' then result
    else if prefixes ≠ [] then
      if prefixes.any (fun t => t.isPrefixOf elt) then result else result ++ [elt]
    else result ++ [elt]) []

/-- The prefix filter applied to preprocessor defines by extract_module_data
(windows.py line 1038). -/
def vs_define_excepts : List (List Char) :=
  [sl "WIN32", sl "_WINDOWS", sl "CMAKE_INTDIR", sl "NDEBUG", sl "HAVE_CONFIG_H",
   sl "_CRT_"]

theorem findSub_none_not_mem {s : List Char} {c : Char} (h : findSub s [c] = none) :
    c ∉ s := by
  induction s with
  | nil => simp
  | cons d t ih =>
    by_cases hp : ([c]).isPrefixOf (d :: t) = true
    · rw [findSub.eq_def] at h
      simp [hp] at h
    · rw [findSub.eq_def] at h
      simp only [hp, if_false, Bool.false_eq_true] at h
      simp only [Option.map_eq_none'] at h
      intro hm
      rcases List.mem_cons.mp hm with rfl | hm2
      · exact hp (by simp [List.isPrefixOf_iff_prefix, List.cons_prefix_cons])
      · exact ih h hm2

theorem findSub_single_take {s : List Char} {c : Char} {n : Nat}
    (h : findSub s [c] = some n) : c ∉ s.take n := by
  induction s generalizing n with
  | nil => simp
  | cons d t ih =>
    by_cases hp : ([c]).isPrefixOf (d :: t) = true
    · rw [findSub.eq_def] at h
      simp only [hp, if_true] at h
      cases h
      simp
    · rw [findSub.eq_def] at h
      simp only [hp, if_false, Bool.false_eq_true] at h
      simp only [Option.map_eq_some'] at h
      obtain ⟨m, hm, rfl⟩ := h
      rw [List.take_succ_cons]
      intro hmem
      rcases List.mem_cons.mp hmem with rfl | hm2
      · exact hp (by simp [List.isPrefixOf_iff_prefix, List.cons_prefix_cons])
      · exact ih hm hm2

theorem pySlice_to_first (item : List Char) (c : Char) (a : Int) :
    ∀ ch ∈ pySlice item a (pyFindFrom item [c] a), ch ≠ c := by
  intro ch hch
  rw [pyFindFrom] at hch
  rcases hf : findSub (item.drop (pyIdx item.length a)) [c] with _ | n
  · rw [hf] at hch
    have hnm := findSub_none_not_mem hf
    rw [pySlice] at hch
    rw [List.drop_take] at hch
    intro hc
    subst hc
    exact hnm (List.mem_of_mem_take hch)
  · rw [hf] at hch
    have hnt := findSub_single_take hf
    rw [pySlice] at hch
    rw [List.drop_take] at hch
    intro hc
    subst hc
    apply hnt
    have hb := findSub_bound hf
    simp only [List.length_cons, List.length_nil, List.length_drop] at hb
    have hidx : pyIdx item.length ((pyIdx item.length a + n : Nat) : Int) =
        pyIdx item.length a + n := by
      rw [pyIdx]
      rw [if_neg (by omega)]
      simp only [Int.toNat_ofNat]
      omega
    rw [hidx] at hch
    have : pyIdx item.length a + n - pyIdx item.length a = n := by omega
    rw [this] at hch
    exact hch

theorem infix_of_isSubstr {pat hay : List Char} (h : isSubstr pat hay = true) :
    pat <:+: hay := by
  rw [isSubstr] at h
  rcases hf : findSub hay pat with _ | n
  · rw [hf] at h
    cases h
  · clear h
    induction hay generalizing n with
    | nil =>
      by_cases hp : pat.isPrefixOf ([] : List Char) = true
      · exact (List.isPrefixOf_iff_prefix.mp hp).isInfix
      · rw [findSub.eq_def] at hf
        simp [hp] at hf
    | cons d t ih =>
      by_cases hp : pat.isPrefixOf (d :: t) = true
      · exact (List.isPrefixOf_iff_prefix.mp hp).isInfix
      · rw [findSub.eq_def] at hf
        simp only [hp, if_false, Bool.false_eq_true] at hf
        simp only [Option.map_eq_some'] at hf
        obtain ⟨m, hm, rfl⟩ := hf
        exact List.infix_cons (ih m hm)

theorem isSubstr_of_contained {pat hay : List Char} (h : pat <:+: hay) :
    isSubstr pat hay = true := by
  obtain ⟨x, y, hxy⟩ := h
  rw [← hxy]
  exact isSubstr_sandwich x pat y

theorem splitOnSubAux_chars (sep : List Char) :
    ∀ (fuel : Nat) (s chunk : List Char), chunk ∈ splitOnSubAux sep fuel s →
      ∀ ch ∈ chunk, ch ∈ s := by
  intro fuel
  induction fuel with
  | zero =>
    intro s chunk hc
    simp only [splitOnSubAux, List.mem_singleton] at hc
    subst hc
    exact fun ch h => h
  | succ f ih =>
    intro s chunk hc
    rw [splitOnSubAux] at hc
    split at hc
    · rw [List.mem_singleton] at hc
      subst hc
      exact fun ch h => h
    · rcases List.mem_cons.mp hc with rfl | hc2
      · exact fun ch h => List.mem_of_mem_take h
      · intro ch h
        exact List.mem_of_mem_drop (ih _ chunk hc2 ch h)

theorem splitOnSubAux_contained (sep : List Char) :
    ∀ (fuel : Nat) (s chunk : List Char), chunk ∈ splitOnSubAux sep fuel s →
      chunk <:+: s := by
  intro fuel
  induction fuel with
  | zero =>
    intro s chunk hc
    simp only [splitOnSubAux, List.mem_singleton] at hc
    subst hc
    exact List.infix_rfl
  | succ f ih =>
    intro s chunk hc
    rw [splitOnSubAux] at hc
    split at hc
    · rw [List.mem_singleton] at hc
      subst hc
      exact List.infix_rfl
    · rcases List.mem_cons.mp hc with rfl | hc2
      · exact (List.take_prefix _ _).isInfix
      · exact (ih _ chunk hc2).trans (List.drop_suffix _ _).isInfix

theorem splitOnSub_chars {s sep chunk : List Char} (hc : chunk ∈ splitOnSub s sep) :
    ∀ ch ∈ chunk, ch ∈ s := by
  rw [splitOnSub] at hc
  split at hc
  · rw [List.mem_singleton] at hc
    subst hc
    exact fun ch h => h
  · exact splitOnSubAux_chars sep s.length s chunk hc

theorem splitOnSub_contained {s sep chunk : List Char} (hc : chunk ∈ splitOnSub s sep) :
    chunk <:+: s := by
  rw [splitOnSub] at hc
  split at hc
  · rw [List.mem_singleton] at hc
    subst hc
    exact List.infix_rfl
  · exact splitOnSubAux_contained sep s.length s chunk hc

theorem pySlice_contained (l : List Char) (a b : Int) : pySlice l a b <:+: l := by
  rw [pySlice]
  exact ((List.drop_suffix _ _).isInfix).trans (List.take_prefix _ _).isInfix

theorem foldl_skip {α β : Type} (l : List α) (f : β → α → β) (init : β)
    (h : ∀ k a, f k a = k) : l.foldl f init = init := by
  induction l generalizing init with
  | nil => rfl
  | cons x t ih => rw [List.foldl_cons, h, ih]

theorem mem_foldl_append_cases {α : Type} [DecidableEq α] (l : List α)
    (f : List α → α → List α) (hf : ∀ k a, f k a = k ∨ f k a = k ++ [a]) :
    ∀ (acc : List α) (dv : α), dv ∈ l.foldl f acc → dv ∈ acc ∨ dv ∈ l := by
  induction l with
  | nil =>
    intro acc dv h
    exact Or.inl h
  | cons x t ih =>
    intro acc dv h
    rw [List.foldl_cons] at h
    rcases hf acc x with hx | hx
    · rw [hx] at h
      rcases ih acc dv h with h1 | h1
      · exact Or.inl h1
      · exact Or.inr (List.mem_cons_of_mem _ h1)
    · rw [hx] at h
      rcases ih (acc ++ [x]) dv h with h1 | h1
      · rcases List.mem_append.mp h1 with h2 | h2
        · exact Or.inl h2
        · exact Or.inr (by rw [List.mem_singleton.mp h2]; exact List.mem_cons_self _ _)
      · exact Or.inr (List.mem_cons_of_mem _ h1)

theorem mem_foldl_inv {α β : Type} (l : List α) (f : β → α → β) (P : β → Prop)
    (hf : ∀ k a, P k → P (f k a)) :
    ∀ acc, P acc → P (l.foldl f acc) := by
  induction l with
  | nil => exact fun acc h => h
  | cons x t ih =>
    intro acc h
    rw [List.foldl_cons]
    exact ih (f acc x) (hf acc x h)

theorem extract_defines_clean (uuid : List Char) (pbx : DpbxD)
    (res : List (List Char × List (List Char)))
    (h : extract_defines uuid pbx = some res) :
    ∀ e ∈ res, ∀ dv ∈ e.2, dv ≠ sl "$(inherited)" ∧
      isSubstr (sl "CMAKE_INTDIR") dv = false := by
  rw [extract_defines] at h
  rcases hc : get_buildconfigs uuid pbx with _ | configs
  · rw [hc] at h
    cases h
  · rw [hc] at h
    cases h
    have hkeep : ∀ item : List Char,
        ∀ dv ∈ (splitOnSub
            (pySlice item (pyFindFrom item (sl "(")
              (pyFind item (sl "GCC_PREPROCESSOR_DEFINITIONS")) + 1)
              (pyFindFrom item (sl ")")
                (pyFindFrom item (sl "(")
                  (pyFind item (sl "GCC_PREPROCESSOR_DEFINITIONS")) + 1)))
            (sl ",")).foldl
          (fun keeping defval =>
            if item = sl "$(inherited)" then keeping
            else if isSubstr (sl "CMAKE_INTDIR") item = true then keeping
            else keeping ++ [defval]) [],
        dv ≠ sl "$(inherited)" ∧ isSubstr (sl "CMAKE_INTDIR") dv = false := by
      intro item dv hdv
      set a := pyFindFrom item (sl "(") (pyFind item (sl "GCC_PREPROCESSOR_DEFINITIONS")) + 1
        with ha
      have hf0 : ∀ (k : List (List Char)) (x : List Char),
          (if item = sl "$(inherited)" then k
           else if isSubstr (sl "CMAKE_INTDIR") item = true then k
           else k ++ [x]) = k ∨
          (if item = sl "$(inherited)" then k
           else if isSubstr (sl "CMAKE_INTDIR") item = true then k
           else k ++ [x]) = k ++ [x] := by
        intro k x
        by_cases h1 : item = sl "$(inherited)"
        · rw [if_pos h1]
          exact Or.inl rfl
        · rw [if_neg h1]
          by_cases h2 : isSubstr (sl "CMAKE_INTDIR") item = true
          · rw [if_pos h2]
            exact Or.inl rfl
          · rw [if_neg h2]
            exact Or.inr rfl
      have hdv2 : dv ∈ splitOnSub (pySlice item a (pyFindFrom item (sl ")") a)) (sl ",") := by
        rcases mem_foldl_append_cases _ _ hf0 [] dv hdv with h1 | h1
        · cases h1
        · exact h1
      have hnp : ∀ ch ∈ dv, ch ≠ ')' := by
        intro ch hch
        apply pySlice_to_first item ')' a
        rw [show sl ")" = [(')' : Char)] from rfl] at hdv2
        exact splitOnSub_chars hdv2 ch hch
      constructor
      · intro heq
        subst heq
        exact hnp ')' (by decide) rfl
      · by_cases hB : isSubstr (sl "CMAKE_INTDIR") item = true
        · exfalso
          have hnil : (splitOnSub (pySlice item a (pyFindFrom item (sl ")") a))
              (sl ",")).foldl
            (fun keeping defval =>
              if item = sl "$(inherited)" then keeping
              else if isSubstr (sl "CMAKE_INTDIR") item = true then keeping
              else keeping ++ [defval]) ([] : List (List Char)) = [] := by
            apply foldl_skip
            intro k x
            by_cases h1 : item = sl "$(inherited)"
            · rw [if_pos h1]
            · rw [if_neg h1, if_pos hB]
          rw [hnil] at hdv
          cases hdv
        · rw [Bool.not_eq_true] at hB
          cases hdvCM : isSubstr (sl "CMAKE_INTDIR") dv with
          | false => rfl
          | true =>
            exfalso
            have h1 : (sl "CMAKE_INTDIR") <:+: dv := infix_of_isSubstr hdvCM
            have h2 : dv <:+: item :=
              (splitOnSub_contained hdv2).trans (pySlice_contained item _ _)
            rw [isSubstr_of_contained (h1.trans h2)] at hB
            cases hB
    refine mem_foldl_inv _ _
      (fun result : List (List Char × List (List Char)) =>
        ∀ e ∈ result, ∀ dv ∈ e.2, dv ≠ sl "$(inherited)" ∧
          isSubstr (sl "CMAKE_INTDIR") dv = false) ?_ [] ?_
    · intro k item hk
      refine mem_foldl_inv _ _
        (fun result : List (List Char × List (List Char)) =>
          ∀ e ∈ result, ∀ dv ∈ e.2, dv ≠ sl "$(inherited)" ∧
            isSubstr (sl "CMAKE_INTDIR") dv = false) ?_ k hk
      intro k2 bc hk2
      by_cases hcond : isSubstr bc.2 item = true ∧
          isSubstr (sl "GCC_PREPROCESSOR_DEFINITIONS") item = true
      · simp only [if_pos hcond]
        intro e he
        rcases mem_aset he with rfl | he2
        · exact hkeep item
        · exact hk2 e he2
      · simp only [if_neg hcond]
        exact hk2
    · intro e he
      cases he

theorem filter_vslist_no_prefix (text : List Char) (prefixes : List (List Char))
    (elt : List Char) (h : elt ∈ filter_vslist text prefixes) (hp : prefixes ≠ []) :
    ∀ t ∈ prefixes, t.isPrefixOf elt = false := by
  rw [filter_vslist] at h
  refine mem_foldl_inv _ _
    (fun result : List (List Char) =>
      ∀ e ∈ result, ∀ t ∈ prefixes, t.isPrefixOf e = false) ?_ [] ?_ elt h
  · intro k x hk
    by_cases h1 : x.length = 0 ∨ x.headD ' ' = '%'
    · rw [if_pos h1]
      exact hk
    · rw [if_neg h1, if_pos hp]
      by_cases h2 : prefixes.any (fun t => t.isPrefixOf x) = true
      · rw [if_pos h2]
        exact hk
      · rw [if_neg h2]
        intro e he
        rcases List.mem_append.mp he with h3 | h3
        · exact hk e h3
        · rw [List.mem_singleton.mp h3]
          intro t ht
          rw [Bool.not_eq_true, List.any_eq_false] at h2
          have := h2 t ht
          rw [Bool.eq_false_iff]
          intro hcon
          rw [hcon] at this
          exact this rfl
  · intro e he
    cases he

/-- A concrete pbxproj fragment for the define-extraction demo: one native
target with Debug and Release build configurations. -/
def demo_dpbx : DpbxD := DpbxD.mk
  [sl "LIBA-TGT /* libA */ = isa = PBXNativeTarget; buildConfigurationList = CFGL-0001 /* Build configuration list */; name = libA;"]
  []
  [sl "CFGL-0001 /* Build configuration list */ = isa = XCConfigurationList; buildConfigurations = (CFGB-0001 /* Debug */, CFGB-0002 /* Release */); defaultConfigurationName = Release;"]
  [sl "CFGB-0001 /* Debug */ = isa = XCBuildConfiguration; buildSettings = GCC_PREPROCESSOR_DEFINITIONS = ($(inherited),DEBUG=1); MTL_ENABLE_DEBUG_INFO = YES;",
   sl "CFGB-0002 /* Release */ = isa = XCBuildConfiguration; buildSettings = GCC_PREPROCESSOR_DEFINITIONS = (NDEBUG,RELEASE=1); VALIDATE_PRODUCT = YES;"]

set_option maxRecDepth 16384 in
/-- C9 counterexample: the Windows define filter drops only defines that
START with a listed artifact name (windows.py 79: startswith); a define
merely containing CMAKE_INTDIR survives into the returned list. -/
theorem c9_counterexample :
    filter_vslist (sl "A_CMAKE_INTDIR;CMAKE_INTDIR=x;%(PreprocessorDefinitions)")
      vs_define_excepts = [sl "A_CMAKE_INTDIR"] ∧
    isSubstr (sl "CMAKE_INTDIR") (sl "A_CMAKE_INTDIR") = true := by
  constructor
  · decide
  · decide

/-- C9 (amended): in the Apple dialect no returned define equals
$(inherited) (the extraction truncates every define list at the first
closing parenthesis, so no define can contain one) and none contains
CMAKE_INTDIR (the whole-item test at apple.py 1020 then drops every define
of that configuration); in the Windows dialect the filter guarantees only
that no define STARTS with a listed artifact prefix. -/
theorem c9_define_filtering :
    (∀ (uuid : List Char) (pbx : DpbxD) (res : List (List Char × List (List Char))),
      extract_defines uuid pbx = some res →
      ∀ e ∈ res, ∀ dv ∈ e.2, dv ≠ sl "$(inherited)" ∧
        isSubstr (sl "CMAKE_INTDIR") dv = false) ∧
    (∀ (text : List Char) (prefixes : List (List Char)) (elt : List Char),
      elt ∈ filter_vslist text prefixes → prefixes ≠ [] →
      ∀ t ∈ prefixes, t.isPrefixOf elt = false) :=
  ⟨extract_defines_clean, filter_vslist_no_prefix⟩

set_option maxRecDepth 16384 in
theorem c9_define_filtering_witness :
    ((sl "NDEBUG") ≠ sl "$(inherited)" ∧
      isSubstr (sl "CMAKE_INTDIR") (sl "NDEBUG") = false) ∧
    (sl "WIN32").isPrefixOf (sl "A_CMAKE_INTDIR") = false :=
  ⟨c9_define_filtering.1 (sl "LIBA-TGT") demo_dpbx
     [(sl "debug", [sl "$(inherited"]), (sl "release", [sl "NDEBUG", sl "RELEASE=1"])]
     (by decide) (sl "release", [sl "NDEBUG", sl "RELEASE=1"]) (by decide)
     (sl "NDEBUG") (by decide),
   c9_define_filtering.2 (sl "A_CMAKE_INTDIR;CMAKE_INTDIR=x;%(PreprocessorDefinitions)")
     vs_define_excepts (sl "A_CMAKE_INTDIR") (by decide) (by decide)
     (sl "WIN32") (by decide)⟩

/-- The frameworks-phase reference scrape of link_external (apple.py lines
1430-1437): the last native-target item containing the target contributes
the stripped text after the last newline before its Frameworks marker. -/
def scrape_fwphase (target : List Char) (natives : List (List Char)) : List Char :=
  natives.foldl (fun acc line =>
    if isSubstr target line = true then
      let pos0 := pyFind line (sl "/* Frameworks */")
      let line2 := pySliceTo line pos0
      let pos1 := pyRfind line2 (sl "\n")
      stripChars (pySliceFrom line2 pos1)
    else acc) []

/-- The build-phase splice of link_external (apple.py lines 1439-1445):
each PBXFrameworksBuildPhase item containing the scraped phase reference
has the accumulated link lines inserted after its files line; all other
items are written back unchanged. -/
def link_fwphase (pbxframeworks pbxlink : List Char) (phases : List (List Char)) :
    List (List Char) :=
  phases.map (fun line =>
    if isSubstr pbxframeworks line = true then
      let pos0 := pyFind line (sl "files")
      let pos0b := pyFindFrom line (sl "\n") pos0 + 1
      pySliceTo line pos0b ++ pbxlink ++ pySliceFrom line pos0b
    else line)

/-- The Condition attribute parse of expand_build_configurations
(windows.py lines 782-789). -/
def build_cond_parse (text : List Char) : List Char × List Char :=
  let pos0 := pyFind text (sl "==")
  let pos0b := pyFindFrom text (sl "'") pos0 + 1
  let pos1 := pyFindFrom text (sl "|") pos0b
  let kind := lowerChars (pySlice text pos0b pos1)
  let pos0c := pos1 + 1
  let pos1b := pyFindFrom text (sl "''") pos0c
  let arch := lowerChars (pySlice text pos0c pos1b)
  (kind, arch)

/-- The per-build gathering of expand_build_configurations (windows.py
lines 791-803): external includes, defines and dependencies are spliced in
for the x64 architecture only; a build type missing from the module data
raises (none). -/
def gather_build_info (allincludes alldefines : List Char)
    (builddata : List (List Char × (List (List Char) × List (List Char) × List (List Char))))
    (kind arch : List Char) : Option (List Char × List Char × List Char) :=
  match aget builddata kind with
  | none => none
  | some bd =>
    some
      ((if arch = sl "x64" ∧ bd.1 ≠ [] then
          allincludes ++ joinSep (sl ";") bd.1 ++ sl ";"
        else allincludes),
       (if arch = sl "x64" ∧ bd.2.1 ≠ [] then
          alldefines ++ joinSep (sl ";") bd.2.1 ++ sl ";"
        else sl ""),
       (if arch = sl "x64" ∧ bd.2.2 ≠ [] then
          joinSep (sl ";") bd.2.2 ++ sl ";"
        else sl ""))

theorem link_fwphase_length (fw link : List Char) (phases : List (List Char)) :
    (link_fwphase fw link phases).length = phases.length := by
  rw [link_fwphase, List.length_map]

/-- C6: splicing an external module touches only its own platform target.
Apple: a frameworks build phase not containing the current target's phase
reference is written back byte-identical, and a phase containing it becomes
exactly the old phase with the link lines inserted at one position.
Windows: for any architecture other than x64 the gathered info leaves the
includes unchanged and adds no defines and no dependencies. -/
theorem c6_link_frame_property :
    (∀ (fw link : List Char) (phases : List (List Char)) (i : Nat)
      (hi : i < phases.length),
      (isSubstr fw (phases.get ⟨i, hi⟩) = false →
        (link_fwphase fw link phases).get
          ⟨i, by rw [link_fwphase_length]; exact hi⟩ = phases.get ⟨i, hi⟩) ∧
      (isSubstr fw (phases.get ⟨i, hi⟩) = true →
        ∃ x y, (link_fwphase fw link phases).get
            ⟨i, by rw [link_fwphase_length]; exact hi⟩ = x ++ link ++ y ∧
          phases.get ⟨i, hi⟩ = x ++ y)) ∧
    (∀ (allincludes alldefines : List Char)
      (builddata : List (List Char ×
        (List (List Char) × List (List Char) × List (List Char))))
      (kind arch : List Char) (info : List Char × List Char × List Char),
      gather_build_info allincludes alldefines builddata kind arch = some info →
      arch ≠ sl "x64" → info = (allincludes, sl "", sl "")) := by
  constructor
  · intro fw link phases i hi
    constructor
    · intro hno
      simp only [List.get_eq_getElem] at hno ⊢
      simp only [link_fwphase, List.getElem_map]
      rw [if_neg (by simp [hno])]
    · intro hyes
      simp only [List.get_eq_getElem] at hyes ⊢
      simp only [link_fwphase, List.getElem_map]
      rw [if_pos hyes]
      refine ⟨pySliceTo (phases.get ⟨i, hi⟩)
          (pyFindFrom (phases.get ⟨i, hi⟩) (sl "\n")
            (pyFind (phases.get ⟨i, hi⟩) (sl "files")) + 1),
        pySliceFrom (phases.get ⟨i, hi⟩)
          (pyFindFrom (phases.get ⟨i, hi⟩) (sl "\n")
            (pyFind (phases.get ⟨i, hi⟩) (sl "files")) + 1), rfl, ?_⟩
      rw [pySliceTo, pySliceFrom, List.take_append_drop]
      rfl
  · intro allincludes alldefines builddata kind arch info h harch
    rw [gather_build_info] at h
    rcases hbd : aget builddata kind with _ | bd
    · rw [hbd] at h
      cases h
    · rw [hbd] at h
      have hc : ∀ (l : List (List Char)), ¬(arch = sl "x64" ∧ l ≠ []) := by
        intro l hcon
        exact harch hcon.1
      cases h
      rw [if_neg (hc _), if_neg (hc _), if_neg (hc _)]

/-- Two concrete frameworks build phases: the macOS target's phase and the
iOS target's phase. -/
def demo_fw_phases : List (List Char) :=
  [sl "FWPH-1 /* Frameworks */ = isa = PBXFrameworksBuildPhase; files = (\n\t\t\t\tOLDF-1 /* libold.a in Frameworks */,\n); runOnlyForDeploymentPostprocessing = 0;",
   sl "FWPH-2 /* Frameworks */ = isa = PBXFrameworksBuildPhase; files = (\n); runOnlyForDeploymentPostprocessing = 0;"]

/-- A concrete accumulated link line for an external library. -/
def demo_fw_link : List Char := sl "\t\t\t\tLIBF-1 /* libA.a in Frameworks */,\n"

/-- Concrete per-build module data for the Windows splice. -/
def demo_builddata :
    List (List Char × (List (List Char) × List (List Char) × List (List Char))) :=
  [(sl "debug", ([sl "C:\\cugl\\include"], [sl "CUGL_DEBUG=1"], [sl "cugl.lib"]))]

set_option maxRecDepth 16384 in
theorem c6_link_frame_property_witness :
    (link_fwphase (sl "FWPH-1") demo_fw_link demo_fw_phases).get ⟨1, by decide⟩ =
      demo_fw_phases.get ⟨1, by decide⟩ ∧
    ((sl "inc;", sl "", sl "") : List Char × List Char × List Char) =
      (sl "inc;", sl "", sl "") :=
  ⟨(c6_link_frame_property.1 (sl "FWPH-1") demo_fw_link demo_fw_phases 1 (by decide)).1
     (by decide),
   c6_link_frame_property.2 (sl "inc;") (sl "defs;") demo_builddata (sl "debug")
     (sl "win32") (sl "inc;", sl "", sl "") (by decide) (by decide)⟩

/-- A concrete Xcode project model on which the Apple expand_targets
recurses forever: the recursion key is the product reference YX extracted
from the native target, but the file-reference scan for YX stores the
targetset entry under the line's leading uuid Y, so the guard at apple.py
1170 never sees YX recorded. -/
def demo_apbx_cyc : ApbxD := ApbxD.mk
  [sl "Y /* libYX.a */ = isa = PBXFileReference; path = libYX.a; sourceTree = BUILT_PRODUCTS_DIR;"]
  [sl "T1 /* libYX */ = isa = PBXNativeTarget; dependencies = (\nD1 /* PBXTargetDependency */,\n); name = libYX; productReference = YX /* libYX.a */;"]
  [sl "D1 /* PBXTargetDependency */ = isa = PBXTargetDependency; target = T1 /* libYX */; targetProxy = P1 /* PBXContainerItemProxy */;"]

theorem expandA_zero (t : List Char) (ts : ATset) (pbx : ApbxD) :
    expandA 0 t ts pbx = ERes.fuelout := rfl

theorem expandA_succ (fuel : Nat) (t : List Char) (ts : ATset) (pbx : ApbxD) :
    expandA (fuel + 1) t ts pbx =
      (match find_fileref t pbx.fileRefs with
       | none => ERes.out ts
       | some line =>
         runAItems (fun du ts2 => expandA fuel du ts2 pbx)
           (identified_list (dep_candidates (fileref_extract line).1 pbx.nativeTargets)
             pbx.targetDeps)
           pbx.nativeTargets
           (aset ts (fileref_extract line).1
             ((fileref_extract line).2.1, (fileref_extract line).2.2))) := rfl

theorem runAFounds_nil (step : List Char → ATset → ERes ATset) (item : List Char)
    (ts : ATset) : runAFounds step item [] ts = ERes.out ts := rfl

theorem runAFounds_cons (step : List Char → ATset → ERes ATset) (item found : List Char)
    (fs : List (List Char)) (ts : ATset) :
    runAFounds step item (found :: fs) ts =
      (if isSubstr found item = true then
        if prodref_extract item ≠ [] ∧ ahas ts (prodref_extract item) = false then
          match step (prodref_extract item) ts with
          | ERes.out ts2 => runAFounds step item fs ts2
          | ERes.fuelout => ERes.fuelout
        else runAFounds step item fs ts
      else runAFounds step item fs ts) := rfl

theorem runAItems_nil (step : List Char → ATset → ERes ATset) (ident : List (List Char))
    (ts : ATset) : runAItems step ident [] ts = ERes.out ts := rfl

theorem runAItems_cons (step : List Char → ATset → ERes ATset) (ident : List (List Char))
    (item : List Char) (rest : List (List Char)) (ts : ATset) :
    runAItems step ident (item :: rest) ts =
      (match runAFounds step item ident ts with
       | ERes.out ts2 => runAItems step ident rest ts2
       | ERes.fuelout => ERes.fuelout) := rfl

theorem find_fileref_mem {t l : List Char} {frs : List (List Char)}
    (h : find_fileref t frs = some l) : l ∈ frs := by
  induction frs with
  | nil => cases h
  | cons l0 rest ih =>
    rw [find_fileref] at h
    split at h
    · cases h
      exact List.mem_cons_self _ _
    · exact List.mem_cons_of_mem _ (ih h)

set_option maxRecDepth 65536 in
theorem expandA_cyc_aux : ∀ (fuel : Nat) (ts : ATset), ahas ts (sl "YX") = false →
    expandA fuel (sl "YX") ts demo_apbx_cyc = ERes.fuelout := by
  intro fuel
  induction fuel with
  | zero =>
    intro ts _
    exact expandA_zero _ _ _
  | succ f ih =>
    intro ts hts
    have hstep : expandA (f + 1) (sl "YX") ts demo_apbx_cyc =
        runAItems (fun du ts2 => expandA f du ts2 demo_apbx_cyc) [sl "T1"]
          demo_apbx_cyc.nativeTargets
          (aset ts (sl "Y") (sl "libYX.a", sl "libYX.a")) := rfl
    rw [hstep]
    rw [show demo_apbx_cyc.nativeTargets =
      [sl "T1 /* libYX */ = isa = PBXNativeTarget; dependencies = (\nD1 /* PBXTargetDependency */,\n); name = libYX; productReference = YX /* libYX.a */;"]
      from rfl]
    rw [runAItems_cons, runAFounds_cons]
    rw [if_pos (by decide)]
    rw [show prodref_extract
      (sl "T1 /* libYX */ = isa = PBXNativeTarget; dependencies = (\nD1 /* PBXTargetDependency */,\n); name = libYX; productReference = YX /* libYX.a */;") =
      sl "YX" from by decide]
    have hts1 : ahas (aset ts (sl "Y") (sl "libYX.a", sl "libYX.a")) (sl "YX") = false := by
      rw [ahas_aset_other _ _ _ _ (by decide)]
      exact hts
    rw [if_pos ⟨by decide, hts1⟩]
    rw [ih _ hts1]

/-- Guard coherence for one recursion key: if the file-reference scan for
the key finds a line, the uuid extracted from that line (under which the
targetset entry is stored, apple.py 1114 and 1126) is the key itself, so
the guard of apple.py 1170 can see the recorded entry. -/
def coh_key (pbx : ApbxD) (t : List Char) : Prop :=
  ∀ line, find_fileref t pbx.fileRefs = some line → (fileref_extract line).1 = t

instance (pbx : ApbxD) (t : List Char) : Decidable (coh_key pbx t) :=
  match hf : find_fileref t pbx.fileRefs with
  | none =>
    Decidable.isTrue (fun line h => by rw [hf] at h; cases h)
  | some l =>
    if he : (fileref_extract l).1 = t then
      Decidable.isTrue (fun line h => by rw [hf] at h; cases h; exact he)
    else
      Decidable.isFalse (fun hc => he (hc l hf))

/-- The number of file-reference uuids not yet recorded in the targetset. -/
def amiss (pbx : ApbxD) (ts : ATset) : Nat :=
  ((pbx.fileRefs.map (fun l => (fileref_extract l).1)).filter (fun k => !ahas ts k)).length

theorem amiss_mono (pbx : ApbxD) (ts ts2 : ATset)
    (h : ∀ k, ahas ts k = true → ahas ts2 k = true) : amiss pbx ts2 ≤ amiss pbx ts := by
  apply filter_len_mono
  intro k hk
  simp only [Bool.not_eq_true'] at hk ⊢
  cases hts : ahas ts k with
  | false => rfl
  | true => rw [h k hts] at hk; cases hk

theorem amiss_lt (pbx : ApbxD) (ts ts2 : ATset) (t : List Char)
    (hmono : ∀ k, ahas ts k = true → ahas ts2 k = true)
    (hfresh : ahas ts t = false) (hnew : ahas ts2 t = true)
    (hkey : t ∈ pbx.fileRefs.map (fun l => (fileref_extract l).1)) :
    amiss pbx ts2 < amiss pbx ts := by
  apply filter_len_lt _ _ _ ?_ t hkey ?_ ?_
  · intro k hk
    simp only [Bool.not_eq_true'] at hk ⊢
    cases hts : ahas ts k with
    | false => rfl
    | true => rw [hmono k hts] at hk; cases hk
  · simp [hfresh]
  · simp [hnew]

theorem runAFounds_mono_gen (step : List Char → ATset → ERes ATset)
    (hstep : ∀ t ts ts', step t ts = ERes.out ts' →
      ∀ k, ahas ts k = true → ahas ts' k = true) (item : List Char) :
    ∀ (founds : List (List Char)) (ts ts' : ATset),
      runAFounds step item founds ts = ERes.out ts' →
      ∀ k, ahas ts k = true → ahas ts' k = true := by
  intro founds
  induction founds with
  | nil =>
    intro ts ts' h
    rw [runAFounds_nil] at h
    cases h
    exact fun k hk => hk
  | cons fd fs ih =>
    intro ts ts' h
    rw [runAFounds_cons] at h
    by_cases h1 : isSubstr fd item = true
    · rw [if_pos h1] at h
      by_cases h2 : prodref_extract item ≠ [] ∧ ahas ts (prodref_extract item) = false
      · rw [if_pos h2] at h
        cases hx : step (prodref_extract item) ts with
        | out ts2 =>
          rw [hx] at h
          intro k hk
          exact ih ts2 ts' h k (hstep _ ts ts2 hx k hk)
        | fuelout =>
          rw [hx] at h
          cases h
      · rw [if_neg h2] at h
        exact ih ts ts' h
    · rw [if_neg h1] at h
      exact ih ts ts' h

theorem runAItems_mono_gen (step : List Char → ATset → ERes ATset)
    (hstep : ∀ t ts ts', step t ts = ERes.out ts' →
      ∀ k, ahas ts k = true → ahas ts' k = true) (ident : List (List Char)) :
    ∀ (items : List (List Char)) (ts ts' : ATset),
      runAItems step ident items ts = ERes.out ts' →
      ∀ k, ahas ts k = true → ahas ts' k = true := by
  intro items
  induction items with
  | nil =>
    intro ts ts' h
    rw [runAItems_nil] at h
    cases h
    exact fun k hk => hk
  | cons item rest ih =>
    intro ts ts' h
    rw [runAItems_cons] at h
    cases hx : runAFounds step item ident ts with
    | out ts2 =>
      rw [hx] at h
      intro k hk
      exact ih ts2 ts' h k (runAFounds_mono_gen step hstep item ident ts ts2 hx k hk)
    | fuelout =>
      rw [hx] at h
      cases h

theorem expandA_mono : ∀ fuel : Nat,
    ∀ (t : List Char) (ts : ATset) (pbx : ApbxD) (ts' : ATset),
      expandA fuel t ts pbx = ERes.out ts' →
      ∀ k, ahas ts k = true → ahas ts' k = true := by
  intro fuel
  induction fuel with
  | zero =>
    intro t ts pbx ts' h
    rw [expandA_zero] at h
    cases h
  | succ f ih =>
    intro t ts pbx ts' h
    rw [expandA_succ] at h
    split at h
    · cases h
      exact fun k hk => hk
    · rename_i line hf
      intro k hk
      exact runAItems_mono_gen _ (fun t2 ts2 ts3 hx => ih t2 ts2 pbx ts3 hx) _ _ _ _ h k
        (ahas_aset_mono ts _ k _ hk)

theorem expandA_term_core (pbx : ApbxD)
    (HC : ∀ item ∈ pbx.nativeTargets, coh_key pbx (prodref_extract item)) :
    ∀ fuel : Nat,
    (∀ (t : List Char) (ts : ATset), coh_key pbx t → ahas ts t = false →
      amiss pbx ts + 1 ≤ fuel → ∃ ts', expandA fuel t ts pbx = ERes.out ts') ∧
    (∀ (items : List (List Char)), (∀ item ∈ items, item ∈ pbx.nativeTargets) →
      ∀ (ident : List (List Char)) (ts : ATset), amiss pbx ts + 1 ≤ fuel →
      ∃ ts', runAItems (fun du ts2 => expandA fuel du ts2 pbx) ident items ts =
        ERes.out ts') := by
  intro fuel
  induction fuel with
  | zero =>
    constructor
    · intro t ts _ _ hb
      omega
    · intro items _ ident ts hb
      omega
  | succ f ih =>
    have hP1 : ∀ (t : List Char) (ts : ATset), coh_key pbx t → ahas ts t = false →
        amiss pbx ts + 1 ≤ f + 1 → ∃ ts', expandA (f + 1) t ts pbx = ERes.out ts' := by
      intro t ts hcoh hfresh hb
      cases hff : find_fileref t pbx.fileRefs with
      | none => exact ⟨ts, by rw [expandA_succ, hff]⟩
      | some line =>
        have huuid : (fileref_extract line).1 = t := hcoh line hff
        have hkey : t ∈ pbx.fileRefs.map (fun l => (fileref_extract l).1) := by
          rw [← huuid]
          exact List.mem_map.mpr ⟨line, find_fileref_mem hff, rfl⟩
        have hlt : amiss pbx (aset ts t ((fileref_extract line).2.1,
            (fileref_extract line).2.2)) < amiss pbx ts := by
          apply amiss_lt pbx ts _ t (fun k hk => ahas_aset_mono ts t k _ hk) hfresh
            (ahas_aset_self ts t _) hkey
        obtain ⟨ts', h'⟩ := ih.2 pbx.nativeTargets (fun i hi => hi)
          (identified_list (dep_candidates (fileref_extract line).1 pbx.nativeTargets)
            pbx.targetDeps)
          (aset ts t ((fileref_extract line).2.1, (fileref_extract line).2.2))
          (by omega)
        rw [← huuid] at h'
        refine ⟨ts', ?_⟩
        rw [expandA_succ, hff]
        exact h'
    have hFounds : ∀ (item : List Char), item ∈ pbx.nativeTargets →
        ∀ (founds : List (List Char)) (ts : ATset), amiss pbx ts + 1 ≤ f + 1 →
        ∃ ts', runAFounds (fun du ts2 => expandA (f + 1) du ts2 pbx) item founds ts =
          ERes.out ts' := by
      intro item hmem founds
      induction founds with
      | nil =>
        intro ts _
        exact ⟨ts, rfl⟩
      | cons fd fs ihf =>
        intro ts hb
        rw [runAFounds_cons]
        by_cases h1 : isSubstr fd item = true
        · rw [if_pos h1]
          by_cases h2 : prodref_extract item ≠ [] ∧ ahas ts (prodref_extract item) = false
          · rw [if_pos h2]
            obtain ⟨ts2, hx⟩ := hP1 (prodref_extract item) ts (HC item hmem) h2.2 hb
            have hb2 : amiss pbx ts2 + 1 ≤ f + 1 := by
              have := amiss_mono pbx ts ts2 (expandA_mono (f + 1) _ ts pbx ts2 hx)
              omega
            obtain ⟨ts3, h3⟩ := ihf ts2 hb2
            refine ⟨ts3, ?_⟩
            rw [hx]
            exact h3
          · rw [if_neg h2]
            exact ihf ts hb
        · rw [if_neg h1]
          exact ihf ts hb
    have hItems : ∀ (items : List (List Char)), (∀ item ∈ items, item ∈ pbx.nativeTargets) →
        ∀ (ident : List (List Char)) (ts : ATset), amiss pbx ts + 1 ≤ f + 1 →
        ∃ ts', runAItems (fun du ts2 => expandA (f + 1) du ts2 pbx) ident items ts =
          ERes.out ts' := by
      intro items
      induction items with
      | nil =>
        intro _ ident ts _
        exact ⟨ts, rfl⟩
      | cons item rest ihi =>
        intro hsub ident ts hb
        obtain ⟨ts2, h2⟩ := hFounds item (hsub item (List.mem_cons_self _ _)) ident ts hb
        have hm := runAFounds_mono_gen _
          (fun t2 tsa tsb hx => expandA_mono (f + 1) t2 tsa pbx tsb hx) item ident ts ts2 h2
        have hb2 : amiss pbx ts2 + 1 ≤ f + 1 := by
          have := amiss_mono pbx ts ts2 hm
          omega
        obtain ⟨ts3, h3⟩ := ihi (fun i hi => hsub i (List.mem_cons_of_mem _ hi)) ident ts2 hb2
        refine ⟨ts3, ?_⟩
        rw [runAItems_cons, h2]
        exact h3
    exact ⟨hP1, hItems⟩

theorem expandA_terminates (pbx : ApbxD)
    (HC : ∀ item ∈ pbx.nativeTargets, coh_key pbx (prodref_extract item))
    (t : List Char) (ts : ATset) (fuel : Nat) (hf : amiss pbx ts + 2 ≤ fuel) :
    ∃ ts', expandA fuel t ts pbx = ERes.out ts' := by
  obtain ⟨f, rfl⟩ : ∃ f, fuel = f + 1 := ⟨fuel - 1, by omega⟩
  cases hff : find_fileref t pbx.fileRefs with
  | none => exact ⟨ts, by rw [expandA_succ, hff]⟩
  | some line =>
    have hle : amiss pbx (aset ts (fileref_extract line).1 ((fileref_extract line).2.1,
        (fileref_extract line).2.2)) ≤ amiss pbx ts :=
      amiss_mono pbx ts _ (fun k hk => ahas_aset_mono ts _ k _ hk)
    obtain ⟨ts', h'⟩ := (expandA_term_core pbx HC f).2 pbx.nativeTargets (fun i hi => hi)
      (identified_list (dep_candidates (fileref_extract line).1 pbx.nativeTargets)
        pbx.targetDeps)
      (aset ts (fileref_extract line).1 ((fileref_extract line).2.1,
        (fileref_extract line).2.2))
      (by omega)
    refine ⟨ts', ?_⟩
    rw [expandA_succ, hff]
    exact h'

/-- C10 counterexample: both dialects can recurse forever on a finite
project model.  Windows: a project whose dependency names it by display
name defeats the guard at windows.py 870, which looks the raw dependency
string up in a targetset keyed by project uuid (line 882).  Apple: a
product-reference key YX whose matching file-reference line stores its
entry under the line's leading uuid Y (apple.py 1114, 1126) is never seen
by the guard at apple.py 1170, and the recursion repeats forever. -/
theorem c10_counterexample :
    expandW 50 (sl "appB") [] demo_cyc_sln = ERes.fuelout ∧
    expandA 50 (sl "YX") [] demo_apbx_cyc = ERes.fuelout :=
  ⟨expandW_cyc_aux 50 [] rfl, expandA_cyc_aux 50 [] rfl⟩

/-- C10 (amended): in both dialects the recursion guard keys the targetset
by a stored identifier that can differ from the recursion key, so a cycle
through a mismatched key exhausts every finite depth budget; when the keys
agree — Windows: every dependency matches projects only by uuid; Apple:
every product-reference key extracts back to itself from its
file-reference line — expand_targets terminates within recursion depth
(number of unrecorded identifiers) + 2 for every root target and every
starting targetset. -/
theorem c10_expand_targets_termination :
    (∀ (sd : SlnData) (ps : List (List Char × SlnProj)), sd.projects = some ps →
      (∀ e ∈ ps, ∀ d ∈ e.2.deps, ∀ e2 ∈ ps, (d = e2.1 ∨ d = e2.2.name) → d = e2.1) →
      ∀ (tgt : List Char) (ts : WTset) (fuel : Nat), wmiss ps ts + 2 ≤ fuel →
        ∃ ts', expandW fuel tgt ts sd = ERes.out ts') ∧
    (∀ fuel : Nat, expandW fuel (sl "appB") [] demo_cyc_sln = ERes.fuelout) ∧
    (∀ (pbx : ApbxD), (∀ item ∈ pbx.nativeTargets, coh_key pbx (prodref_extract item)) →
      ∀ (t : List Char) (ts : ATset) (fuel : Nat), amiss pbx ts + 2 ≤ fuel →
        ∃ ts', expandA fuel t ts pbx = ERes.out ts') ∧
    (∀ fuel : Nat, expandA fuel (sl "YX") [] demo_apbx_cyc = ERes.fuelout) :=
  ⟨fun sd ps hps H1 tgt ts fuel hf => expandW_terminates sd ps hps H1 tgt ts fuel hf,
   fun fuel => expandW_cyc_aux fuel [] rfl,
   fun pbx HC t ts fuel hf => expandA_terminates pbx HC t ts fuel hf,
   fun fuel => expandA_cyc_aux fuel [] rfl⟩

set_option maxRecDepth 65536 in
theorem c10_expand_targets_termination_witness :
    ((∃ ts', expandW 5 (sl "appB") [] demo_wsln_ab = ERes.out ts') ∧
      expandW 7 (sl "appB") [] demo_cyc_sln = ERes.fuelout) ∧
    (∃ ts', expandA 4 (sl "libB.a") [] demo_apbx_ab = ERes.out ts') ∧
    expandA 7 (sl "YX") [] demo_apbx_cyc = ERes.fuelout :=
  ⟨⟨c10_expand_targets_termination.1 demo_wsln_ab
      [(sl "AAAA-1111", SlnProj.mk (sl "libA.vcxproj") (sl "libA") PROJ_UUID []),
       (sl "BBBB-2222", SlnProj.mk (sl "appB.vcxproj") (sl "appB") PROJ_UUID
          [sl "ZCZC-0000", sl "AAAA-1111"]),
       (sl "ZCZC-0000", SlnProj.mk (sl "ZERO_CHECK.vcxproj") (sl "ZERO_CHECK") PROJ_UUID [])]
      rfl (by decide) (sl "appB") [] 5 (by decide),
    c10_expand_targets_termination.2.1 7⟩,
   c10_expand_targets_termination.2.2.1 demo_apbx_ab (by decide) (sl "libB.a") [] 4
     (by decide),
   c10_expand_targets_termination.2.2.2 7⟩
